import Mathlib

/-!
ADS_set: a hash set with separate chaining (src/ADS_set.h)

Shallow embedding of the C++ class template `ADS_set<Key, N>`.

Modelling conventions
* An `Element*` is the chain that starts at that node: `nullptr` is `[]`, a
  node with key `k` and successor `next` is `k :: next`.
* The bucket array `Element** table` is a list of chains; `tableSize` is kept
  as its own field, as in the source.
* `key_equal` is equality on `Key`, `hasher` is a parameter `Key → Nat`.
* `size_type` values are natural numbers.  The arithmetic of the source
  (`++elementSize`, `--elementSize`, `tableSize * 6 + 1`) stays far below
  `2^64` for every table that fits in memory, so no wrap-around is modelled.
* The growth test `static_cast<float>(elementSize) / tableSize > lf` with
  `float lf = 0.5` is computed in binary32, round to nearest, ties to even
  (`toFloat`, `floatDivGtHalf`, `overLoad`); it agrees with the exact test
  `2 * elementSize > tableSize` as long as `tableSize < 2^24`.
* Which object owns which node is not visible in chains of keys.  For the claims
  on copies the member functions are embedded a second time, in `Mem`, over a
  free store of nodes and arrays addressed by pointers; `run_rep` and `read_spec`
  show that an object built in the store holds the set value of the first
  embedding.  `std::swap(lf, other.lf)` is left out there: `lf` is `0.5` in every
  object.
-/

set_option autoImplicit false
set_option linter.unusedSectionVars false
set_option maxRecDepth 8000

namespace ADS

variable {Key : Type} [DecidableEq Key]

/-- The data members of `ADS_set::Iterator`: current node, bucket array, bucket
count, bucket index. -/
structure Iterator (Key : Type) where
  current : List Key
  table : List (List Key)
  tableSize : Nat
  index : Nat
deriving DecidableEq, Repr

/-- The data members of `ADS_set`: bucket array, element count, bucket count. -/
structure ADS_set (Key : Type) where
  table : List (List Key)
  elementSize : Nat
  tableSize : Nat
deriving DecidableEq, Repr

/-- The read `table[i]` of the bucket array (an index outside the array reads
as the empty chain). -/
def chainAt (table : List (List Key)) (i : Nat) : List Key :=
  match table[i]? with
  | some chain => chain
  | none => []

/-- The statement `table[index] = new Element(key, table[index])` of `add`, and
the relinking `current->next = new_table[newIndex]; new_table[newIndex] = current`
of `resize`: the key becomes the head of chain `index`. -/
def pushFront (table : List (List Key)) (index : Nat) (key : Key) : List (List Key) :=
  table.set index (key :: chainAt table index)

/-- The position of the highest set bit of `n`, by repeated halving (the first
argument bounds the number of halvings; `ilog2` passes `n`). -/
def ilog2Aux : Nat → Nat → Nat
  | 0, _ => 0
  | fuel + 1, n => if n < 2 then 0 else ilog2Aux fuel (n / 2) + 1

/-- The binary exponent of `n >= 1`: `2 ^ ilog2 n <= n < 2 ^ (ilog2 n + 1)`. -/
def ilog2 (n : Nat) : Nat := ilog2Aux n n

/-- Rounding to the 24-bit significand of binary32, to nearest, ties to even: the
argument is the integer `q` followed by a fraction that is nonzero iff `sticky`;
the result is the nearest integer multiple of `2^k` with at most 24 significant
bits.  (A `q` below `2^24` is returned as it is; the callers pass a set `sticky`
only with `q >= 2^25`.) -/
def round24 (q : Nat) (sticky : Bool) : Nat :=
  if q < 2 ^ 24 then q
  else
    let k := ilog2 q - 23
    let m := q / 2 ^ k
    let r := q % 2 ^ k
    if 2 ^ k < 2 * r ∨ (2 * r = 2 ^ k ∧ (sticky = true ∨ m % 2 = 1)) then (m + 1) * 2 ^ k
    else m * 2 ^ k

/-- The conversion of a `size_type` value to `float` (binary32), as in
`static_cast<float>(elementSize)` and in the conversion of `tableSize` for the
division: exact below `2^24`, rounded to 24 significant bits above.  The result
is again an integer. -/
def toFloat (n : Nat) : Nat := round24 n false

/-- The comparison `a / b > 0.5f` of `add`, for two `float` values that are
non-negative integers: the quotient is rounded to binary32 and then compared
with one half.  The quotient is held scaled by `2^s`, with `s` large enough to
leave at least 26 bits before the fraction.  (For `b = 0`, which needs
`tableSize = 0`, the model answers `false`.) -/
def floatDivGtHalf (a b : Nat) : Bool :=
  let s := ilog2 b + 26
  let q := a * 2 ^ s / b
  let sticky := decide (a * 2 ^ s % b ≠ 0)
  decide (2 ^ (s - 1) < round24 q sticky)

/-- The growth test of `add`, `static_cast<float>(elementSize) / tableSize > lf`
with `float lf = 0.5`: both counts are converted to binary32, divided in binary32
and the quotient is compared with one half. -/
def overLoad (elementSize tableSize : Nat) : Bool :=
  floatDivGtHalf (toFloat elementSize) (toFloat tableSize)

namespace ADS_set

/-- The default constructor `ADS_set()`: `N` empty buckets. -/
def new (N : Nat) : ADS_set Key :=
  { table := List.replicate N [], elementSize := 0, tableSize := N }

/-- The bucket index `hasher{}(key) % tableSize`. -/
def hash_func (hasher : Key → Nat) (s : ADS_set Key) (key : Key) : Nat :=
  hasher key % s.tableSize

/-- The scan of `locate` along one chain: the node holding `key`, or `nullptr`. -/
def locateFrom (key : Key) : List Key → List Key
  | [] => []
  | e :: next => if e = key then e :: next else locateFrom key next

/-- The node of `key` in its bucket, `[]` for `nullptr`. -/
def locate (hasher : Key → Nat) (s : ADS_set Key) (key : Key) : List Key :=
  locateFrom key (chainAt s.table (hash_func hasher s key))

/-- The member `size()`. -/
def size (s : ADS_set Key) : Nat := s.elementSize

/-- The member `empty()`. -/
def empty (s : ADS_set Key) : Bool := decide (s.elementSize = 0)

/-- The member `count(key)`: `locate(key) != nullptr` as a `size_type`. -/
def count (hasher : Key → Nat) (s : ADS_set Key) (key : Key) : Nat :=
  if (locate hasher s key).isEmpty then 0 else 1

/-- The member `resize()`: a fresh array of `tableSize * 6 + 1` buckets into which
every node is relinked, bucket by bucket and along each chain from its head. -/
def resize (hasher : Key → Nat) (s : ADS_set Key) : ADS_set Key :=
  let newTableSize := s.tableSize * 6 + 1
  let new_table := (List.range s.tableSize).foldl
    (fun nt i => (chainAt s.table i).foldl
      (fun nt2 key => pushFront nt2 (hasher key % newTableSize) key) nt)
    (List.replicate newTableSize [])
  { table := new_table, elementSize := s.elementSize, tableSize := newTableSize }

/-- The member `add(key)`. -/
def add (hasher : Key → Nat) (s : ADS_set Key) (key : Key) : ADS_set Key :=
  let index := hash_func hasher s key
  if (locate hasher s key).isEmpty then
    let s1 : ADS_set Key :=
      { table := pushFront s.table index key
        elementSize := s.elementSize + 1
        tableSize := s.tableSize }
    if overLoad s1.elementSize s1.tableSize then resize hasher s1 else s1
  else s

/-- The range overload `insert(first, last)`: `add` for each element in order. -/
def insertRange (hasher : Key → Nat) (s : ADS_set Key) (keys : List Key) : ADS_set Key :=
  keys.foldl (add hasher) s

/-- The inner loop of `clear`: pops the head of a chain until it is `nullptr`. -/
def drain : List Key → List Key
  | [] => []
  | _ :: next => drain next

/-- The member `clear()`. -/
def clear (s : ADS_set Key) : ADS_set Key :=
  { table := (List.range s.tableSize).foldl
      (fun t i => t.set i (drain (chainAt t i))) s.table
    elementSize := 0
    tableSize := s.tableSize }

/-- The scan of `erase` along one chain: the chain with the first node holding
`key` unlinked, or `none` when the scan reaches `nullptr`. -/
def unlink (key : Key) : List Key → Option (List Key)
  | [] => none
  | e :: next =>
    if e = key then some next
    else match unlink key next with
      | some rest => some (e :: rest)
      | none => none

/-- The member `erase(key)`: the returned number and the state afterwards. -/
def erase (hasher : Key → Nat) (s : ADS_set Key) (key : Key) : Nat × ADS_set Key :=
  let index := hash_func hasher s key
  match unlink key (chainAt s.table index) with
  | none => (0, s)
  | some chain =>
    (1, { table := s.table.set index chain
          elementSize := s.elementSize - 1
          tableSize := s.tableSize })

end ADS_set

namespace Iterator

/-- The loop `while (current == nullptr && ++index < tableSize) current = table[index];`
of `operator++`, as a function of `current` and `index`.  The first argument
bounds the number of rounds; `next` passes `tableSize - index`, which the loop
never exceeds (`seek_step`).  Started at an index of at most `tableSize`, the
loop leaves `index` at most `tableSize + 1` (`seek_index_le`), so `++index` is
modelled without wrap-around. -/
def seek (table : List (List Key)) (tableSize : Nat) : Nat → List Key → Nat → List Key × Nat
  | _, e :: next, index => (e :: next, index)
  | 0, [], index => ([], index + 1)
  | rounds + 1, [], index =>
    if index + 1 < tableSize then
      seek table tableSize rounds (chainAt table (index + 1)) (index + 1)
    else ([], index + 1)

/-- The pre-increment `operator++`, as its effect on the iterator: step to the
successor of the current node, then skip forward over empty buckets.  (The body
in the source ends after the loop, without a `return` statement; the returned
reference is not part of the model.) -/
def next (it : Iterator Key) : Iterator Key :=
  let current := match it.current with
    | [] => []
    | _ :: next => next
  let r := seek it.table it.tableSize (it.tableSize - it.index) current it.index
  { current := r.1, table := it.table, tableSize := it.tableSize, index := r.2 }

/-- The constructor `Iterator(current, table, tableSize, index)`: a null
`current` is advanced once. -/
def make (current : List Key) (table : List (List Key)) (tableSize index : Nat) :
    Iterator Key :=
  let it : Iterator Key :=
    { current := current, table := table, tableSize := tableSize, index := index }
  if current.isEmpty then next it else it

/-- The dereference `operator*`: the key of the current node (`none` where the
source dereferences `nullptr`). -/
def deref (it : Iterator Key) : Option Key := it.current.head?

/-- The comparison `operator==` of two iterators: same current node.  A node is
modelled by the chain that starts at it, so the comparison is exact whenever one
side is `nullptr`, as in every comparison with `end()`. -/
def eq (lhs rhs : Iterator Key) : Bool := decide (lhs.current = rhs.current)

end Iterator

namespace ADS_set

/-- The member `end()`. -/
def end_ (s : ADS_set Key) : Iterator Key :=
  Iterator.make [] s.table s.tableSize s.tableSize

/-- The member `begin()`: an iterator on the head of the first non-empty bucket. -/
def begin (s : ADS_set Key) : Iterator Key :=
  match (List.range s.tableSize).find? (fun i => !(chainAt s.table i).isEmpty) with
  | some i => Iterator.make (chainAt s.table i) s.table s.tableSize i
  | none => end_ s

/-- The member `find(key)`. -/
def find (hasher : Key → Nat) (s : ADS_set Key) (key : Key) : Iterator Key :=
  let e := locate hasher s key
  if !e.isEmpty then Iterator.make e s.table s.tableSize (hash_func hasher s key)
  else end_ s

/-- The single-key overload `insert(key)`: the returned pair and the state
afterwards. -/
def insert (hasher : Key → Nat) (s : ADS_set Key) (key : Key) :
    (Iterator Key × Bool) × ADS_set Key :=
  let e := locate hasher s key
  if !e.isEmpty then
    ((Iterator.make e s.table s.tableSize (hash_func hasher s key), false), s)
  else
    let s1 := add hasher s key
    ((Iterator.make (locate hasher s1 key) s1.table s1.tableSize (hash_func hasher s1 key),
      true), s1)

/-- The keys an iteration yields: dereference, then `++`, `n` times. -/
def iterate : Nat → Iterator Key → List (Option Key)
  | 0, _ => []
  | n + 1, it => it.deref :: iterate n it.next

/-- All keys of the table, bucket by bucket and along each chain from its head. -/
def keys (s : ADS_set Key) : List Key := s.table.flatten

end ADS_set

/-- One call of the public mutating interface. -/
inductive Op (Key : Type) where
  | insert (key : Key)
  | insertRange (keys : List Key)
  | erase (key : Key)
  | clear
deriving DecidableEq, Repr

/-- The state after one call. -/
def Op.apply (hasher : Key → Nat) (s : ADS_set Key) : Op Key → ADS_set Key
  | Op.insert key => (ADS_set.insert hasher s key).2
  | Op.insertRange keys => ADS_set.insertRange hasher s keys
  | Op.erase key => (ADS_set.erase hasher s key).2
  | Op.clear => ADS_set.clear s

/-- The state reached from the empty set with `N` buckets by a sequence of calls. -/
def run (hasher : Key → Nat) (N : Nat) (ops : List (Op Key)) : ADS_set Key :=
  ops.foldl (Op.apply hasher) (ADS_set.new N)

/-- The representation invariant of the table between two public calls: the
array has `tableSize >= 1` buckets, every key sits in the bucket of its hash, no
key occurs twice, `elementSize` counts the nodes, and the growth test of `add`
does not hold. -/
structure Inv (hasher : Key → Nat) (s : ADS_set Key) : Prop where
  length_eq : s.table.length = s.tableSize
  pos : 1 ≤ s.tableSize
  placed : ∀ i k, k ∈ chainAt s.table i → hasher k % s.tableSize = i
  nodup : s.keys.Nodup
  card : s.elementSize = s.keys.length
  load : overLoad s.elementSize s.tableSize = false

/-- The keys an iterator has still to yield: the chain from its current node on,
then the chains of all buckets after its index. -/
def Iterator.rest (it : Iterator Key) : List Key :=
  it.current ++ (it.table.drop (it.index + 1)).flatten

/-- Whether a call is one of the `insert` overloads. -/
def Op.isInsert : Op Key → Bool
  | Op.insert _ => true
  | Op.insertRange _ => true
  | Op.erase _ => false
  | Op.clear => false

/-- The keys a call passes to `insert`, in order. -/
def Op.insertedKeys : Op Key → List Key
  | Op.insert key => [key]
  | Op.insertRange keys => keys
  | Op.erase _ => []
  | Op.clear => []

/-- Whether a call inserts the key `k`. -/
def Op.inserts (k : Key) : Op Key → Bool
  | Op.insert key => decide (key = k)
  | Op.insertRange keys => decide (k ∈ keys)
  | Op.erase _ => false
  | Op.clear => false

/-- The key `k` was inserted by some call of the sequence and not erased by any
later call. -/
def InsertedNotErased (k : Key) (ops : List (Op Key)) : Prop :=
  ∃ pre op post, ops = pre ++ op :: post ∧ op.inserts k = true ∧ Op.erase k ∉ post

/-- The counters `(elementSize, tableSize)` after `add` of a key that is not in
the set, as a function of the counters before. -/
def countersStep (c : Nat × Nat) : Nat × Nat :=
  if overLoad (c.1 + 1) c.2 then (c.1 + 1, c.2 * 6 + 1) else (c.1 + 1, c.2)

/-- A state reached from the empty set with `N` buckets by some sequence of
insert, erase and clear calls. -/
def Reachable (hasher : Key → Nat) (N : Nat) (s : ADS_set Key) : Prop :=
  ∃ ops : List (Op Key), s = run hasher N ops

namespace ADS_set

/-- The copy constructor `ADS_set(const ADS_set &other)`: an empty array of
`other.tableSize` buckets, filled with `add` for every key of `other`, bucket by
bucket and along each chain from its head. -/
def copy (hasher : Key → Nat) (other : ADS_set Key) : ADS_set Key :=
  (List.range other.tableSize).foldl
    (fun s i => (chainAt other.table i).foldl (add hasher) s)
    { table := List.replicate other.tableSize []
      elementSize := 0
      tableSize := other.tableSize }

/-- The loop `for (const auto& it : lhs) if (!rhs.count(it)) return false;` of
`operator==`, from the iterator `it` on: `some false` on the early return,
`some true` when the loop reaches `lhs.end()`.  The first argument bounds the
number of rounds, `none` when it is used up (or where the source would
dereference `nullptr`). -/
def allCounted (hasher : Key → Nat) (lhs rhs : ADS_set Key) :
    Nat → Iterator Key → Option Bool
  | 0, _ => none
  | rounds + 1, it =>
    if Iterator.eq it lhs.end_ then some true
    else match it.deref with
      | none => none
      | some key =>
        if rhs.count hasher key = 0 then some false
        else allCounted hasher lhs rhs rounds it.next

/-- The friend `operator==(lhs, rhs)`, with a bound on the rounds of its loop. -/
def equals (hasher : Key → Nat) (rounds : Nat) (lhs rhs : ADS_set Key) : Option Bool :=
  if lhs.elementSize ≠ rhs.elementSize then some false
  else allCounted hasher lhs rhs rounds lhs.begin

/-- The friend `operator!=(lhs, rhs)`: `!(lhs == rhs)`. -/
def notEquals (hasher : Key → Nat) (rounds : Nat) (lhs rhs : ADS_set Key) : Option Bool :=
  (equals hasher rounds lhs rhs).map not

/-- The keys yielded by the iteration from `begin()` over `size()` steps. -/
def yielded (s : ADS_set Key) : List Key :=
  (iterate s.size s.begin).reduceOption

end ADS_set

/-- The keys passed to `insert` by a sequence of calls, in call order. -/
def inserted (ops : List (Op Key)) : List Key :=
  (ops.map Op.insertedKeys).flatten

/-- The sequence `ys` lists keys in ascending order of their bucket index. -/
def AscendingBuckets (hasher : Key → Nat) (tableSize : Nat) (ys : List Key) : Prop :=
  ys.Pairwise (fun x y => hasher x % tableSize ≤ hasher y % tableSize)

/-- Most recently inserted first, within a bucket: of two keys of the insertion
sequence `ins` that share a bucket, the one first inserted later comes earlier in
`ys`, provided it is not one of the keys `old`. -/
def RecentFirstSince (hasher : Key → Nat) (tableSize : Nat) (old ins ys : List Key) : Prop :=
  ∀ a b, a ∈ ins → b ∈ ins → b ∉ old →
    hasher a % tableSize = hasher b % tableSize →
    ins.indexOf a < ins.indexOf b → List.Sublist [b, a] ys

/-! Pointer-level model: nodes and bucket arrays in a free store -/

namespace Mem

/-- The struct `Element` as it lies in memory: the key and the `next` pointer,
which is the address of a node (`0` for `nullptr`). -/
structure Element (Key : Type) where
  key : Key
  next : Nat
deriving DecidableEq, Repr

/-- The free store: the `Element` objects and the bucket arrays (`Element*[n]`)
created by `new`, by address.  The object with address `p >= 1` is entry `p - 1`
of its list, and the entry is `none` once the object is deleted; `new` takes the
next address, so no address is handed out twice.  An array is the list of the
node addresses in its slots. -/
structure Heap (Key : Type) where
  elems : List (Option (Element Key))
  arrays : List (Option (List Nat))
deriving DecidableEq, Repr

/-- The data members of one `ADS_set` object: the pointer `table` (the address of
its bucket array), `elementSize` and `tableSize`. -/
structure ADS_set where
  table : Nat
  elementSize : Nat
  tableSize : Nat
deriving DecidableEq, Repr

namespace Heap

/-- The node at address `p`; `none` for `nullptr` and for an address that holds no
live node. -/
def elem (h : Heap Key) (p : Nat) : Option (Element Key) :=
  if p = 0 then none
  else match h.elems[p - 1]? with
    | some (some e) => some e
    | _ => none

/-- The array at address `a`; `none` for `nullptr` and for an address that holds
no live array. -/
def array (h : Heap Key) (a : Nat) : Option (List Nat) :=
  if a = 0 then none
  else match h.arrays[a - 1]? with
    | some (some l) => some l
    | _ => none

/-- The read `table[i]` through the array pointer `a` (`nullptr` where the source
would read outside a live array). -/
def slot (h : Heap Key) (a i : Nat) : Nat :=
  match h.array a with
  | some l => l.getD i 0
  | none => 0

/-- The expression `new Element(key, next)`: the store afterwards and the address
of the new node. -/
def newElem (h : Heap Key) (key : Key) (next : Nat) : Heap Key × Nat :=
  ({ h with elems := h.elems ++ [some { key := key, next := next }] }, h.elems.length + 1)

/-- The expression `new Element*[n]{nullptr}`: the store afterwards and the address
of the new array. -/
def newArray (h : Heap Key) (n : Nat) : Heap Key × Nat :=
  ({ h with arrays := h.arrays ++ [some (List.replicate n 0)] }, h.arrays.length + 1)

/-- The write `p->next = next`. -/
def setNext (h : Heap Key) (p next : Nat) : Heap Key :=
  match h.elem p with
  | some e => { h with elems := h.elems.set (p - 1) (some { e with next := next }) }
  | none => h

/-- The write `table[i] = p` through the array pointer `a`. -/
def setSlot (h : Heap Key) (a i p : Nat) : Heap Key :=
  match h.array a with
  | some l => { h with arrays := h.arrays.set (a - 1) (some (l.set i p)) }
  | none => h

/-- The statement `delete p` for a node pointer. -/
def deleteElem (h : Heap Key) (p : Nat) : Heap Key :=
  match h.elem p with
  | some _ => { h with elems := h.elems.set (p - 1) none }
  | none => h

/-- The statement `delete[] a` for an array pointer. -/
def deleteArray (h : Heap Key) (a : Nat) : Heap Key :=
  match h.array a with
  | some _ => { h with arrays := h.arrays.set (a - 1) none }
  | none => h

end Heap

namespace ADS_set

/-- The default constructor `ADS_set()` on the free store: the member initialiser
`table = new Element*[N]{nullptr}`. -/
def new (N : Nat) (h : Heap Key) : Heap Key × ADS_set :=
  ((h.newArray N).1, { table := (h.newArray N).2, elementSize := 0, tableSize := N })

/-- The loop of `locate` from the node pointer `e` on: the address of the node
holding `key`, or `nullptr`.  The first argument bounds the number of rounds;
`locate` passes the number of nodes ever allocated. -/
def locateLoop (h : Heap Key) (key : Key) : Nat → Nat → Nat
  | 0, _ => 0
  | rounds + 1, e =>
    match h.elem e with
    | none => 0
    | some n => if n.key = key then e else locateLoop h key rounds n.next

/-- The member `locate(key)` on the free store. -/
def locate (hasher : Key → Nat) (h : Heap Key) (o : ADS_set) (key : Key) : Nat :=
  locateLoop h key h.elems.length (h.slot o.table (hasher key % o.tableSize))

/-- The member `size()`. -/
def size (o : ADS_set) : Nat := o.elementSize

/-- The member `count(key)` on the free store. -/
def count (hasher : Key → Nat) (h : Heap Key) (o : ADS_set) (key : Key) : Nat :=
  if locate hasher h o key = 0 then 0 else 1

/-- The `while` loop of `resize` for one old bucket, from the node pointer
`current` on: each node is unlinked and pushed to the front of its new bucket. -/
def relinkLoop (hasher : Key → Nat) (newTableSize new_table : Nat) :
    Nat → Heap Key → Nat → Heap Key
  | 0, h, _ => h
  | rounds + 1, h, current =>
    match h.elem current with
    | none => h
    | some n =>
      let newIndex := hasher n.key % newTableSize
      let temp := n.next
      let h1 := h.setNext current (h.slot new_table newIndex)
      let h2 := h1.setSlot new_table newIndex current
      relinkLoop hasher newTableSize new_table rounds h2 temp

/-- The member `resize()` on the free store. -/
def resize (hasher : Key → Nat) (s : Heap Key × ADS_set) : Heap Key × ADS_set :=
  let newTableSize := s.2.tableSize * 6 + 1
  let r := s.1.newArray newTableSize
  let h1 := (List.range s.2.tableSize).foldl
    (fun h i => relinkLoop hasher newTableSize r.2 h.elems.length h (h.slot s.2.table i)) r.1
  (h1.deleteArray s.2.table,
    { table := r.2, elementSize := s.2.elementSize, tableSize := newTableSize })

/-- The member `add(key)` on the free store. -/
def add (hasher : Key → Nat) (s : Heap Key × ADS_set) (key : Key) : Heap Key × ADS_set :=
  let index := hasher key % s.2.tableSize
  if locate hasher s.1 s.2 key = 0 then
    let r := s.1.newElem key (s.1.slot s.2.table index)
    let h1 := r.1.setSlot s.2.table index r.2
    let o1 : ADS_set :=
      { table := s.2.table, elementSize := s.2.elementSize + 1, tableSize := s.2.tableSize }
    if overLoad o1.elementSize o1.tableSize then resize hasher (h1, o1) else (h1, o1)
  else s

/-- The range overload `insert(first, last)` on the free store. -/
def insertRange (hasher : Key → Nat) (s : Heap Key × ADS_set) (keys : List Key) :
    Heap Key × ADS_set :=
  keys.foldl (add hasher) s

/-- The single-key overload `insert(key)` on the free store, as its effect on the
store and the object: `add` is reached only if `locate` returns `nullptr`. -/
def insert (hasher : Key → Nat) (s : Heap Key × ADS_set) (key : Key) : Heap Key × ADS_set :=
  if locate hasher s.1 s.2 key ≠ 0 then s else add hasher s key

/-- The `while` loop of `clear` for bucket `i` of the array `a`: the head node is
deleted and the slot set to its successor until the slot is `nullptr`. -/
def drainLoop (a i : Nat) : Nat → Heap Key → Heap Key
  | 0, h => h
  | rounds + 1, h =>
    match h.elem (h.slot a i) with
    | none => h
    | some n => drainLoop a i rounds ((h.deleteElem (h.slot a i)).setSlot a i n.next)

/-- The member `clear()` on the free store. -/
def clear (s : Heap Key × ADS_set) : Heap Key × ADS_set :=
  ((List.range s.2.tableSize).foldl (fun h i => drainLoop s.2.table i h.elems.length h) s.1,
    { table := s.2.table, elementSize := 0, tableSize := s.2.tableSize })

/-- The `while` loop of `erase`: the pointers `prev` and `e` when it ends. -/
def eraseLoop (h : Heap Key) (key : Key) : Nat → Nat → Nat → Nat × Nat
  | 0, prev, _ => (prev, 0)
  | rounds + 1, prev, e =>
    match h.elem e with
    | none => (prev, 0)
    | some n => if n.key = key then (prev, e) else eraseLoop h key rounds e n.next

/-- The statements of `erase` after its loop, for the pointers `(prev, e)` the
loop ended with: `none` for `e == nullptr` (the call returns 0), otherwise the
store after `e` is unlinked, from the slot `a[index]` if `prev == nullptr` and
from `prev` otherwise, and deleted. -/
def eraseAt (h : Heap Key) (a index : Nat) (r : Nat × Nat) : Option (Heap Key) :=
  match h.elem r.2 with
  | none => none
  | some n =>
    some ((if r.1 = 0 then h.setSlot a index n.next else h.setNext r.1 n.next).deleteElem r.2)

/-- The member `erase(key)` on the free store: the returned number, the store and
the object afterwards. -/
def erase (hasher : Key → Nat) (s : Heap Key × ADS_set) (key : Key) :
    Nat × Heap Key × ADS_set :=
  let index := hasher key % s.2.tableSize
  match eraseAt s.1 s.2.table index
      (eraseLoop s.1 key s.1.elems.length 0 (s.1.slot s.2.table index)) with
  | none => (0, s)
  | some h1 =>
    (1, h1,
      { table := s.2.table, elementSize := s.2.elementSize - 1, tableSize := s.2.tableSize })

/-- The inner loop `for (Element* e = other.table[i]; e != nullptr; e = e->next) add(e->key);`
of the copy constructor, from the node pointer `e` on; `s` is the store and the
object under construction. -/
def copyLoop (hasher : Key → Nat) : Nat → Nat → Heap Key × ADS_set → Heap Key × ADS_set
  | 0, _, s => s
  | rounds + 1, e, s =>
    match s.1.elem e with
    | none => s
    | some n =>
      let s1 := add hasher s n.key
      match s1.1.elem e with
      | none => s1
      | some n1 => copyLoop hasher rounds n1.next s1

/-- The copy constructor `ADS_set(const ADS_set &other)` on the free store: the
member initialiser allocates an array of `N` buckets, which the body deletes and
replaces by one of `other.tableSize` buckets before it adds the keys of `other`. -/
def copy (hasher : Key → Nat) (N : Nat) (h : Heap Key) (other : ADS_set) : Heap Key × ADS_set :=
  let r0 := h.newArray N
  let h1 := r0.1.deleteArray r0.2
  let r1 := h1.newArray other.tableSize
  (List.range other.tableSize).foldl
    (fun s i => copyLoop hasher s.1.elems.length (s.1.slot other.table i) s)
    (r1.1, { table := r1.2, elementSize := 0, tableSize := other.tableSize })

/-- The member `swap(other)`: the pair of `*this` and `other` afterwards. -/
def swap (self other : ADS_set) : ADS_set × ADS_set :=
  ({ table := other.table, elementSize := other.elementSize, tableSize := other.tableSize },
   { table := self.table, elementSize := self.elementSize, tableSize := self.tableSize })

/-- The destructor `~ADS_set()`: `clear()`, then `delete[] table`. -/
def destroy (s : Heap Key × ADS_set) : Heap Key :=
  (clear s).1.deleteArray (clear s).2.table

/-- The copy assignment `operator=(const ADS_set &other)` on the free store: the
temporary is copy-constructed from `other`, swapped with `*this` and destroyed. -/
def assign (hasher : Key → Nat) (N : Nat) (s : Heap Key × ADS_set) (other : ADS_set) :
    Heap Key × ADS_set :=
  let temp := copy hasher N s.1 other
  let sw := swap s.2 temp.2
  (destroy (temp.1, sw.2), sw.1)

end ADS_set

/-- The store and the object after one call of the public mutating interface. -/
def apply (hasher : Key → Nat) (s : Heap Key × ADS_set) : Op Key → Heap Key × ADS_set
  | Op.insert key => ADS_set.insert hasher s key
  | Op.insertRange keys => ADS_set.insertRange hasher s keys
  | Op.erase key => (ADS_set.erase hasher s key).2
  | Op.clear => ADS_set.clear s

/-- Two set objects `a` and `b` in one free store, and a call directed at `a`
(flag `true`) or at `b` (flag `false`): the member function runs on the common
store, so a node or an array that both objects point to is changed for both. -/
def applyTo (hasher : Key → Nat) (w : Heap Key × ADS_set × ADS_set) (c : Bool × Op Key) :
    Heap Key × ADS_set × ADS_set :=
  if c.1 then ((apply hasher (w.1, w.2.1) c.2).1, (apply hasher (w.1, w.2.1) c.2).2, w.2.2)
  else ((apply hasher (w.1, w.2.2) c.2).1, w.2.1, (apply hasher (w.1, w.2.2) c.2).2)

/-- The nodes visited from the node pointer `p` by following `next` up to
`nullptr` are exactly `cells`, as pairs of address and key, in this order. -/
def Chain (h : Heap Key) : Nat → List (Nat × Key) → Prop
  | p, [] => p = 0
  | p, c :: rest => p = c.1 ∧ ∃ nx, h.elem c.1 = some { key := c.2, next := nx } ∧ Chain h nx rest

/-- The addresses of the nodes of a family of chains, bucket by bucket. -/
def addrs (C : List (List (Nat × Key))) : List Nat := C.flatten.map Prod.fst

/-- The object `o` is intact in the store `h` and its chains are `C`: `table`
points to a live array of `tableSize >= 1` slots, slot `i` points to the chain
`C[i]`, every node of these chains is live, and no node occurs twice. -/
structure Rep (h : Heap Key) (o : ADS_set) (C : List (List (Nat × Key))) : Prop where
  pos : 1 ≤ o.tableSize
  length_eq : C.length = o.tableSize
  array : ∃ l, h.array o.table = some l ∧ l.length = o.tableSize
  chain : ∀ i, i < o.tableSize → Chain h (h.slot o.table i) (chainAt C i)
  nodup : (addrs C).Nodup

/-- The set value that an object with chains `C` stands for: the chains of keys,
with the two counters. -/
def value (o : ADS_set) (C : List (List (Nat × Key))) : ADS.ADS_set Key :=
  { table := C.map (List.map Prod.snd), elementSize := o.elementSize, tableSize := o.tableSize }

/-- From the store `h` to the store `g`, every live array other than the one at
`A` and every live node whose address is not in `P` is kept as it is. -/
def Frame (h g : Heap Key) (A : Nat) (P : List Nat) : Prop :=
  (∀ a l, a ≠ A → h.array a = some l → g.array a = some l) ∧
    (∀ p e, p ∉ P → h.elem p = some e → g.elem p = some e)

/-- A transition of one object, from `(o, C)` in the store `h` to `(o2, C2)` in the
store `g`, that stays within what the object owns: the object is intact
afterwards, live memory outside its array and its nodes is kept, and the nodes
and the array it owns afterwards are its old ones or were not allocated
before. -/
structure Step (h : Heap Key) (o : ADS_set) (C : List (List (Nat × Key)))
    (g : Heap Key) (o2 : ADS_set) (C2 : List (List (Nat × Key))) : Prop where
  rep : Rep g o2 C2
  frame : Frame h g o.table (addrs C)
  nodes : ∀ p, p ∈ addrs C2 → p ∈ addrs C ∨ h.elem p = none
  table : o2.table = o.table ∨ h.array o2.table = none

/-- Two objects of one store own different arrays and share no node. -/
def Sep (a : ADS_set) (Ca : List (List (Nat × Key))) (b : ADS_set)
    (Cb : List (List (Nat × Key))) : Prop :=
  a.table ≠ b.table ∧ ∀ p, p ∈ addrs Ca → p ∉ addrs Cb

/-- The chains of the new array of `resize` once the first `n` old buckets have
been relinked into `M` new buckets: every node of an old chain, from its head on,
is pushed to the front of its new chain. -/
def relinked (hasher : Key → Nat) (M : Nat) (C : List (List (Nat × Key))) (n : Nat) :
    List (List (Nat × Key)) :=
  (List.range n).foldl
    (fun Cn i => (chainAt C i).foldl (fun c2 c => pushFront c2 (hasher c.2 % M) c) Cn)
    (List.replicate M [])

/-- The store and the object reached from the constructor `ADS_set()`, run in the
store `h`, by a sequence of calls. -/
def run (hasher : Key → Nat) (N : Nat) (h : Heap Key) (ops : List (Op Key)) :
    Heap Key × ADS_set :=
  ops.foldl (apply hasher) (ADS_set.new N h)

/-- The keys read along the chain from the node pointer `p` on, up to `nullptr`.
The first argument bounds the number of nodes read. -/
def readChain (h : Heap Key) : Nat → Nat → List Key
  | 0, _ => []
  | rounds + 1, p =>
    match h.elem p with
    | none => []
    | some n => n.key :: readChain h rounds n.next

/-- The set value that the object `o` holds in the store `h`, read through its
pointers: the keys along the chain of each slot of its array, and its two
counters. -/
def read (h : Heap Key) (o : ADS_set) : ADS.ADS_set Key :=
  { table := (List.range o.tableSize).map
      (fun i => readChain h h.elems.length (h.slot o.table i))
    elementSize := o.elementSize
    tableSize := o.tableSize }

/-- The calls of an interleaved sequence that are directed at the object with the
given flag, in order. -/
def callsOn (flag : Bool) (calls : List (Bool × Op Key)) : List (Op Key) :=
  (calls.filter (fun c => c.1 == flag)).map (fun c => c.2)

/-- The two objects of the world `w` (a store, `a` and `b`) hold `va` and `vb`
and do not depend on each other: after any interleaved sequence of calls, `a`
holds what the calls directed at `a` make of `va`, and `b` holds what the calls
directed at `b` make of `vb`; `count` on the store agrees with these values. -/
def Independent (hasher : Key → Nat) (w : Heap Key × ADS_set × ADS_set)
    (va vb : ADS.ADS_set Key) : Prop :=
  ∀ calls : List (Bool × Op Key),
    read (calls.foldl (applyTo hasher) w).1 (calls.foldl (applyTo hasher) w).2.1
        = (callsOn true calls).foldl (Op.apply hasher) va ∧
      read (calls.foldl (applyTo hasher) w).1 (calls.foldl (applyTo hasher) w).2.2
        = (callsOn false calls).foldl (Op.apply hasher) vb ∧
      (∀ k, ADS_set.count hasher (calls.foldl (applyTo hasher) w).1
          (calls.foldl (applyTo hasher) w).2.1 k
        = ((callsOn true calls).foldl (Op.apply hasher) va).count hasher k) ∧
      ∀ k, ADS_set.count hasher (calls.foldl (applyTo hasher) w).1
          (calls.foldl (applyTo hasher) w).2.2 k
        = ((callsOn false calls).foldl (Op.apply hasher) vb).count hasher k

/-- The world after the object `a` is built in the store `h0` by the calls `ops`
and the object `b` is copy-constructed from `a`: the store, `a` and `b`. -/
def copyWorld (hasher : Key → Nat) (N : Nat) (h0 : Heap Key) (ops : List (Op Key)) :
    Heap Key × ADS_set × ADS_set :=
  ((ADS_set.copy hasher N (run hasher N h0 ops).1 (run hasher N h0 ops).2).1,
    (run hasher N h0 ops).2,
    (ADS_set.copy hasher N (run hasher N h0 ops).1 (run hasher N h0 ops).2).2)

/-- The world after the object `a` is built in the store `h0` by the calls `ops`,
the object `b` is built in the same store by the calls `opsb`, and `b = a` is
executed: the store, `a` and `b`. -/
def assignWorld (hasher : Key → Nat) (N : Nat) (h0 : Heap Key) (ops opsb : List (Op Key)) :
    Heap Key × ADS_set × ADS_set :=
  ((ADS_set.assign hasher N (run hasher N (run hasher N h0 ops).1 opsb)
      (run hasher N h0 ops).2).1,
    (run hasher N h0 ops).2,
    (ADS_set.assign hasher N (run hasher N (run hasher N h0 ops).1 opsb)
      (run hasher N h0 ops).2).2)

/-- The calls `ops`, all directed at the object with the given flag. -/
def callsFor (flag : Bool) (ops : List (Op Key)) : List (Bool × Op Key) :=
  ops.map (fun op => (flag, op))

end Mem

/-! ## Binary32 arithmetic of the growth test -/

theorem ilog2Aux_spec : ∀ fuel n : Nat, n ≤ fuel → 1 ≤ n →
    2 ^ ilog2Aux fuel n ≤ n ∧ n < 2 ^ (ilog2Aux fuel n + 1) := by
  intro fuel
  induction fuel with
  | zero => intro n h1 h2; omega
  | succ fuel ih =>
    intro n h1 h2
    by_cases hn : n < 2
    · have h3 : n = 1 := by omega
      subst h3
      simp [ilog2Aux]
    · have h3 := ih (n / 2) (by omega) (by omega)
      simp only [ilog2Aux, hn, if_false]
      have h4 : 2 ^ (ilog2Aux fuel (n / 2) + 1) = 2 * 2 ^ ilog2Aux fuel (n / 2) := by
        rw [Nat.pow_succ]; omega
      have h5 : 2 ^ (ilog2Aux fuel (n / 2) + 1 + 1) = 4 * 2 ^ ilog2Aux fuel (n / 2) := by
        rw [Nat.pow_succ, Nat.pow_succ]; omega
      rw [h4] at h3
      rw [h4, h5]
      omega

theorem ilog2_spec (n : Nat) (hn : 1 ≤ n) : 2 ^ ilog2 n ≤ n ∧ n < 2 ^ (ilog2 n + 1) :=
  ilog2Aux_spec n n (Nat.le_refl n) hn

/-- The shape of `round24` on an argument of 25 bits or more. -/
theorem round24_shape (q : Nat) (sticky : Bool) (hq : 2 ^ 24 ≤ q) :
    ∃ k m r, 1 ≤ k ∧ q = m * 2 ^ k + r ∧ r < 2 ^ k ∧ 2 ^ 23 ≤ m ∧ m < 2 ^ 24 ∧
      round24 q sticky =
        if 2 ^ k < 2 * r ∨ (2 * r = 2 ^ k ∧ (sticky = true ∨ m % 2 = 1)) then (m + 1) * 2 ^ k
        else m * 2 ^ k := by
  obtain ⟨h1, h2⟩ := ilog2_spec q (by omega)
  have hL : 24 ≤ ilog2 q := by
    by_contra h
    have h3 : ilog2 q + 1 ≤ 24 := by omega
    have h4 : 2 ^ (ilog2 q + 1) ≤ 2 ^ 24 := Nat.pow_le_pow_right (by omega) h3
    omega
  have hk : ilog2 q = (ilog2 q - 23) + 23 := by omega
  have hP : 0 < 2 ^ (ilog2 q - 23) := Nat.pow_pos (by omega)
  have h5 : 2 ^ ilog2 q = 2 ^ (ilog2 q - 23) * 2 ^ 23 := by
    rw [← Nat.pow_add, ← hk]
  have h6 : 2 ^ (ilog2 q + 1) = 2 ^ (ilog2 q - 23) * 2 ^ 24 := by
    rw [← Nat.pow_add]
    congr 1
    omega
  refine ⟨ilog2 q - 23, q / 2 ^ (ilog2 q - 23), q % 2 ^ (ilog2 q - 23), by omega, ?_,
    Nat.mod_lt _ hP, ?_, ?_, ?_⟩
  · rw [Nat.mul_comm]; exact (Nat.div_add_mod q _).symm
  · rw [Nat.le_div_iff_mul_le hP, Nat.mul_comm, ← h5]; exact h1
  · rw [Nat.div_lt_iff_lt_mul hP, Nat.mul_comm, ← h6]; exact h2
  · have h7 : ¬ q < 2 ^ 24 := by omega
    simp only [round24, h7, if_false]


theorem round24_small (q : Nat) (sticky : Bool) (hq : q < 2 ^ 24) : round24 q sticky = q := by
  unfold round24
  exact if_pos hq

theorem toFloat_small (n : Nat) (hn : n < 2 ^ 24) : toFloat n = n :=
  round24_small n false hn

/-- Rounding to 24 bits changes a number by at most one part in `2^24`. -/
theorem round24_bounds (q : Nat) (sticky : Bool) :
    round24 q sticky * 2 ^ 24 ≤ q * (2 ^ 24 + 1) ∧ q * (2 ^ 24 - 1) ≤ round24 q sticky * 2 ^ 24 := by
  by_cases hq : q < 2 ^ 24
  · rw [round24_small q sticky hq]
    constructor <;> omega
  · obtain ⟨k, m, r, hk, hqe, hr, hm1, hm2, hround⟩ := round24_shape q sticky (by omega)
    have hmP : 2 ^ 23 * 2 ^ k ≤ m * 2 ^ k := Nat.mul_le_mul_right _ hm1
    have hsucc : (m + 1) * 2 ^ k = m * 2 ^ k + 2 ^ k := by rw [Nat.add_mul, Nat.one_mul]
    rw [hround, hsucc]
    generalize m * 2 ^ k = mP at *
    generalize 2 ^ k = P at *
    split <;> constructor <;> omega

theorem toFloat_mono (n1 n2 : Nat) (h : n1 ≤ n2) : toFloat n1 ≤ toFloat n2 := by
  unfold toFloat
  by_cases h2 : n2 < 2 ^ 24
  · rw [round24_small n1 false (by omega), round24_small n2 false h2]; exact h
  · obtain ⟨k2, m2, r2, hk2, hq2, hr2, hm2a, hm2b, hround2⟩ := round24_shape n2 false (by omega)
    have hmP2 : 2 ^ 23 * 2 ^ k2 ≤ m2 * 2 ^ k2 := Nat.mul_le_mul_right _ hm2a
    have hlow2 : m2 * 2 ^ k2 ≤ round24 n2 false := by
      rw [hround2]
      split
      · exact Nat.mul_le_mul_right _ (by omega)
      · exact Nat.le_refl _
    have hP2 : 2 ≤ 2 ^ k2 := by
      calc 2 = 2 ^ 1 := rfl
        _ ≤ 2 ^ k2 := Nat.pow_le_pow_right (by omega) hk2
    by_cases h1 : n1 < 2 ^ 24
    · rw [round24_small n1 false h1]
      omega
    · obtain ⟨k1, m1, r1, hk1, hq1, hr1, hm1a, hm1b, hround1⟩ :=
        round24_shape n1 false (by omega)
      have hmP1 : 2 ^ 23 * 2 ^ k1 ≤ m1 * 2 ^ k1 := Nat.mul_le_mul_right _ hm1a
      have hmP1b : (m1 + 1) * 2 ^ k1 ≤ 2 ^ 24 * 2 ^ k1 := Nat.mul_le_mul_right _ (by omega)
      have hmP2b : (m2 + 1) * 2 ^ k2 ≤ 2 ^ 24 * 2 ^ k2 := Nat.mul_le_mul_right _ (by omega)
      have hup1 : round24 n1 false ≤ (m1 + 1) * 2 ^ k1 := by
        rw [hround1]
        split
        · exact Nat.le_refl _
        · exact Nat.mul_le_mul_right _ (by omega)
      have hsucc1 : (m1 + 1) * 2 ^ k1 = m1 * 2 ^ k1 + 2 ^ k1 := by rw [Nat.add_mul, Nat.one_mul]
      have hsucc2 : (m2 + 1) * 2 ^ k2 = m2 * 2 ^ k2 + 2 ^ k2 := by rw [Nat.add_mul, Nat.one_mul]
      rcases Nat.lt_trichotomy k1 k2 with hk | hk | hk
      · have hpp : 2 ^ (k1 + 1) ≤ 2 ^ k2 := Nat.pow_le_pow_right (by omega) hk
        rw [Nat.pow_succ] at hpp
        omega
      · subst hk
        rcases Nat.lt_trichotomy m1 m2 with hm | hm | hm
        · have h3 : (m1 + 1) * 2 ^ k1 ≤ m2 * 2 ^ k1 := Nat.mul_le_mul_right _ hm
          omega
        · subst hm
          rw [hround1, hround2]
          simp only [hsucc1, Bool.false_eq_true, false_or]
          clear hround1 hround2
          generalize m1 * 2 ^ k1 = mP at *
          generalize 2 ^ k1 = P at *
          split <;> split <;> omega
        · have h3 : (m2 + 1) * 2 ^ k1 ≤ m1 * 2 ^ k1 := Nat.mul_le_mul_right _ hm
          omega
      · have hpp : 2 ^ (k2 + 1) ≤ 2 ^ k1 := Nat.pow_le_pow_right (by omega) hk
        rw [Nat.pow_succ] at hpp
        omega


/-- A rounded number is above `2^d` iff the exact number is above `2^d` plus half
a unit in the last place there, `2^(d-24)`; the tie rounds down to `2^d`, whose
significand is even.  (`q` with a fraction that is nonzero iff `sticky`.) -/
theorem round24_gt_pow (q : Nat) (sticky : Bool) (d : Nat) (hd : 25 ≤ d) (hq : 2 ^ 24 ≤ q) :
    2 ^ d < round24 q sticky ↔
      (2 ^ d + 2 ^ (d - 24) < q ∨ (q = 2 ^ d + 2 ^ (d - 24) ∧ sticky = true)) := by
  obtain ⟨k, m, r, hk, hqe, hr, hm1, hm2, hround⟩ := round24_shape q sticky hq
  have hmP : 2 ^ 23 * 2 ^ k ≤ m * 2 ^ k := Nat.mul_le_mul_right _ hm1
  have hmPb : (m + 1) * 2 ^ k ≤ 2 ^ 24 * 2 ^ k := Nat.mul_le_mul_right _ (by omega)
  have hsucc : (m + 1) * 2 ^ k = m * 2 ^ k + 2 ^ k := by rw [Nat.add_mul, Nat.one_mul]
  have hlow : m * 2 ^ k ≤ round24 q sticky := by
    rw [hround]
    split
    · exact Nat.mul_le_mul_right _ (by omega)
    · exact Nat.le_refl _
  have hup : round24 q sticky ≤ (m + 1) * 2 ^ k := by
    rw [hround]
    split
    · exact Nat.le_refl _
    · exact Nat.mul_le_mul_right _ (by omega)
  have hd1 : 2 ^ d = 2 ^ (d - 24) * 2 ^ 24 := by
    rw [← Nat.pow_add]; congr 1; omega
  have hU : 0 < 2 ^ (d - 24) := Nat.pow_pos (by omega)
  have hU2 : 2 ≤ 2 ^ (d - 24) := by
    calc 2 = 2 ^ 1 := rfl
      _ ≤ 2 ^ (d - 24) := Nat.pow_le_pow_right (by omega) (by omega)
  rcases Nat.lt_trichotomy (k + 23) d with hlt | heq | hgt
  · -- the whole binade of `q` lies at or below `2^d`
    have h1 : 2 ^ (k + 24) ≤ 2 ^ d := Nat.pow_le_pow_right (by omega) (by omega)
    have e1 : 2 ^ (k + 24) = 2 ^ 24 * 2 ^ k := by rw [Nat.pow_add, Nat.mul_comm]
    rw [e1] at h1
    constructor
    · intro h; omega
    · intro h; omega
  · -- `q` lies in the binade that starts at `2^d`
    have hk2 : d - 24 + 1 = k := by omega
    have hP : 2 ^ k = 2 * 2 ^ (d - 24) := by
      rw [← hk2, Nat.pow_succ, Nat.mul_comm]
    rcases Nat.lt_or_ge (2 ^ 23) m with hm | hm
    · have h3 : (2 ^ 23 + 1) * 2 ^ k ≤ m * 2 ^ k := Nat.mul_le_mul_right _ hm
      rw [Nat.add_mul, Nat.one_mul] at h3
      constructor
      · intro _; left; omega
      · intro _; omega
    · have hm3 : m = 2 ^ 23 := by omega
      have hodd : ¬ (m % 2 = 1) := by rw [hm3]; decide
      have hmP3 : m * 2 ^ k = 2 ^ 23 * 2 ^ k := by rw [hm3]
      rw [hround, hsucc]
      clear hround hlow hup
      generalize m * 2 ^ k = mP at *
      generalize 2 ^ k = P at *
      generalize 2 ^ (d - 24) = U at *
      generalize 2 ^ d = D at *
      cases sticky with
      | false =>
        simp only [Bool.false_eq_true, false_or, and_false, or_false, hodd]
        split <;> omega
      | true =>
        simp only [true_or, and_true]
        split <;> omega
  · -- the whole binade of `q` lies at or above `2^(d+1)`
    have h1 : 2 ^ (d + 1) ≤ 2 ^ (k + 23) := Nat.pow_le_pow_right (by omega) (by omega)
    have e1 : 2 ^ (d + 1) = 2 * 2 ^ d := by rw [Nat.pow_succ, Nat.mul_comm]
    have e2 : 2 ^ (k + 23) = 2 ^ 23 * 2 ^ k := by rw [Nat.pow_add, Nat.mul_comm]
    rw [e1, e2] at h1
    constructor
    · intro _; left; omega
    · intro _; omega


/-- The binary32 comparison `a / b > 0.5f` as a test on the two operands: the
rounded quotient is above one half iff the exact quotient is above
`1/2 + 2^-25`. -/
theorem floatDivGtHalf_iff (a b : Nat) (hb : 1 ≤ b) :
    floatDivGtHalf a b = true ↔ b * (2 ^ 24 + 1) < a * 2 ^ 25 := by
  obtain ⟨hB1, hB2⟩ := ilog2_spec b hb
  have hs : 2 ^ (ilog2 b + 26) = 2 ^ ilog2 b * 2 ^ 26 := Nat.pow_add _ _ _
  have hd : 2 ^ (ilog2 b + 26 - 1) = 2 ^ ilog2 b * 2 ^ 25 := by
    have e : ilog2 b + 26 - 1 = ilog2 b + 25 := by omega
    rw [e, Nat.pow_add]
  have hu : 2 ^ (ilog2 b + 26 - 1 - 24) = 2 ^ ilog2 b * 2 := by
    have e : ilog2 b + 26 - 1 - 24 = ilog2 b + 1 := by omega
    rw [e, Nat.pow_succ]
  have hB3 : 2 ^ (ilog2 b + 1) = 2 ^ ilog2 b * 2 := by rw [Nat.pow_succ]
  rw [hB3] at hB2
  unfold floatDivGtHalf
  simp only [decide_eq_true_eq]
  rcases Nat.eq_zero_or_pos a with ha | ha
  · subst ha
    simp only [Nat.zero_mul, Nat.zero_div]
    rw [round24_small 0 _ (by decide)]
    constructor <;> intro h <;> omega
  · have hdm := Nat.div_add_mod (a * 2 ^ (ilog2 b + 26)) b
    have hrem : a * 2 ^ (ilog2 b + 26) % b < b := Nat.mod_lt _ (by omega)
    have hge : 2 ^ (ilog2 b + 26) ≤ a * 2 ^ (ilog2 b + 26) := Nat.le_mul_of_pos_left _ ha
    have hq : 2 ^ 24 ≤ a * 2 ^ (ilog2 b + 26) / b := by
      rw [Nat.le_div_iff_mul_le (by omega)]
      omega
    rw [round24_gt_pow _ _ (ilog2 b + 26 - 1) (by omega) hq, hd, hu]
    simp only [decide_eq_true_eq]
    have hfin : (2 ^ ilog2 b * 2 ^ 25 + 2 ^ ilog2 b * 2) * b < a * 2 ^ (ilog2 b + 26) ↔
        b * (2 ^ 24 + 1) < a * 2 ^ 25 := by
      have e1 : (2 ^ ilog2 b * 2 ^ 25 + 2 ^ ilog2 b * 2) * b
          = (2 ^ ilog2 b * 2) * (b * (2 ^ 24 + 1)) := by ring
      have e2 : a * 2 ^ (ilog2 b + 26) = (2 ^ ilog2 b * 2) * (a * 2 ^ 25) := by
        rw [hs]; ring
      rw [e1, e2]
      exact Nat.mul_lt_mul_left (by omega)
    rw [← hfin]
    clear hfin hq hge
    generalize a * 2 ^ (ilog2 b + 26) / b = q at *
    generalize a * 2 ^ (ilog2 b + 26) % b = rem at *
    rw [← hdm]
    generalize 2 ^ ilog2 b * 2 ^ 25 + 2 ^ ilog2 b * 2 = T at *
    rcases Nat.lt_trichotomy q T with h | h | h
    · have h2 : (q + 1) * b ≤ T * b := Nat.mul_le_mul_right _ h
      rw [Nat.add_mul, Nat.one_mul] at h2
      rw [Nat.mul_comm b q]
      constructor
      · intro h3
        rcases h3 with h3 | h3
        · omega
        · omega
      · intro h3; omega
    · subst h
      rw [Nat.mul_comm b q]
      constructor
      · intro h3
        rcases h3 with h3 | h3
        · omega
        · have := h3.2
          omega
      · intro h3
        right
        exact ⟨rfl, by omega⟩
    · have h2 : (T + 1) * b ≤ q * b := Nat.mul_le_mul_right _ h
      rw [Nat.add_mul, Nat.one_mul] at h2
      rw [Nat.mul_comm b q]
      constructor
      · intro _; omega
      · intro _; left; exact h

theorem toFloat_small_pow : toFloat (2 ^ 24) = 2 ^ 24 := by decide

theorem toFloat_pos (t : Nat) (ht : 1 ≤ t) : 1 ≤ toFloat t := by
  have h := (round24_bounds t false).2
  unfold toFloat
  omega

theorem overLoad_iff_float (e t : Nat) (ht : 1 ≤ t) :
    overLoad e t = true ↔ toFloat t * (2 ^ 24 + 1) < toFloat e * 2 ^ 25 :=
  floatDivGtHalf_iff _ _ (toFloat_pos t ht)

theorem overLoad_zero (t : Nat) : overLoad 0 t = false := by
  unfold overLoad floatDivGtHalf
  rw [toFloat_small 0 (by decide)]
  simp only [Nat.zero_mul, Nat.zero_div]
  rw [round24_small 0 _ (by decide)]
  simp

theorem overLoad_mono (e1 e2 t : Nat) (ht : 1 ≤ t) (h : e1 ≤ e2) (h2 : overLoad e2 t = false) :
    overLoad e1 t = false := by
  have h3 : ¬ overLoad e2 t = true := by rw [h2]; decide
  rw [overLoad_iff_float e2 t ht] at h3
  have h4 := toFloat_mono e1 e2 h
  have h5 : ¬ overLoad e1 t = true := by
    rw [overLoad_iff_float e1 t ht]
    omega
  simpa using h5

theorem overLoad_after_resize (e t : Nat) (ht : 1 ≤ t) (h : overLoad e t = false) :
    overLoad (e + 1) (t * 6 + 1) = false := by
  have h3 : ¬ overLoad e t = true := by rw [h]; decide
  rw [overLoad_iff_float e t ht] at h3
  have b1 := round24_bounds e false
  have b2 := round24_bounds t false
  have b3 := round24_bounds (e + 1) false
  have b4 := round24_bounds (t * 6 + 1) false
  have h5 : ¬ overLoad (e + 1) (t * 6 + 1) = true := by
    rw [overLoad_iff_float _ _ (by omega)]
    unfold toFloat at *
    omega
  simpa using h5

theorem overLoad_small (e t : Nat) (ht : 1 ≤ t) (hsmall : t < 2 ^ 24) :
    overLoad e t = true ↔ t < 2 * e := by
  rw [overLoad_iff_float e t ht, toFloat_small t hsmall]
  by_cases he : e < 2 ^ 24
  · rw [toFloat_small e he]
    constructor <;> intro h <;> omega
  · have h1 := toFloat_mono (2 ^ 24) e (by omega)
    rw [toFloat_small_pow] at h1
    constructor <;> intro h <;> omega

/-! ## The bucket array -/

theorem chainAt_of_lt (t : List (List Key)) (i : Nat) (h : i < t.length) :
    chainAt t i = t[i] := by
  simp [chainAt, List.getElem?_eq_getElem h]

theorem chainAt_of_le (t : List (List Key)) (i : Nat) (h : t.length ≤ i) :
    chainAt t i = [] := by
  simp [chainAt, List.getElem?_eq_none h]

theorem chainAt_nil (i : Nat) : chainAt ([] : List (List Key)) i = [] := by
  simp [chainAt]

theorem chainAt_cons_zero (a : List Key) (t : List (List Key)) : chainAt (a :: t) 0 = a := by
  simp [chainAt]

theorem chainAt_cons_succ (a : List Key) (t : List (List Key)) (i : Nat) :
    chainAt (a :: t) (i + 1) = chainAt t i := by
  simp [chainAt]

theorem chainAt_set (t : List (List Key)) (i j : Nat) (c : List Key) :
    chainAt (t.set i c) j = if i = j ∧ i < t.length then c else chainAt t j := by
  unfold chainAt
  rw [List.getElem?_set]
  by_cases hij : i = j
  · subst hij
    by_cases hlt : i < t.length
    · simp [hlt]
    · simp [hlt, List.getElem?_eq_none (Nat.le_of_not_lt hlt)]
  · simp [hij]

theorem chainAt_replicate (n i : Nat) : chainAt (List.replicate n ([] : List Key)) i = [] := by
  by_cases h : i < n
  · rw [chainAt_of_lt _ _ (by simpa using h)]; simp
  · exact chainAt_of_le _ _ (by simpa using h)

theorem mem_flatten_iff_chainAt (t : List (List Key)) (k : Key) :
    k ∈ t.flatten ↔ ∃ i, k ∈ chainAt t i := by
  constructor
  · intro h
    obtain ⟨c, hc, hk⟩ := List.mem_flatten.mp h
    obtain ⟨i, hi, rfl⟩ := List.getElem_of_mem hc
    exact ⟨i, by rw [chainAt_of_lt _ _ hi]; exact hk⟩
  · rintro ⟨i, hk⟩
    by_cases hi : i < t.length
    · rw [chainAt_of_lt _ _ hi] at hk
      exact List.mem_flatten.mpr ⟨_, List.getElem_mem _, hk⟩
    · rw [chainAt_of_le _ _ (Nat.le_of_not_lt hi)] at hk
      cases hk

theorem flatten_set_perm (t : List (List Key)) (i : Nat) (c : List Key) (h : i < t.length) :
    ((t.set i c).flatten ++ chainAt t i).Perm (t.flatten ++ c) := by
  induction t generalizing i with
  | nil => simp at h
  | cons a t ih =>
    cases i with
    | zero =>
      simp only [List.set_cons_zero, List.flatten_cons, chainAt_cons_zero]
      calc (c ++ t.flatten ++ a).Perm (a ++ (c ++ t.flatten)) := List.perm_append_comm
        _ |>.Perm (a ++ (t.flatten ++ c)) := List.Perm.append_left a List.perm_append_comm
        _ = a ++ t.flatten ++ c := by simp
    | succ i =>
      simp only [List.set_cons_succ, List.flatten_cons, chainAt_cons_succ, List.append_assoc]
      exact List.Perm.append_left a (ih i (by simpa using h))

theorem range_map_chainAt (t : List (List Key)) :
    (List.range t.length).map (chainAt t) = t := by
  apply List.ext_getElem
  · simp
  · intro n h1 h2
    simp only [List.getElem_map, List.getElem_range]
    exact chainAt_of_lt _ _ h2

theorem pushFront_length (t : List (List Key)) (i : Nat) (k : Key) :
    (pushFront t i k).length = t.length := by
  simp [pushFront]

theorem chainAt_pushFront (t : List (List Key)) (i j : Nat) (k : Key) (h : i < t.length) :
    chainAt (pushFront t i k) j = if i = j then k :: chainAt t i else chainAt t j := by
  simp [pushFront, chainAt_set, h]

theorem flatten_pushFront_perm (t : List (List Key)) (i : Nat) (k : Key) (h : i < t.length) :
    (pushFront t i k).flatten.Perm (k :: t.flatten) := by
  have h1 := flatten_set_perm t i (k :: chainAt t i) h
  have h2 : (t.flatten ++ k :: chainAt t i).Perm ((k :: t.flatten) ++ chainAt t i) := by
    simp
  exact (List.perm_append_right_iff _).mp (h1.trans h2)

/-! ## Scans along one chain -/

theorem locateFrom_isEmpty (key : Key) (c : List Key) :
    (ADS_set.locateFrom key c).isEmpty = true ↔ key ∉ c := by
  induction c with
  | nil => simp [ADS_set.locateFrom]
  | cons e next ih =>
    by_cases h : e = key
    · simp [ADS_set.locateFrom, h]
    · have h2 : ¬ key = e := fun h3 => h h3.symm
      simp [ADS_set.locateFrom, h, h2, ih]

theorem locateFrom_head (key : Key) (c : List Key) (h : key ∈ c) :
    (ADS_set.locateFrom key c).head? = some key := by
  induction c with
  | nil => cases h
  | cons e next ih =>
    by_cases he : e = key
    · simp [ADS_set.locateFrom, he]
    · have h2 : key ∈ next := by
        rcases List.mem_cons.mp h with h3 | h3
        · exact absurd h3.symm he
        · exact h3
      simp [ADS_set.locateFrom, he, ih h2]

theorem unlink_eq_none_iff (key : Key) (c : List Key) :
    ADS_set.unlink key c = none ↔ key ∉ c := by
  induction c with
  | nil => simp [ADS_set.unlink]
  | cons e next ih =>
    by_cases h : e = key
    · simp [ADS_set.unlink, h]
    · have h2 : ¬ key = e := fun h3 => h h3.symm
      cases hu : ADS_set.unlink key next with
      | none => simp [ADS_set.unlink, h, h2, hu, ih.mp hu]
      | some r =>
        have h3 : key ∈ next := by
          by_contra hn
          rw [ih.mpr hn] at hu
          cases hu
        simp [ADS_set.unlink, h, hu, h3]

theorem unlink_some_perm (key : Key) (c r : List Key) (h : ADS_set.unlink key c = some r) :
    c.Perm (key :: r) := by
  induction c generalizing r with
  | nil => simp [ADS_set.unlink] at h
  | cons e next ih =>
    by_cases he : e = key
    · simp [ADS_set.unlink, he] at h
      subst h; subst he
      exact List.Perm.refl _
    · cases hu : ADS_set.unlink key next with
      | none => simp [ADS_set.unlink, he, hu] at h
      | some r2 =>
        simp [ADS_set.unlink, he, hu] at h
        subst h
        exact ((ih r2 hu).cons e).trans (List.Perm.swap key e r2)

theorem drain_eq_nil (c : List Key) : ADS_set.drain c = [] := by
  induction c with
  | nil => rfl
  | cons e next ih => simpa [ADS_set.drain] using ih

/-! ## Lookup -/

theorem count_eq_one_iff_mem_chain (hasher : Key → Nat) (s : ADS_set Key) (k : Key) :
    s.count hasher k = 1 ↔ k ∈ chainAt s.table (s.hash_func hasher k) := by
  unfold ADS_set.count ADS_set.locate
  by_cases h : k ∈ chainAt s.table (s.hash_func hasher k)
  · have h2 : ¬ (ADS_set.locateFrom k (chainAt s.table (s.hash_func hasher k))).isEmpty = true :=
      fun h3 => (locateFrom_isEmpty _ _).mp h3 h
    simp [h2, h]
  · simp [(locateFrom_isEmpty _ _).mpr h, h]

theorem count_eq_zero_iff_not_mem_chain (hasher : Key → Nat) (s : ADS_set Key) (k : Key) :
    s.count hasher k = 0 ↔ k ∉ chainAt s.table (s.hash_func hasher k) := by
  rw [← count_eq_one_iff_mem_chain]
  unfold ADS_set.count
  split <;> simp

theorem count_le_one (hasher : Key → Nat) (s : ADS_set Key) (k : Key) :
    s.count hasher k = 0 ∨ s.count hasher k = 1 := by
  unfold ADS_set.count
  split <;> simp

theorem mem_keys_iff_mem_chain (hasher : Key → Nat) (s : ADS_set Key)
    (hp : ∀ i k, k ∈ chainAt s.table i → hasher k % s.tableSize = i) (k : Key) :
    k ∈ s.keys ↔ k ∈ chainAt s.table (s.hash_func hasher k) := by
  unfold ADS_set.keys
  rw [mem_flatten_iff_chainAt]
  constructor
  · rintro ⟨i, hi⟩
    have h := hp i k hi
    unfold ADS_set.hash_func
    rw [h]
    exact hi
  · intro h
    exact ⟨_, h⟩

theorem count_eq_one_iff (hasher : Key → Nat) (s : ADS_set Key) (hs : Inv hasher s) (k : Key) :
    s.count hasher k = 1 ↔ k ∈ s.keys := by
  rw [count_eq_one_iff_mem_chain, mem_keys_iff_mem_chain hasher s hs.placed]

theorem count_eq_zero_iff (hasher : Key → Nat) (s : ADS_set Key) (hs : Inv hasher s) (k : Key) :
    s.count hasher k = 0 ↔ k ∉ s.keys := by
  rw [count_eq_zero_iff_not_mem_chain, mem_keys_iff_mem_chain hasher s hs.placed]

/-! ## Relinking and `resize` -/

theorem foldl_range_chainAt {β : Type} (f : β → Key → β) (b : β) (t : List (List Key)) :
    (List.range t.length).foldl (fun acc i => (chainAt t i).foldl f acc) b
      = t.flatten.foldl f b := by
  rw [List.foldl_flatten]
  conv_rhs => rw [← range_map_chainAt t]
  rw [List.foldl_map]

theorem foldl_pushFront (hasher : Key → Nat) (M : Nat) (hM : 0 < M) (ks : List Key) :
    ∀ nt : List (List Key), nt.length = M →
      (ks.foldl (fun nt2 key => pushFront nt2 (hasher key % M) key) nt).length = M ∧
      (ks.foldl (fun nt2 key => pushFront nt2 (hasher key % M) key) nt).flatten.Perm
        (ks ++ nt.flatten) ∧
      ((∀ i k, k ∈ chainAt nt i → hasher k % M = i) →
        ∀ i k, k ∈ chainAt (ks.foldl (fun nt2 key => pushFront nt2 (hasher key % M) key) nt) i →
          hasher k % M = i) := by
  induction ks with
  | nil =>
    intro nt hlen
    exact ⟨hlen, by simp, fun h => h⟩
  | cons a ks ih =>
    intro nt hlen
    have hidx : hasher a % M < nt.length := by rw [hlen]; exact Nat.mod_lt _ hM
    have hlen2 : (pushFront nt (hasher a % M) a).length = M := by
      rw [pushFront_length]; exact hlen
    obtain ⟨h1, h2, h3⟩ := ih (pushFront nt (hasher a % M) a) hlen2
    refine ⟨h1, ?_, ?_⟩
    · simp only [List.foldl_cons]
      refine h2.trans ?_
      refine (List.Perm.append_left ks (flatten_pushFront_perm nt _ a hidx)).trans ?_
      exact List.perm_middle
    · intro hp
      simp only [List.foldl_cons]
      apply h3
      intro i k hk
      rw [chainAt_pushFront nt _ i a hidx] at hk
      by_cases hi : hasher a % M = i
      · rw [if_pos hi] at hk
        rcases List.mem_cons.mp hk with hk2 | hk2
        · rw [hk2]; exact hi
        · rw [hi] at hk2; exact hp i k hk2
      · rw [if_neg hi] at hk
        exact hp i k hk

theorem resize_table (hasher : Key → Nat) (s : ADS_set Key) (hlen : s.table.length = s.tableSize) :
    (s.resize hasher).table =
      s.keys.foldl (fun nt2 key => pushFront nt2 (hasher key % (s.tableSize * 6 + 1)) key)
        (List.replicate (s.tableSize * 6 + 1) []) := by
  unfold ADS_set.resize ADS_set.keys
  simp only
  rw [← hlen]
  exact foldl_range_chainAt _ _ _

theorem resize_length (hasher : Key → Nat) (s : ADS_set Key) (hlen : s.table.length = s.tableSize) :
    (s.resize hasher).table.length = s.tableSize * 6 + 1 := by
  rw [resize_table hasher s hlen]
  exact (foldl_pushFront hasher (s.tableSize * 6 + 1) (Nat.succ_pos _) s.keys _ (by simp)).1

theorem resize_keys_perm (hasher : Key → Nat) (s : ADS_set Key)
    (hlen : s.table.length = s.tableSize) : (s.resize hasher).keys.Perm s.keys := by
  have h := (foldl_pushFront hasher (s.tableSize * 6 + 1) (Nat.succ_pos _) s.keys
    (List.replicate (s.tableSize * 6 + 1) []) (by simp)).2.1
  rw [← resize_table hasher s hlen] at h
  simpa [ADS_set.keys] using h

theorem resize_placed (hasher : Key → Nat) (s : ADS_set Key)
    (hlen : s.table.length = s.tableSize) :
    ∀ i k, k ∈ chainAt (s.resize hasher).table i → hasher k % (s.tableSize * 6 + 1) = i := by
  have h := (foldl_pushFront hasher (s.tableSize * 6 + 1) (Nat.succ_pos _) s.keys
    (List.replicate (s.tableSize * 6 + 1) []) (by simp)).2.2
  rw [← resize_table hasher s hlen] at h
  apply h
  intro i k hk
  rw [chainAt_replicate] at hk
  cases hk

theorem resize_tableSize (hasher : Key → Nat) (s : ADS_set Key) :
    (s.resize hasher).tableSize = s.tableSize * 6 + 1 := rfl

theorem resize_elementSize (hasher : Key → Nat) (s : ADS_set Key) :
    (s.resize hasher).elementSize = s.elementSize := rfl

theorem resize_count (hasher : Key → Nat) (s : ADS_set Key)
    (hlen : s.table.length = s.tableSize)
    (hp : ∀ i k, k ∈ chainAt s.table i → hasher k % s.tableSize = i) (k : Key) :
    (s.resize hasher).count hasher k = s.count hasher k := by
  have hp2 := resize_placed hasher s hlen
  have h1 : (s.resize hasher).count hasher k = 1 ↔ s.count hasher k = 1 := by
    rw [count_eq_one_iff_mem_chain, count_eq_one_iff_mem_chain,
      ← mem_keys_iff_mem_chain hasher s hp, ← mem_keys_iff_mem_chain hasher _ hp2]
    exact (resize_keys_perm hasher s hlen).mem_iff
  rcases count_le_one hasher (s.resize hasher) k with h2 | h2 <;>
    rcases count_le_one hasher s k with h3 | h3
  · rw [h2, h3]
  · rw [h1.mpr h3] at h2; cases h2
  · rw [h1.mp h2] at h3; cases h3
  · rw [h2, h3]

/-! ## `add` -/

theorem locate_isEmpty_iff (hasher : Key → Nat) (s : ADS_set Key) (hs : Inv hasher s) (k : Key) :
    (s.locate hasher k).isEmpty = true ↔ k ∉ s.keys := by
  unfold ADS_set.locate
  rw [locateFrom_isEmpty, mem_keys_iff_mem_chain hasher s hs.placed]

theorem add_present (hasher : Key → Nat) (s : ADS_set Key) (hs : Inv hasher s) (k : Key)
    (hk : k ∈ s.keys) : s.add hasher k = s := by
  have h : ¬ (s.locate hasher k).isEmpty = true :=
    fun h2 => (locate_isEmpty_iff hasher s hs k).mp h2 hk
  simp [ADS_set.add, h]

theorem add_absent (hasher : Key → Nat) (s : ADS_set Key) (hs : Inv hasher s) (k : Key)
    (hk : k ∉ s.keys) :
    Inv hasher (s.add hasher k) ∧ (s.add hasher k).keys.Perm (k :: s.keys) ∧
      (s.add hasher k).elementSize = s.elementSize + 1 ∧
      (s.add hasher k).tableSize =
        if overLoad (s.elementSize + 1) s.tableSize then s.tableSize * 6 + 1 else s.tableSize := by
  have hloc : (s.locate hasher k).isEmpty = true := (locate_isEmpty_iff hasher s hs k).mpr hk
  have hidx : s.hash_func hasher k < s.table.length := by
    rw [hs.length_eq]; exact Nat.mod_lt _ hs.pos
  have hperm : (pushFront s.table (s.hash_func hasher k) k).flatten.Perm (k :: s.keys) :=
    flatten_pushFront_perm s.table _ k hidx
  have hplaced : ∀ i j, j ∈ chainAt (pushFront s.table (s.hash_func hasher k) k) i →
      hasher j % s.tableSize = i := by
    intro i j hj
    rw [chainAt_pushFront s.table _ i k hidx] at hj
    by_cases hi : s.hash_func hasher k = i
    · rw [if_pos hi] at hj
      rcases List.mem_cons.mp hj with h2 | h2
      · rw [h2]; exact hi
      · rw [hi] at h2; exact hs.placed i j h2
    · rw [if_neg hi] at hj
      exact hs.placed i j hj
  have hnodup : (k :: s.keys).Nodup := List.nodup_cons.mpr ⟨hk, hs.nodup⟩
  have hlen : (pushFront s.table (s.hash_func hasher k) k).length = s.tableSize := by
    rw [pushFront_length]; exact hs.length_eq
  have hpos := hs.pos
  have hload := hs.load
  have hcard := hs.card
  by_cases hov : overLoad (s.elementSize + 1) s.tableSize = true
  · have hadd : s.add hasher k = ADS_set.resize hasher
        { table := pushFront s.table (s.hash_func hasher k) k
          elementSize := s.elementSize + 1
          tableSize := s.tableSize } := by
      simp [ADS_set.add, hloc, hov]
    have hp2 := resize_keys_perm hasher
        { table := pushFront s.table (s.hash_func hasher k) k
          elementSize := s.elementSize + 1
          tableSize := s.tableSize } hlen
    rw [← hadd] at hp2
    have hp3 : (s.add hasher k).keys.Perm (k :: s.keys) := hp2.trans hperm
    refine ⟨?_, hp3, ?_, ?_⟩
    · refine ⟨?_, ?_, ?_, ?_, ?_, ?_⟩
      · rw [hadd]; exact resize_length hasher _ hlen
      · rw [hadd, resize_tableSize]; omega
      · rw [hadd]; exact resize_placed hasher _ hlen
      · exact hp3.nodup_iff.mpr hnodup
      · rw [hp3.length_eq, hadd, resize_elementSize]; simp [hcard]
      · rw [hadd, resize_tableSize, resize_elementSize]
        exact overLoad_after_resize s.elementSize s.tableSize hpos hload
    · rw [hadd]; rfl
    · rw [hadd, if_pos hov]; rfl
  · have hadd : s.add hasher k =
        { table := pushFront s.table (s.hash_func hasher k) k
          elementSize := s.elementSize + 1
          tableSize := s.tableSize } := by
      simp [ADS_set.add, hloc, hov]
    have hp3 : (s.add hasher k).keys.Perm (k :: s.keys) := by
      rw [hadd]; exact hperm
    refine ⟨?_, hp3, ?_, ?_⟩
    · refine ⟨?_, ?_, ?_, ?_, ?_, ?_⟩
      · rw [hadd]; exact hlen
      · rw [hadd]; exact hpos
      · rw [hadd]; exact hplaced
      · exact hp3.nodup_iff.mpr hnodup
      · rw [hp3.length_eq, hadd]; simp [hcard]
      · rw [hadd]
        show overLoad (s.elementSize + 1) s.tableSize = false
        simpa using hov
    · rw [hadd]
    · rw [hadd, if_neg hov]

theorem add_inv (hasher : Key → Nat) (s : ADS_set Key) (hs : Inv hasher s) (k : Key) :
    Inv hasher (s.add hasher k) := by
  by_cases hk : k ∈ s.keys
  · rw [add_present hasher s hs k hk]; exact hs
  · exact (add_absent hasher s hs k hk).1

theorem mem_keys_add (hasher : Key → Nat) (s : ADS_set Key) (hs : Inv hasher s) (k j : Key) :
    j ∈ (s.add hasher k).keys ↔ j = k ∨ j ∈ s.keys := by
  by_cases hk : k ∈ s.keys
  · rw [add_present hasher s hs k hk]
    constructor
    · exact fun h => Or.inr h
    · rintro (h | h)
      · rw [h]; exact hk
      · exact h
  · rw [(add_absent hasher s hs k hk).2.1.mem_iff]
    exact List.mem_cons

theorem insertRange_inv (hasher : Key → Nat) (ks : List Key) :
    ∀ s : ADS_set Key, Inv hasher s → Inv hasher (s.insertRange hasher ks) := by
  induction ks with
  | nil => intro s hs; exact hs
  | cons a ks ih =>
    intro s hs
    exact ih _ (add_inv hasher s hs a)

theorem mem_keys_insertRange (hasher : Key → Nat) (ks : List Key) :
    ∀ s : ADS_set Key, Inv hasher s → ∀ j : Key,
      (j ∈ (s.insertRange hasher ks).keys ↔ j ∈ ks ∨ j ∈ s.keys) := by
  induction ks with
  | nil => intro s _ j; simp [ADS_set.insertRange]
  | cons a ks ih =>
    intro s hs j
    have h := ih _ (add_inv hasher s hs a) j
    simp only [ADS_set.insertRange, List.foldl_cons] at h ⊢
    rw [h, mem_keys_add hasher s hs a j, List.mem_cons]
    tauto

theorem insert_state (hasher : Key → Nat) (s : ADS_set Key) (k : Key) :
    (s.insert hasher k).2 = s.add hasher k := by
  unfold ADS_set.insert
  by_cases h : (s.locate hasher k).isEmpty = true
  · simp [h]
  · simp [h, ADS_set.add]

/-! ## `erase` and `clear` -/

theorem erase_absent (hasher : Key → Nat) (s : ADS_set Key) (k : Key)
    (hk : k ∉ chainAt s.table (s.hash_func hasher k)) : s.erase hasher k = (0, s) := by
  unfold ADS_set.erase
  simp only
  rw [(unlink_eq_none_iff k _).mpr hk]

theorem erase_present (hasher : Key → Nat) (s : ADS_set Key) (hs : Inv hasher s) (k : Key)
    (hk : k ∈ s.keys) :
    (s.erase hasher k).1 = 1 ∧ Inv hasher (s.erase hasher k).2 ∧
      s.keys.Perm (k :: (s.erase hasher k).2.keys) ∧
      (s.erase hasher k).2.elementSize + 1 = s.elementSize ∧
      (s.erase hasher k).2.tableSize = s.tableSize := by
  have hchain : k ∈ chainAt s.table (s.hash_func hasher k) :=
    (mem_keys_iff_mem_chain hasher s hs.placed k).mp hk
  cases hu : ADS_set.unlink k (chainAt s.table (s.hash_func hasher k)) with
  | none => exact absurd hchain ((unlink_eq_none_iff k _).mp hu)
  | some r =>
    have her : s.erase hasher k =
        (1, { table := s.table.set (s.hash_func hasher k) r
              elementSize := s.elementSize - 1
              tableSize := s.tableSize }) := by
      unfold ADS_set.erase
      simp only
      rw [hu]
    have hidx : s.hash_func hasher k < s.table.length := by
      rw [hs.length_eq]; exact Nat.mod_lt _ hs.pos
    have hcr : (chainAt s.table (s.hash_func hasher k)).Perm (k :: r) :=
      unlink_some_perm k _ r hu
    have h1 := flatten_set_perm s.table (s.hash_func hasher k) r hidx
    have h2 : (((s.table.set (s.hash_func hasher k) r).flatten ++ [k]) ++ r).Perm
        (s.table.flatten ++ r) := by
      refine List.Perm.trans ?_ h1
      rw [List.append_assoc]
      exact List.Perm.append_left _ hcr.symm
    have h3 : s.keys.Perm (k :: (s.table.set (s.hash_func hasher k) r).flatten) := by
      have h4 := ((List.perm_append_right_iff r).mp h2).symm
      exact h4.trans (List.perm_append_singleton k _)
    have hnd : (k :: (s.table.set (s.hash_func hasher k) r).flatten).Nodup :=
      h3.nodup_iff.mp hs.nodup
    have hlen3 := h3.length_eq
    have hcard := hs.card
    have hload := hs.load
    simp only [List.length_cons] at hlen3
    rw [her]
    refine ⟨rfl, ⟨?_, hs.pos, ?_, ?_, ?_, ?_⟩, h3, ?_, rfl⟩
    · simp [hs.length_eq]
    · intro i j hj
      show hasher j % s.tableSize = i
      simp only [chainAt_set] at hj
      by_cases hi : s.hash_func hasher k = i ∧ s.hash_func hasher k < s.table.length
      · rw [if_pos hi] at hj
        have h5 : j ∈ chainAt s.table (s.hash_func hasher k) :=
          hcr.mem_iff.mpr (List.mem_cons_of_mem k hj)
        rw [← hi.1]
        exact hs.placed _ j h5
      · rw [if_neg hi] at hj
        exact hs.placed i j hj
    · exact (List.nodup_cons.mp hnd).2
    · show s.elementSize - 1 = (s.table.set (s.hash_func hasher k) r).flatten.length
      omega
    · show overLoad (s.elementSize - 1) s.tableSize = false
      exact overLoad_mono _ _ _ hs.pos (Nat.sub_le _ _) hload
    · show s.elementSize - 1 + 1 = s.elementSize
      omega

theorem erase_inv (hasher : Key → Nat) (s : ADS_set Key) (hs : Inv hasher s) (k : Key) :
    Inv hasher (s.erase hasher k).2 := by
  by_cases hk : k ∈ s.keys
  · exact (erase_present hasher s hs k hk).2.1
  · rw [erase_absent hasher s k
      (fun h => hk ((mem_keys_iff_mem_chain hasher s hs.placed k).mpr h))]
    exact hs

theorem mem_keys_erase (hasher : Key → Nat) (s : ADS_set Key) (hs : Inv hasher s) (k j : Key) :
    j ∈ (s.erase hasher k).2.keys ↔ j ≠ k ∧ j ∈ s.keys := by
  by_cases hk : k ∈ s.keys
  · obtain ⟨_, _, hperm, _, _⟩ := erase_present hasher s hs k hk
    have hnd : (k :: (s.erase hasher k).2.keys).Nodup := hperm.nodup_iff.mp hs.nodup
    rw [hperm.mem_iff, List.mem_cons]
    constructor
    · intro h
      refine ⟨?_, Or.inr h⟩
      intro hjk
      rw [hjk] at h
      exact (List.nodup_cons.mp hnd).1 h
    · rintro ⟨hne, h | h⟩
      · exact absurd h hne
      · exact h
  · rw [erase_absent hasher s k
      (fun h => hk ((mem_keys_iff_mem_chain hasher s hs.placed k).mpr h))]
    constructor
    · intro h
      refine ⟨?_, h⟩
      intro hjk
      rw [hjk] at h
      exact hk h
    · exact fun h => h.2

theorem clear_fold (n : Nat) (t : List (List Key)) :
    ((List.range n).foldl (fun t2 i => t2.set i (ADS_set.drain (chainAt t2 i))) t).length
        = t.length ∧
      ∀ j, chainAt ((List.range n).foldl
          (fun t2 i => t2.set i (ADS_set.drain (chainAt t2 i))) t) j
        = if j < n then [] else chainAt t j := by
  simp only [drain_eq_nil]
  induction n with
  | zero => simp
  | succ n ih =>
    obtain ⟨h1, h2⟩ := ih
    rw [List.range_succ, List.foldl_append]
    simp only [List.foldl_cons, List.foldl_nil, List.length_set]
    refine ⟨h1, ?_⟩
    intro j
    rw [chainAt_set, h2 j]
    by_cases hj : n = j
    · subst hj
      by_cases hlt : n < t.length
      · simp [h1, hlt]
      · simp [h1, hlt, chainAt_of_le t n (Nat.le_of_not_lt hlt)]
    · have h3 : (j < n + 1) ↔ (j < n) := by omega
      simp [hj, h3]

theorem clear_chainAt (s : ADS_set Key) (hlen : s.table.length = s.tableSize) (j : Nat) :
    chainAt s.clear.table j = [] := by
  unfold ADS_set.clear
  simp only
  rw [(clear_fold s.tableSize s.table).2 j]
  by_cases hj : j < s.tableSize
  · simp [hj]
  · simp [hj, chainAt_of_le s.table j (by omega)]

theorem clear_keys (s : ADS_set Key) (hlen : s.table.length = s.tableSize) :
    s.clear.keys = [] := by
  apply List.eq_nil_iff_forall_not_mem.mpr
  intro k hk
  obtain ⟨i, hi⟩ := (mem_flatten_iff_chainAt _ k).mp hk
  rw [clear_chainAt s hlen i] at hi
  cases hi

theorem clear_inv (hasher : Key → Nat) (s : ADS_set Key) (hs : Inv hasher s) :
    Inv hasher s.clear := by
  refine ⟨?_, hs.pos, ?_, ?_, ?_, ?_⟩
  · exact (clear_fold s.tableSize s.table).1.trans hs.length_eq
  · intro i k hk
    rw [clear_chainAt s hs.length_eq i] at hk
    cases hk
  · rw [clear_keys s hs.length_eq]; exact List.nodup_nil
  · rw [clear_keys s hs.length_eq]; rfl
  · exact overLoad_zero s.tableSize

/-! ## Reachable states -/

theorem new_inv (hasher : Key → Nat) (N : Nat) (hN : 1 ≤ N) :
    Inv hasher (ADS_set.new N : ADS_set Key) := by
  refine ⟨by simp [ADS_set.new], hN, ?_, ?_, ?_, ?_⟩
  · intro i k hk
    simp only [ADS_set.new] at hk
    rw [chainAt_replicate] at hk
    cases hk
  · simp [ADS_set.keys, ADS_set.new]
  · simp [ADS_set.keys, ADS_set.new]
  · exact overLoad_zero N

theorem apply_inv (hasher : Key → Nat) (s : ADS_set Key) (hs : Inv hasher s) (op : Op Key) :
    Inv hasher (op.apply hasher s) := by
  cases op with
  | insert key => simp only [Op.apply, insert_state]; exact add_inv hasher s hs key
  | insertRange keys => exact insertRange_inv hasher keys s hs
  | erase key => exact erase_inv hasher s hs key
  | clear => exact clear_inv hasher s hs

theorem foldl_apply_inv (hasher : Key → Nat) (ops : List (Op Key)) :
    ∀ s : ADS_set Key, Inv hasher s → Inv hasher (ops.foldl (Op.apply hasher) s) := by
  induction ops with
  | nil => intro s hs; exact hs
  | cons op ops ih => intro s hs; exact ih _ (apply_inv hasher s hs op)

theorem run_inv (hasher : Key → Nat) (N : Nat) (hN : 1 ≤ N) (ops : List (Op Key)) :
    Inv hasher (run hasher N ops) :=
  foldl_apply_inv hasher ops _ (new_inv hasher N hN)

theorem run_append (hasher : Key → Nat) (N : Nat) (ops : List (Op Key)) (op : Op Key) :
    run hasher N (ops ++ [op]) = op.apply hasher (run hasher N ops) := by
  simp [run, List.foldl_append]

/-! ## Claims on `resize`, the structural invariant and `size` -/

/-- C1: for a table with `tableSize >= 1` buckets in which every key sits in bucket
`hash(key) mod tableSize`, `resize()` leaves `elementSize` unchanged, keeps the
multiset of keys over all chains, produces `tableSize * 6 + 1` buckets, and
leaves `count(k)` unchanged for every key `k`. -/
theorem resize_preserves_keys (hasher : Key → Nat) (s : ADS_set Key)
    (hlen : s.table.length = s.tableSize) (hpos : 1 ≤ s.tableSize)
    (hplaced : ∀ i k, k ∈ chainAt s.table i → hasher k % s.tableSize = i) :
    (s.resize hasher).elementSize = s.elementSize ∧
      Multiset.ofList (s.resize hasher).keys = Multiset.ofList s.keys ∧
      (s.resize hasher).tableSize = s.tableSize * 6 + 1 ∧
      (s.resize hasher).table.length = s.tableSize * 6 + 1 ∧
      ∀ k, (s.resize hasher).count hasher k = s.count hasher k := by
  have _ := hpos
  exact ⟨rfl, Multiset.coe_eq_coe.mpr (resize_keys_perm hasher s hlen), rfl,
    resize_length hasher s hlen, resize_count hasher s hlen hplaced⟩

theorem resize_preserves_keys_witness :
    (ADS_set.resize id ⟨[[4, 2], [3]], 3, 2⟩).elementSize = 3 ∧
      Multiset.ofList (ADS_set.resize id ⟨[[4, 2], [3]], 3, 2⟩).keys
        = Multiset.ofList (ADS_set.keys ⟨[[4, 2], [3]], 3, 2⟩) ∧
      (ADS_set.resize id ⟨[[4, 2], [3]], 3, 2⟩).tableSize = 2 * 6 + 1 ∧
      (ADS_set.resize id ⟨[[4, 2], [3]], 3, 2⟩).table.length = 2 * 6 + 1 ∧
      ∀ k, (ADS_set.resize id ⟨[[4, 2], [3]], 3, 2⟩).count id k
        = ADS_set.count id ⟨[[4, 2], [3]], 3, 2⟩ k :=
  resize_preserves_keys id ⟨[[4, 2], [3]], 3, 2⟩ rfl (by decide) (by
    intro i k hk
    rcases i with _ | _ | i
    · simp [chainAt] at hk
      rcases hk with rfl | rfl <;> rfl
    · simp [chainAt] at hk
      subst hk
      rfl
    · simp [chainAt] at hk)

/-- C2: in every state reached from the empty set with `N >= 1` buckets by
insert, erase and clear calls, the array has `tableSize` buckets, every key
stored in bucket `i` satisfies `hash(key) mod tableSize = i`, and no key occurs
more than once across all chains. -/
theorem reachable_placed_nodup (hasher : Key → Nat) (N : Nat) (hN : 1 ≤ N)
    (ops : List (Op Key)) :
    (run hasher N ops).table.length = (run hasher N ops).tableSize ∧
      (∀ i k, k ∈ chainAt (run hasher N ops).table i →
        hasher k % (run hasher N ops).tableSize = i) ∧
      (run hasher N ops).keys.Nodup :=
  ⟨(run_inv hasher N hN ops).length_eq, (run_inv hasher N hN ops).placed,
    (run_inv hasher N hN ops).nodup⟩

theorem reachable_placed_nodup_witness :
    1 ≤ 7 ∧
      (run id 7 [Op.insert 3, Op.insert 10, Op.erase 3, Op.insertRange [17, 24, 10],
          Op.clear, Op.insert 8]).table.length
        = (run id 7 [Op.insert 3, Op.insert 10, Op.erase 3, Op.insertRange [17, 24, 10],
          Op.clear, Op.insert 8]).tableSize ∧
      (∀ i k, k ∈ chainAt (run id 7 [Op.insert 3, Op.insert 10, Op.erase 3,
          Op.insertRange [17, 24, 10], Op.clear, Op.insert 8]).table i →
        id k % (run id 7 [Op.insert 3, Op.insert 10, Op.erase 3,
          Op.insertRange [17, 24, 10], Op.clear, Op.insert 8]).tableSize = i) ∧
      (run id 7 [Op.insert 3, Op.insert 10, Op.erase 3, Op.insertRange [17, 24, 10],
          Op.clear, Op.insert 8]).keys.Nodup :=
  ⟨by decide, reachable_placed_nodup id 7 (by decide) _⟩

theorem mem_keys_foldl_inserts (hasher : Key → Nat) (ops : List (Op Key)) :
    ∀ s : ADS_set Key, Inv hasher s → (∀ op ∈ ops, op.isInsert = true) → ∀ j : Key,
      (j ∈ (ops.foldl (Op.apply hasher) s).keys ↔
        j ∈ (ops.map Op.insertedKeys).flatten ∨ j ∈ s.keys) := by
  induction ops with
  | nil => intro s _ _ j; simp
  | cons op ops ih =>
    intro s hs hins j
    have h1 := ih (op.apply hasher s) (apply_inv hasher s hs op)
      (fun o ho => hins o (List.mem_cons_of_mem _ ho)) j
    simp only [List.foldl_cons, List.map_cons, List.flatten_cons, List.mem_append]
    rw [h1]
    have h2 : j ∈ (op.apply hasher s).keys ↔ j ∈ op.insertedKeys ∨ j ∈ s.keys := by
      cases op with
      | insert key =>
        simp only [Op.apply, insert_state, Op.insertedKeys, List.mem_singleton]
        exact mem_keys_add hasher s hs key j
      | insertRange keys => exact mem_keys_insertRange hasher keys s hs j
      | erase key => have h3 := hins (Op.erase key) (List.mem_cons_self _ _); cases h3
      | clear => have h3 := hins Op.clear (List.mem_cons_self _ _); cases h3
    rw [h2]
    tauto

/-- C3: after any sequence of insert calls (single-key or range) on an empty set
with `N >= 1` buckets, `size()` is the number of distinct keys passed to the
calls. -/
theorem size_eq_distinct_inserted (hasher : Key → Nat) (N : Nat) (hN : 1 ≤ N)
    (ops : List (Op Key)) (hins : ∀ op ∈ ops, op.isInsert = true) :
    (run hasher N ops).size = (ops.map Op.insertedKeys).flatten.dedup.length := by
  have hs := run_inv hasher N hN ops
  have hmem : ∀ j, j ∈ (run hasher N ops).keys ↔ j ∈ (ops.map Op.insertedKeys).flatten.dedup := by
    intro j
    rw [List.mem_dedup]
    have h := mem_keys_foldl_inserts hasher ops _ (new_inv hasher N hN) hins j
    have h0 : j ∉ (ADS_set.new N : ADS_set Key).keys := by simp [ADS_set.keys, ADS_set.new]
    unfold run
    rw [h]
    exact ⟨fun h1 => h1.resolve_right h0, Or.inl⟩
  have hperm := (List.perm_ext_iff_of_nodup hs.nodup (List.nodup_dedup _)).mpr hmem
  unfold ADS_set.size
  rw [hs.card]
  exact hperm.length_eq

theorem size_eq_distinct_inserted_witness :
    1 ≤ 2 ∧ (∀ op ∈ [Op.insert 5, Op.insertRange [5, 9, 5, 12], Op.insert 9],
        Op.isInsert op = true) ∧
      (run id 2 [Op.insert 5, Op.insertRange [5, 9, 5, 12], Op.insert 9]).size = 3 :=
  ⟨by decide, by decide,
    size_eq_distinct_inserted id 2 (by decide)
      [Op.insert 5, Op.insertRange [5, 9, 5, 12], Op.insert 9] (by decide)⟩

/-! ## Claims on lookup after a sequence of calls -/

theorem insertedNotErased_nil (k : Key) : ¬ InsertedNotErased k ([] : List (Op Key)) := by
  rintro ⟨pre, op, post, h, _, _⟩
  simp at h

theorem insertedNotErased_concat (k : Key) (ops : List (Op Key)) (op : Op Key) :
    InsertedNotErased k (ops ++ [op]) ↔
      op.inserts k = true ∨ (InsertedNotErased k ops ∧ op ≠ Op.erase k) := by
  constructor
  · rintro ⟨pre, o, post, heq, hins, hne⟩
    rcases List.eq_nil_or_concat post with hp | ⟨post2, b, hp⟩
    · subst hp
      have h := List.append_inj' heq rfl
      have h2 : op = o := by simpa using h.2
      left
      rw [h2]; exact hins
    · rw [List.concat_eq_append] at hp
      subst hp
      have heq2 : ops ++ [op] = (pre ++ o :: post2) ++ [b] := by simpa using heq
      have h := List.append_inj' heq2 rfl
      have h2 : op = b := by simpa using h.2
      right
      refine ⟨⟨pre, o, post2, h.1, hins, ?_⟩, ?_⟩
      · exact fun hm => hne (List.mem_append_left _ hm)
      · intro hop
        apply hne
        rw [← h2, hop]
        simp
  · rintro (h | ⟨⟨pre, o, post, heq, hins, hne⟩, hop⟩)
    · exact ⟨ops, op, [], rfl, h, List.not_mem_nil _⟩
    · refine ⟨pre, o, post ++ [op], by simp [heq], hins, ?_⟩
      intro hm
      rcases List.mem_append.mp hm with h1 | h1
      · exact hne h1
      · exact hop (List.mem_singleton.mp h1).symm

theorem mem_keys_run_iff (hasher : Key → Nat) (N : Nat) (hN : 1 ≤ N) (k : Key)
    (ops : List (Op Key)) (hnc : Op.clear ∉ ops) :
    k ∈ (run hasher N ops).keys ↔ InsertedNotErased k ops := by
  induction ops using List.reverseRecOn with
  | nil =>
    constructor
    · intro h
      simp [run, ADS_set.keys, ADS_set.new] at h
    · exact fun h => absurd h (insertedNotErased_nil k)
  | append_singleton ops op ih =>
    have hnc2 : Op.clear ∉ ops := fun h => hnc (List.mem_append_left _ h)
    have ih2 := ih hnc2
    have hs := run_inv hasher N hN ops
    rw [run_append, insertedNotErased_concat, ← ih2]
    cases op with
    | insert key =>
      simp only [Op.apply, insert_state, Op.inserts, decide_eq_true_eq]
      rw [mem_keys_add hasher _ hs key k]
      constructor
      · rintro (h | h)
        · exact Or.inl h.symm
        · exact Or.inr ⟨h, by simp⟩
      · rintro (h | h)
        · exact Or.inl h.symm
        · exact Or.inr h.1
    | insertRange keys =>
      simp only [Op.apply, Op.inserts, decide_eq_true_eq]
      rw [mem_keys_insertRange hasher keys _ hs k]
      constructor
      · rintro (h | h)
        · exact Or.inl h
        · exact Or.inr ⟨h, by simp⟩
      · rintro (h | h)
        · exact Or.inl h
        · exact Or.inr h.1
    | erase key =>
      simp only [Op.apply, Op.inserts]
      rw [mem_keys_erase hasher _ hs key k]
      constructor
      · rintro ⟨h1, h2⟩
        refine Or.inr ⟨h2, ?_⟩
        intro h3
        injection h3 with h4
        exact h1 h4.symm
      · rintro (h | ⟨h1, h2⟩)
        · cases h
        · refine ⟨?_, h1⟩
          intro h3
          apply h2
          rw [h3]
    | clear => exact absurd (List.mem_append_right _ (List.mem_singleton.mpr rfl)) hnc

theorem end_current (s : ADS_set Key) : s.end_.current = [] := by
  simp [ADS_set.end_, Iterator.make, Iterator.next, Iterator.seek]

theorem find_present (hasher : Key → Nat) (s : ADS_set Key) (k : Key)
    (h : k ∈ chainAt s.table (s.hash_func hasher k)) :
    (s.find hasher k).deref = some k ∧ Iterator.eq (s.find hasher k) s.end_ = false := by
  have h1 : ¬ (s.locate hasher k).isEmpty = true :=
    fun h2 => (locateFrom_isEmpty _ _).mp h2 h
  have h3 : (s.locate hasher k).head? = some k := locateFrom_head k _ h
  have h4 : s.find hasher k =
      { current := s.locate hasher k, table := s.table, tableSize := s.tableSize,
        index := s.hash_func hasher k } := by
    simp [ADS_set.find, Iterator.make, h1]
  rw [h4]
  refine ⟨h3, ?_⟩
  simp only [Iterator.eq, end_current, decide_eq_false_iff_not]
  intro h5
  rw [h5] at h1
  exact h1 rfl

theorem find_absent (hasher : Key → Nat) (s : ADS_set Key) (k : Key)
    (h : k ∉ chainAt s.table (s.hash_func hasher k)) : s.find hasher k = s.end_ := by
  have h1 : (s.locate hasher k).isEmpty = true := (locateFrom_isEmpty _ _).mpr h
  simp [ADS_set.find, h1]

/-- C4: after any sequence of insert and erase calls on an empty set with `N >= 1`
buckets, a key `k` that was inserted and not erased afterwards has
`count(k) == 1` and `find(k)` is not `end()` and dereferences to `k`; any other
key (never inserted, or erased after its last insert) has `count(k) == 0` and
`find(k)` is `end()`. -/
theorem count_find_after_calls (hasher : Key → Nat) (N : Nat) (hN : 1 ≤ N)
    (ops : List (Op Key)) (hnc : Op.clear ∉ ops) (k : Key) :
    (InsertedNotErased k ops →
        (run hasher N ops).count hasher k = 1 ∧
        Iterator.eq ((run hasher N ops).find hasher k) (run hasher N ops).end_ = false ∧
        ((run hasher N ops).find hasher k).deref = some k) ∧
      (¬ InsertedNotErased k ops →
        (run hasher N ops).count hasher k = 0 ∧
        (run hasher N ops).find hasher k = (run hasher N ops).end_) := by
  have hs := run_inv hasher N hN ops
  have hiff := mem_keys_run_iff hasher N hN k ops hnc
  constructor
  · intro h
    have hk := hiff.mpr h
    have hc := (mem_keys_iff_mem_chain hasher _ hs.placed k).mp hk
    have hf := find_present hasher _ k hc
    exact ⟨(count_eq_one_iff hasher _ hs k).mpr hk, hf.2, hf.1⟩
  · intro h
    have hk : k ∉ (run hasher N ops).keys := fun h2 => h (hiff.mp h2)
    have hc : k ∉ chainAt (run hasher N ops).table ((run hasher N ops).hash_func hasher k) :=
      fun h2 => hk ((mem_keys_iff_mem_chain hasher _ hs.placed k).mpr h2)
    exact ⟨(count_eq_zero_iff hasher _ hs k).mpr hk, find_absent hasher _ k hc⟩

theorem count_find_after_calls_witness :
    ((run id 7 [Op.insert 3, Op.insert 10, Op.erase 3, Op.insertRange [17, 24],
          Op.erase 5]).count id 10 = 1 ∧
        Iterator.eq
          ((run id 7 [Op.insert 3, Op.insert 10, Op.erase 3, Op.insertRange [17, 24],
            Op.erase 5]).find id 10)
          (run id 7 [Op.insert 3, Op.insert 10, Op.erase 3, Op.insertRange [17, 24],
            Op.erase 5]).end_ = false ∧
        ((run id 7 [Op.insert 3, Op.insert 10, Op.erase 3, Op.insertRange [17, 24],
          Op.erase 5]).find id 10).deref = some 10) ∧
      ((run id 7 [Op.insert 3, Op.insert 10, Op.erase 3, Op.insertRange [17, 24],
          Op.erase 5]).count id 3 = 0 ∧
        (run id 7 [Op.insert 3, Op.insert 10, Op.erase 3, Op.insertRange [17, 24],
          Op.erase 5]).find id 3
          = (run id 7 [Op.insert 3, Op.insert 10, Op.erase 3, Op.insertRange [17, 24],
            Op.erase 5]).end_) :=
  ⟨(count_find_after_calls id 7 (by decide)
      [Op.insert 3, Op.insert 10, Op.erase 3, Op.insertRange [17, 24], Op.erase 5]
      (by decide) 10).1
      ⟨[Op.insert 3], Op.insert 10, [Op.erase 3, Op.insertRange [17, 24], Op.erase 5],
        rfl, rfl, by decide⟩,
    (count_find_after_calls id 7 (by decide)
      [Op.insert 3, Op.insert 10, Op.erase 3, Op.insertRange [17, 24], Op.erase 5]
      (by decide) 3).2
      (fun h => absurd ((mem_keys_run_iff id 7 (by decide) 3 _ (by decide)).mpr h)
        (by decide))⟩

/-! ## Claims on `erase` and `insert` -/

theorem Reachable.inv {hasher : Key → Nat} {N : Nat} {s : ADS_set Key} (hN : 1 ≤ N)
    (hr : Reachable hasher N s) : Inv hasher s := by
  obtain ⟨ops, rfl⟩ := hr
  exact run_inv hasher N hN ops

theorem count_congr (hasher : Key → Nat) (s s2 : ADS_set Key) (hs : Inv hasher s)
    (hs2 : Inv hasher s2) (k : Key) (h : k ∈ s.keys ↔ k ∈ s2.keys) :
    s.count hasher k = s2.count hasher k := by
  by_cases hk : k ∈ s.keys
  · rw [(count_eq_one_iff hasher s hs k).mpr hk, (count_eq_one_iff hasher s2 hs2 k).mpr (h.mp hk)]
  · rw [(count_eq_zero_iff hasher s hs k).mpr hk,
      (count_eq_zero_iff hasher s2 hs2 k).mpr (fun h2 => hk (h.mpr h2))]

/-- C5: for a reachable set and a key `k` with `count(k) == 1`, `erase(k)` returns
1, decreases `size()` by exactly 1, makes `count(k) == 0`, and leaves `count(j)`
unchanged for every other key `j`. -/
theorem erase_present_key (hasher : Key → Nat) (N : Nat) (hN : 1 ≤ N) (s : ADS_set Key)
    (hr : Reachable hasher N s) (k : Key) (hk : s.count hasher k = 1) :
    (s.erase hasher k).1 = 1 ∧
      (s.erase hasher k).2.size + 1 = s.size ∧
      (s.erase hasher k).2.count hasher k = 0 ∧
      ∀ j, j ≠ k → (s.erase hasher k).2.count hasher j = s.count hasher j := by
  have hs := hr.inv hN
  have hmem := (count_eq_one_iff hasher s hs k).mp hk
  obtain ⟨h1, h2, _, h4, _⟩ := erase_present hasher s hs k hmem
  refine ⟨h1, h4, ?_, ?_⟩
  · rw [count_eq_zero_iff hasher _ h2 k, mem_keys_erase hasher s hs k k]
    exact fun h => h.1 rfl
  · intro j hj
    apply count_congr hasher _ _ h2 hs j
    rw [mem_keys_erase hasher s hs k j]
    exact ⟨fun h => h.2, fun h => ⟨hj, h⟩⟩

theorem erase_present_key_witness :
    1 ≤ 7 ∧ Reachable id 7 (run id 7 [Op.insert 3, Op.insert 10, Op.insert 5]) ∧
      (run id 7 [Op.insert 3, Op.insert 10, Op.insert 5]).count id 3 = 1 ∧
      ((run id 7 [Op.insert 3, Op.insert 10, Op.insert 5]).erase id 3).1 = 1 ∧
      ((run id 7 [Op.insert 3, Op.insert 10, Op.insert 5]).erase id 3).2.size + 1 = 3 ∧
      ((run id 7 [Op.insert 3, Op.insert 10, Op.insert 5]).erase id 3).2.count id 3 = 0 ∧
      ∀ j, j ≠ 3 →
        ((run id 7 [Op.insert 3, Op.insert 10, Op.insert 5]).erase id 3).2.count id j
          = (run id 7 [Op.insert 3, Op.insert 10, Op.insert 5]).count id j :=
  ⟨by decide, ⟨_, rfl⟩, by decide,
    erase_present_key id 7 (by decide) (run id 7 [Op.insert 3, Op.insert 10, Op.insert 5])
      ⟨_, rfl⟩ 3 (by decide)⟩

/-- C6: for every state (reachable or not, the empty set included) and key `k`
with `count(k) == 0`, `erase(k)` returns 0 and leaves the whole state unchanged:
same `size()`, same `tableSize`, same chains in the same order. -/
theorem erase_absent_key (hasher : Key → Nat) (s : ADS_set Key) (k : Key)
    (hk : s.count hasher k = 0) : s.erase hasher k = (0, s) :=
  erase_absent hasher s k ((count_eq_zero_iff_not_mem_chain hasher s k).mp hk)

theorem erase_absent_key_witness :
    (ADS_set.new 7 : ADS_set Nat).count id 5 = 0 ∧
      (ADS_set.new 7 : ADS_set Nat).erase id 5 = (0, ADS_set.new 7) ∧
      ((ADS_set.new 7 : ADS_set Nat).erase id 5).2.size = 0 :=
  ⟨by decide, erase_absent_key id (ADS_set.new 7) 5 (by decide),
    by rw [erase_absent_key id (ADS_set.new 7) 5 (by decide)]; rfl⟩

/-- C7: for a reachable set and keys `j`, `k` with `k` different from `j`,
inserting `j` does not change `count(k)`, whether or not the insert resizes the
table, and after the insert no key occurs twice in the table. -/
theorem insert_other_count (hasher : Key → Nat) (N : Nat) (hN : 1 ≤ N) (s : ADS_set Key)
    (hr : Reachable hasher N s) (j k : Key) (hkj : k ≠ j) :
    (s.insert hasher j).2.count hasher k = s.count hasher k ∧
      (s.insert hasher j).2.keys.Nodup := by
  have hs := hr.inv hN
  rw [insert_state]
  have hs2 := add_inv hasher s hs j
  refine ⟨?_, hs2.nodup⟩
  apply count_congr hasher _ _ hs2 hs k
  rw [mem_keys_add hasher s hs j k]
  exact ⟨fun h => h.resolve_left hkj, Or.inr⟩

theorem insert_other_count_witness :
    1 ≤ 7 ∧ Reachable id 7 (run id 7 [Op.insert 3, Op.insert 10, Op.insert 17]) ∧
      (24 : Nat) ≠ 3 ∧
      (((run id 7 [Op.insert 3, Op.insert 10, Op.insert 17]).insert id 24).2.tableSize = 43 ∧
        ((run id 7 [Op.insert 3, Op.insert 10, Op.insert 17]).insert id 24).2.count id 3
          = (run id 7 [Op.insert 3, Op.insert 10, Op.insert 17]).count id 3 ∧
        ((run id 7 [Op.insert 3, Op.insert 10, Op.insert 17]).insert id 24).2.keys.Nodup) :=
  ⟨by decide, ⟨_, rfl⟩, by decide, by decide,
    insert_other_count id 7 (by decide) (run id 7 [Op.insert 3, Op.insert 10, Op.insert 17])
      ⟨_, rfl⟩ 24 3 (by decide)⟩

/-! ## Claims on growth -/

theorem overLoad_iff (e t : Nat) (ht : 1 ≤ t) (hsmall : t < 2 ^ 24) :
    overLoad e t = true ↔ (e : ℚ) / (t : ℚ) > 1 / 2 := by
  have ht2 : (0 : ℚ) < (t : ℚ) := by exact_mod_cast ht
  rw [overLoad_small e t ht hsmall, gt_iff_lt, div_lt_div_iff₀ (by norm_num) ht2]
  constructor
  · intro h
    have h2 : ((t : ℕ) : ℚ) < ((2 * e : ℕ) : ℚ) := by exact_mod_cast h
    push_cast at h2
    linarith
  · intro h
    have h2 : ((t : ℕ) : ℚ) < ((2 * e : ℕ) : ℚ) := by
      push_cast
      linarith
    exact_mod_cast h2

theorem add_fresh_counters (hasher : Key → Nat) (s : ADS_set Key) (hs : Inv hasher s)
    (k : Key) (hk : k ∉ s.keys) :
    ((s.add hasher k).elementSize, (s.add hasher k).tableSize)
      = countersStep (s.elementSize, s.tableSize) := by
  obtain ⟨_, _, h3, h4⟩ := add_absent hasher s hs k hk
  unfold countersStep
  rw [h3, h4]
  simp only
  split <;> rfl

theorem foldl_add_fresh_counters (hasher : Key → Nat) (l : List Key) :
    ∀ s : ADS_set Key, Inv hasher s → l.Nodup → (∀ k ∈ l, k ∉ s.keys) →
      ((l.foldl (ADS_set.add hasher) s).elementSize, (l.foldl (ADS_set.add hasher) s).tableSize)
        = Nat.iterate countersStep l.length (s.elementSize, s.tableSize) := by
  induction l with
  | nil => intro s _ _ _; rfl
  | cons k l ih =>
    intro s hs hnd hfresh
    have hk : k ∉ s.keys := hfresh k (List.mem_cons_self _ _)
    have hnd2 := List.nodup_cons.mp hnd
    have h1 := ih (s.add hasher k) (add_inv hasher s hs k) hnd2.2 (by
      intro x hx hx2
      rcases (mem_keys_add hasher s hs k x).mp hx2 with h | h
      · rw [h] at hx; exact hnd2.1 hx
      · exact hfresh x (List.mem_cons_of_mem _ hx) h)
    rw [List.foldl_cons, h1, add_fresh_counters hasher s hs k hk, List.length_cons,
      Function.iterate_succ_apply]

theorem countersStep_keep (m : Nat) :
    ∀ e t : Nat, 1 ≤ t → overLoad (e + m) t = false →
      Nat.iterate countersStep m (e, t) = (e + m, t) := by
  induction m with
  | zero => intro e t _ _; rfl
  | succ m ih =>
    intro e t ht h
    have h1 : overLoad (e + 1) t = false := overLoad_mono _ _ t ht (by omega) h
    have h2 : countersStep (e, t) = (e + 1, t) := by simp [countersStep, h1]
    rw [Function.iterate_succ_apply, h2, ih (e + 1) t ht (by rw [← h]; congr 1; omega)]
    congr 1
    omega

theorem countersStep_grow (m e t e2 t2 : Nat) (ht : 1 ≤ t) (h1 : overLoad (e + m) t = false)
    (h2 : overLoad (e + m + 1) t = true) (he : e2 = e + m + 1) (ht2 : t2 = t * 6 + 1) :
    Nat.iterate countersStep (m + 1) (e, t) = (e2, t2) := by
  rw [Function.iterate_succ_apply', countersStep_keep m e t ht h1, he, ht2]
  simp [countersStep, h2]

theorem iterate_chain (f : Nat × Nat → Nat × Nat) (n m : Nat) (x y z : Nat × Nat)
    (h1 : Nat.iterate f n x = y) (h2 : Nat.iterate f m y = z) :
    Nat.iterate f (m + n) x = z := by
  rw [Function.iterate_add_apply, h1, h2]

/-- The counters of the default table (`N = 7`) just before the ninth resize and
on: 6046618 distinct keys give 72559411 buckets. -/
theorem counters_default_ninth :
    Nat.iterate countersStep 6046618 (0, 7) = (6046618, 72559411) := by
  have h1 : Nat.iterate countersStep 4 (0, 7) = (4, 43) :=
    countersStep_grow 3 0 7 4 43 (by decide) (by decide) (by decide) rfl rfl
  have h2 : Nat.iterate countersStep 22 (0, 7) = (22, 259) :=
    iterate_chain countersStep 4 18 _ _ _ h1
      (countersStep_grow 17 4 43 22 259 (by decide) (by decide) (by decide) rfl rfl)
  have h3 : Nat.iterate countersStep 130 (0, 7) = (130, 1555) :=
    iterate_chain countersStep 22 108 _ _ _ h2
      (countersStep_grow 107 22 259 130 1555 (by decide) (by decide) (by decide) rfl rfl)
  have h4 : Nat.iterate countersStep 778 (0, 7) = (778, 9331) :=
    iterate_chain countersStep 130 648 _ _ _ h3
      (countersStep_grow 647 130 1555 778 9331 (by decide) (by decide) (by decide) rfl rfl)
  have h5 : Nat.iterate countersStep 4666 (0, 7) = (4666, 55987) :=
    iterate_chain countersStep 778 3888 _ _ _ h4
      (countersStep_grow 3887 778 9331 4666 55987 (by decide) (by decide) (by decide) rfl rfl)
  have h6 : Nat.iterate countersStep 27994 (0, 7) = (27994, 335923) :=
    iterate_chain countersStep 4666 23328 _ _ _ h5
      (countersStep_grow 23327 4666 55987 27994 335923 (by decide) (by decide) (by decide)
        rfl rfl)
  have h7 : Nat.iterate countersStep 167962 (0, 7) = (167962, 2015539) :=
    iterate_chain countersStep 27994 139968 _ _ _ h6
      (countersStep_grow 139967 27994 335923 167962 2015539 (by decide) (by decide)
        (by decide) rfl rfl)
  have h8 : Nat.iterate countersStep 1007770 (0, 7) = (1007770, 12093235) :=
    iterate_chain countersStep 167962 839808 _ _ _ h7
      (countersStep_grow 839807 167962 2015539 1007770 12093235 (by decide) (by decide)
        (by decide) rfl rfl)
  exact iterate_chain countersStep 1007770 5038848 _ _ _ h8
    (countersStep_grow 5038847 1007770 12093235 6046618 72559411 (by decide) (by decide)
      (by decide) rfl rfl)

theorem counters_default_large (m : Nat) (h : overLoad (6046618 + m) 72559411 = false) :
    Nat.iterate countersStep (m + 6046618) (0, 7) = (6046618 + m, 72559411) :=
  iterate_chain countersStep 6046618 m _ _ _ counters_default_ninth
    (countersStep_keep m 6046618 72559411 (by decide) h)

theorem run_insertRange (hasher : Key → Nat) (N : Nat) (l : List Key) :
    run hasher N [Op.insertRange l] = (ADS_set.new N).insertRange hasher l := rfl

/-- The counters of the default table after `insert` of the keys `0 .. n - 1`. -/
theorem counters_run_range (n : Nat) :
    ((run id 7 [Op.insertRange (List.range n)]).elementSize,
      (run id 7 [Op.insertRange (List.range n)]).tableSize)
      = Nat.iterate countersStep n (0, 7) := by
  have h := foldl_add_fresh_counters id (List.range n) (ADS_set.new 7)
    (new_inv id 7 (by decide)) (List.nodup_range n)
    (fun k _ hk => by simp [ADS_set.keys, ADS_set.new] at hk)
  rw [List.length_range] at h
  exact h

/-- C8 (as amended): for a reachable state with element count `e` and bucket count
`t`, `add` of a key not in the set makes the element count `e + 1` and the bucket
count `t * 6 + 1` if the load computed in binary32 is above one half,
`float(e + 1) / float(t) > 0.5f`, and `t` otherwise; the binary32 test holds iff
`float(e + 1) * 2^25 > float(t) * (2^24 + 1)`, and as long as `t < 2^24` it is the
exact test `(e + 1) / t > 1/2`; `add` of a key already in the set changes
nothing, so no resize happens. -/
theorem add_growth_trigger (hasher : Key → Nat) (N : Nat) (hN : 1 ≤ N) (s : ADS_set Key)
    (hr : Reachable hasher N s) (k : Key) :
    (s.count hasher k = 0 →
        (s.add hasher k).elementSize = s.elementSize + 1 ∧
        (s.add hasher k).tableSize =
          (if overLoad (s.elementSize + 1) s.tableSize = true
          then s.tableSize * 6 + 1 else s.tableSize) ∧
        (overLoad (s.elementSize + 1) s.tableSize = true ↔
          toFloat s.tableSize * (2 ^ 24 + 1) < toFloat (s.elementSize + 1) * 2 ^ 25) ∧
        (s.tableSize < 2 ^ 24 →
          (s.add hasher k).tableSize =
            if ((s.elementSize + 1 : Nat) : ℚ) / (s.tableSize : ℚ) > 1 / 2
            then s.tableSize * 6 + 1 else s.tableSize)) ∧
      (s.count hasher k = 1 → s.add hasher k = s) := by
  have hs := hr.inv hN
  constructor
  · intro hk
    have hmem := (count_eq_zero_iff hasher s hs k).mp hk
    obtain ⟨_, _, h3, h4⟩ := add_absent hasher s hs k hmem
    refine ⟨h3, h4, overLoad_iff_float _ _ hs.pos, ?_⟩
    intro hsmall
    rw [h4]
    by_cases hov : overLoad (s.elementSize + 1) s.tableSize = true
    · rw [if_pos hov, if_pos ((overLoad_iff _ _ hs.pos hsmall).mp hov)]
    · rw [if_neg hov, if_neg (fun h => hov ((overLoad_iff _ _ hs.pos hsmall).mpr h))]
  · intro hk
    exact add_present hasher s hs k ((count_eq_one_iff hasher s hs k).mp hk)

theorem add_growth_trigger_witness :
    1 ≤ 7 ∧ Reachable id 7 (run id 7 [Op.insert 3, Op.insert 10, Op.insert 17]) ∧
      (run id 7 [Op.insert 3, Op.insert 10, Op.insert 17]).count id 24 = 0 ∧
      (run id 7 [Op.insert 3, Op.insert 10, Op.insert 17]).count id 10 = 1 ∧
      (run id 7 [Op.insert 3, Op.insert 10, Op.insert 17]).tableSize < 2 ^ 24 ∧
      ((run id 7 [Op.insert 3, Op.insert 10, Op.insert 17]).add id 24).elementSize = 3 + 1 ∧
      ((run id 7 [Op.insert 3, Op.insert 10, Op.insert 17]).add id 24).tableSize = 43 ∧
      (run id 7 [Op.insert 3, Op.insert 10, Op.insert 17]).add id 10
        = run id 7 [Op.insert 3, Op.insert 10, Op.insert 17] := by
  have h := add_growth_trigger id 7 (by decide)
    (run id 7 [Op.insert 3, Op.insert 10, Op.insert 17]) ⟨_, rfl⟩
  exact ⟨by decide, ⟨_, rfl⟩, by decide, by decide, by decide, ((h 24).1 (by decide)).1,
    by decide, (h 10).2 (by decide)⟩

/-- C8 (as stated) fails: after `insert` of the 36279705 keys `0 .. 36279704` the
default table (`N = 7`) has 72559411 buckets; `add` of the key 36279705 makes the
exact load `36279706 / 72559411 > 1/2`, but in binary32 both counts round
(to 36279704 and 72559408) and the quotient is exactly one half, so `add` does
not resize. -/
theorem add_growth_exact_fails :
    (run id 7 [Op.insertRange (List.range 36279705)]).count id 36279705 = 0 ∧
      (run id 7 [Op.insertRange (List.range 36279705)]).elementSize = 36279705 ∧
      (run id 7 [Op.insertRange (List.range 36279705)]).tableSize = 72559411 ∧
      ¬ (((run id 7 [Op.insertRange (List.range 36279705)]).add id 36279705).tableSize =
          if (((run id 7 [Op.insertRange (List.range 36279705)]).elementSize + 1 : Nat) : ℚ)
              / ((run id 7 [Op.insertRange (List.range 36279705)]).tableSize : ℚ) > 1 / 2
          then (run id 7 [Op.insertRange (List.range 36279705)]).tableSize * 6 + 1
          else (run id 7 [Op.insertRange (List.range 36279705)]).tableSize) := by
  have hs := run_inv id 7 (by decide) [Op.insertRange (List.range 36279705)]
  have hov0 : overLoad (6046618 + 30233087) 72559411 = false := by decide
  have hc2 := counters_default_large 30233087 hov0
  have e1 : 30233087 + 6046618 = 36279705 := rfl
  rw [e1] at hc2
  have hc := (counters_run_range 36279705).trans hc2
  obtain ⟨he, ht⟩ := Prod.mk.inj hc
  have hk : (36279705 : Nat) ∉ (run id 7 [Op.insertRange (List.range 36279705)]).keys := by
    intro h
    rw [run_insertRange] at h
    have h2 := (mem_keys_insertRange id (List.range 36279705) (ADS_set.new 7)
      (new_inv id 7 (by decide)) 36279705).mp h
    rcases h2 with h2 | h2
    · exact absurd (List.mem_range.mp h2) (Nat.lt_irrefl _)
    · simp [ADS_set.keys, ADS_set.new] at h2
  obtain ⟨_, _, _, h4⟩ := add_absent id _ hs 36279705 hk
  refine ⟨(count_eq_zero_iff id _ hs _).mpr hk, he, ht, ?_⟩
  rw [h4, he, ht]
  have hov : overLoad (36279705 + 1) 72559411 = false := by decide
  rw [hov]
  norm_num

/-- C9: with `N = 7` buckets and the identity hash, inserting 3, 10, 17, 24 in
that order into an empty set leaves the bucket count at 7 after each of the first
three inserts; the fourth insert returns with bucket count 43 (its returned
iterator already ranges over 43 buckets); afterwards `size() == 4`,
`count(x) == 1` for the four keys and `count(99) == 0`. -/
theorem scenario_four_inserts :
    (run id 7 [Op.insert 3]).tableSize = 7 ∧
      (run id 7 [Op.insert 3, Op.insert 10]).tableSize = 7 ∧
      (run id 7 [Op.insert 3, Op.insert 10, Op.insert 17]).tableSize = 7 ∧
      ((run id 7 [Op.insert 3, Op.insert 10, Op.insert 17]).insert id 24).1.2 = true ∧
      ((run id 7 [Op.insert 3, Op.insert 10, Op.insert 17]).insert id 24).1.1.tableSize = 43 ∧
      ((run id 7 [Op.insert 3, Op.insert 10, Op.insert 17]).insert id 24).2
        = run id 7 [Op.insert 3, Op.insert 10, Op.insert 17, Op.insert 24] ∧
      (run id 7 [Op.insert 3, Op.insert 10, Op.insert 17, Op.insert 24]).tableSize = 43 ∧
      (run id 7 [Op.insert 3, Op.insert 10, Op.insert 17, Op.insert 24]).size = 4 ∧
      (run id 7 [Op.insert 3, Op.insert 10, Op.insert 17, Op.insert 24]).count id 3 = 1 ∧
      (run id 7 [Op.insert 3, Op.insert 10, Op.insert 17, Op.insert 24]).count id 10 = 1 ∧
      (run id 7 [Op.insert 3, Op.insert 10, Op.insert 17, Op.insert 24]).count id 17 = 1 ∧
      (run id 7 [Op.insert 3, Op.insert 10, Op.insert 17, Op.insert 24]).count id 24 = 1 ∧
      (run id 7 [Op.insert 3, Op.insert 10, Op.insert 17, Op.insert 24]).count id 99 = 0 := by
  decide

/-! ## Iteration -/

theorem drop_flatten_step (t : List (List Key)) (i : Nat) (h : i < t.length) :
    (t.drop i).flatten = chainAt t i ++ (t.drop (i + 1)).flatten := by
  rw [List.drop_eq_getElem_cons h, List.flatten_cons, chainAt_of_lt t i h]

theorem seek_cons (table : List (List Key)) (ts fuel : Nat) (e : Key) (nx : List Key)
    (index : Nat) : Iterator.seek table ts fuel (e :: nx) index = (e :: nx, index) := by
  cases fuel <;> rfl

theorem seek_rest (table : List (List Key)) (ts : Nat) (hlen : table.length = ts) :
    ∀ (fuel : Nat) (c : List Key) (index : Nat), ts - index ≤ fuel →
      (Iterator.seek table ts fuel c index).1 ++
          (table.drop ((Iterator.seek table ts fuel c index).2 + 1)).flatten
        = c ++ (table.drop (index + 1)).flatten ∧
      ((Iterator.seek table ts fuel c index).1 = [] →
        (table.drop ((Iterator.seek table ts fuel c index).2 + 1)).flatten = []) := by
  intro fuel
  induction fuel with
  | zero =>
    intro c index hf
    cases c with
    | nil =>
      have h1 : table.drop (index + 1) = [] := List.drop_of_length_le (by omega)
      have h2 : table.drop (index + 1 + 1) = [] := List.drop_of_length_le (by omega)
      simp [Iterator.seek, h1, h2]
    | cons e nx => simp [seek_cons]
  | succ fuel ih =>
    intro c index hf
    cases c with
    | cons e nx => simp [seek_cons]
    | nil =>
      by_cases hlt : index + 1 < ts
      · have h1 : Iterator.seek table ts (fuel + 1) [] index
            = Iterator.seek table ts fuel (chainAt table (index + 1)) (index + 1) := by
          simp [Iterator.seek, hlt]
        rw [h1]
        obtain ⟨h2, h3⟩ := ih (chainAt table (index + 1)) (index + 1) (by omega)
        refine ⟨?_, h3⟩
        rw [h2, List.nil_append]
        exact (drop_flatten_step table (index + 1) (by omega)).symm
      · have h1 : Iterator.seek table ts (fuel + 1) [] index = ([], index + 1) := by
          simp [Iterator.seek, hlt]
        have h2 : table.drop (index + 1) = [] := List.drop_of_length_le (by omega)
        have h3 : table.drop (index + 1 + 1) = [] := List.drop_of_length_le (by omega)
        simp [h1, h2, h3]

/-- The loop of `operator++` as the source runs it, without a bound on the
rounds: `seek` with the rounds `next` passes obeys the loop equation. -/
theorem seek_step (table : List (List Key)) (ts : Nat) (c : List Key) (index : Nat) :
    Iterator.seek table ts (ts - index) c index =
      match c with
      | e :: nx => (e :: nx, index)
      | [] =>
        if index + 1 < ts then
          Iterator.seek table ts (ts - (index + 1)) (chainAt table (index + 1)) (index + 1)
        else ([], index + 1) := by
  cases c with
  | cons e nx => exact seek_cons _ _ _ _ _ _
  | nil =>
    by_cases hlt : index + 1 < ts
    · obtain ⟨m, hm⟩ : ∃ m, ts - index = m + 1 := ⟨ts - index - 1, by omega⟩
      have h2 : ts - (index + 1) = m := by omega
      rw [hm, h2]
      simp [Iterator.seek, hlt]
    · have h2 : ts - index = 0 ∨ ts - index = 1 := by omega
      rcases h2 with h2 | h2 <;> rw [h2] <;> simp [Iterator.seek, hlt]

theorem next_rest (it : Iterator Key) (hlen : it.table.length = it.tableSize) (e : Key)
    (nx : List Key) (hc : it.current = e :: nx) : it.rest = e :: it.next.rest := by
  have h := (seek_rest it.table it.tableSize hlen (it.tableSize - it.index) nx it.index
    (Nat.le_refl _)).1
  unfold Iterator.rest Iterator.next
  simp only [hc]
  rw [h]
  rfl

theorem next_proper (it : Iterator Key) (hlen : it.table.length = it.tableSize)
    (hc : it.next.current = []) : it.next.rest = [] := by
  unfold Iterator.rest
  rw [hc, List.nil_append]
  unfold Iterator.next at hc ⊢
  exact (seek_rest it.table it.tableSize hlen _ _ it.index (Nat.le_refl _)).2 hc

theorem iterate_rest (n : Nat) :
    ∀ it : Iterator Key, it.table.length = it.tableSize → (it.current = [] → it.rest = []) →
      n ≤ it.rest.length →
      ADS_set.iterate n it = (it.rest.take n).map some ∧
        (Nat.iterate Iterator.next n it).rest = it.rest.drop n ∧
        ((Nat.iterate Iterator.next n it).current = [] →
          (Nat.iterate Iterator.next n it).rest = []) := by
  induction n with
  | zero =>
    intro it _ hp _
    exact ⟨rfl, rfl, hp⟩
  | succ n ih =>
    intro it hlen hp hn
    cases hc : it.current with
    | nil =>
      rw [hp hc] at hn
      simp at hn
    | cons e nx =>
      have h1 := next_rest it hlen e nx hc
      have hlen2 : it.next.table.length = it.next.tableSize := hlen
      have hn2 : n ≤ it.next.rest.length := by
        rw [h1] at hn
        simpa using hn
      obtain ⟨h2, h3, h4⟩ := ih it.next hlen2 (next_proper it hlen) hn2
      refine ⟨?_, ?_, ?_⟩
      · simp only [ADS_set.iterate, Iterator.deref, hc, h2, h1]
        simp
      · rw [Function.iterate_succ_apply, h3, h1]
        rfl
      · rw [Function.iterate_succ_apply]
        exact h4

theorem find_range_none (p : Nat → Bool) (n : Nat) (h : (List.range n).find? p = none) :
    ∀ j, j < n → p j = false := by
  intro j hj
  have h2 := List.find?_eq_none.mp h j (List.mem_range.mpr hj)
  simpa using h2

theorem find_range_some (p : Nat → Bool) (n i : Nat) (h : (List.range n).find? p = some i) :
    i < n ∧ p i = true ∧ ∀ j, j < i → p j = false := by
  induction n with
  | zero => simp at h
  | succ n ih =>
    rw [List.range_succ, List.find?_append] at h
    cases hf : (List.range n).find? p with
    | some a =>
      rw [hf] at h
      simp at h
      subst h
      obtain ⟨h1, h2, h3⟩ := ih hf
      exact ⟨by omega, h2, h3⟩
    | none =>
      rw [hf] at h
      by_cases hp : p n = true
      · simp [List.find?, hp] at h
        subst h
        exact ⟨by omega, hp, find_range_none p n hf⟩
      · simp [List.find?, hp] at h

theorem flatten_drop_of_empty (i : Nat) :
    ∀ t : List (List Key), (∀ j, j < i → chainAt t j = []) → (t.drop i).flatten = t.flatten := by
  induction i with
  | zero => intro t _; rfl
  | succ i ih =>
    intro t h
    cases t with
    | nil => rfl
    | cons a t =>
      have ha : a = [] := by
        have h0 := h 0 (by omega)
        rwa [chainAt_cons_zero] at h0
      have h2 : ∀ j, j < i → chainAt t j = [] := by
        intro j hj
        have h3 := h (j + 1) (by omega)
        rwa [chainAt_cons_succ] at h3
      simp [ha, ih t h2]

theorem begin_rest (s : ADS_set Key) (hlen : s.table.length = s.tableSize) :
    s.begin.table.length = s.begin.tableSize ∧ s.begin.rest = s.keys ∧
      (s.begin.current = [] → s.begin.rest = []) := by
  cases hf : (List.range s.tableSize).find? (fun i => !(chainAt s.table i).isEmpty) with
  | some i =>
    obtain ⟨h1, h2, h3⟩ := find_range_some _ _ _ hf
    have h4 : ¬ (chainAt s.table i).isEmpty = true := by simpa using h2
    have hb : s.begin =
        { current := chainAt s.table i, table := s.table, tableSize := s.tableSize,
          index := i } := by
      simp [ADS_set.begin, hf, Iterator.make, h4]
    have h5 : ∀ j, j < i → chainAt s.table j = [] := by
      intro j hj
      have h6 := h3 j hj
      simpa using h6
    rw [hb]
    refine ⟨hlen, ?_, ?_⟩
    · show chainAt s.table i ++ (s.table.drop (i + 1)).flatten = s.table.flatten
      rw [← drop_flatten_step s.table i (by omega)]
      exact flatten_drop_of_empty i s.table h5
    · intro hc
      exact absurd (by simpa using congrArg List.isEmpty hc) h4
  | none =>
    have h1 := find_range_none _ _ hf
    have hb : s.begin =
        { current := [], table := s.table, tableSize := s.tableSize,
          index := s.tableSize + 1 } := by
      simp [ADS_set.begin, hf, ADS_set.end_, Iterator.make, Iterator.next, Iterator.seek]
    have hk : s.keys = [] := by
      apply List.eq_nil_iff_forall_not_mem.mpr
      intro k hk
      obtain ⟨j, hj⟩ := (mem_flatten_iff_chainAt _ k).mp hk
      by_cases hlt : j < s.tableSize
      · have h2 := h1 j hlt
        have h3 : chainAt s.table j = [] := by simpa using h2
        rw [h3] at hj
        cases hj
      · rw [chainAt_of_le s.table j (by omega)] at hj
        cases hj
    have hd : s.table.drop (s.tableSize + 1 + 1) = [] := List.drop_of_length_le (by omega)
    rw [hb, hk]
    refine ⟨hlen, ?_, fun _ => ?_⟩ <;> simp [Iterator.rest, hd]

/-- C10: for a reachable set, an iterator advanced from `begin()` differs from
`end()` during the first `size()` steps and equals `end()` after exactly `size()`
steps; the keys it yields on the way are all valid dereferences, have no
repeats, and are exactly the keys `k` with `count(k) == 1`. -/
theorem iteration_complete (hasher : Key → Nat) (N : Nat) (hN : 1 ≤ N) (s : ADS_set Key)
    (hr : Reachable hasher N s) :
    (∀ n, n < s.size → Iterator.eq (Nat.iterate Iterator.next n s.begin) s.end_ = false) ∧
      Iterator.eq (Nat.iterate Iterator.next s.size s.begin) s.end_ = true ∧
      ADS_set.iterate s.size s.begin = s.keys.map some ∧
      s.keys.Nodup ∧
      ∀ k, k ∈ s.keys ↔ s.count hasher k = 1 := by
  have hs := hr.inv hN
  obtain ⟨hb1, hb2, hb3⟩ := begin_rest s hs.length_eq
  have hsize : s.size = s.keys.length := hs.card
  refine ⟨?_, ?_, ?_, hs.nodup, fun k => (count_eq_one_iff hasher s hs k).symm⟩
  · intro n hn
    obtain ⟨_, h2, h3⟩ := iterate_rest n s.begin hb1 hb3 (by rw [hb2]; omega)
    simp only [Iterator.eq, end_current, decide_eq_false_iff_not]
    intro hc
    have h4 := h3 hc
    rw [h2, hb2] at h4
    have h5 := congrArg List.length h4
    simp at h5
    omega
  · obtain ⟨_, h2, _⟩ := iterate_rest s.size s.begin hb1 hb3 (by rw [hb2]; omega)
    simp only [Iterator.eq, end_current, decide_eq_true_eq]
    rw [hsize]
    rw [hb2, hsize, List.drop_length] at h2
    unfold Iterator.rest at h2
    exact (List.append_eq_nil.mp h2).1
  · obtain ⟨h1, _, _⟩ := iterate_rest s.size s.begin hb1 hb3 (by rw [hb2]; omega)
    rw [h1, hb2, hsize, List.take_length]

theorem iteration_complete_witness :
    1 ≤ 7 ∧ Reachable id 7 (run id 7 [Op.insertRange [3, 10, 5], Op.erase 10, Op.insert 12]) ∧
      Iterator.eq (Nat.iterate Iterator.next 3
          (run id 7 [Op.insertRange [3, 10, 5], Op.erase 10, Op.insert 12]).begin)
        (run id 7 [Op.insertRange [3, 10, 5], Op.erase 10, Op.insert 12]).end_ = true ∧
      ADS_set.iterate 3 (run id 7 [Op.insertRange [3, 10, 5], Op.erase 10, Op.insert 12]).begin
        = [some 3, some 12, some 5] :=
  ⟨by decide, ⟨_, rfl⟩,
    (iteration_complete id 7 (by decide)
      (run id 7 [Op.insertRange [3, 10, 5], Op.erase 10, Op.insert 12]) ⟨_, rfl⟩).2.1,
    (iteration_complete id 7 (by decide)
      (run id 7 [Op.insertRange [3, 10, 5], Op.erase 10, Op.insert 12]) ⟨_, rfl⟩).2.2.1⟩

/-! ## Claim on the iterator constructor -/

theorem insert_iterator (hasher : Key → Nat) (s : ADS_set Key) (hs : Inv hasher s) (k : Key) :
    (s.insert hasher k).1.1 = (s.insert hasher k).2.find hasher k := by
  by_cases h : (s.locate hasher k).isEmpty = true
  · have hk : k ∉ s.keys := (locate_isEmpty_iff hasher s hs k).mp h
    have hs2 := add_inv hasher s hs k
    have hk2 : k ∈ (s.add hasher k).keys := (mem_keys_add hasher s hs k k).mpr (Or.inl rfl)
    have h2 : ¬ ((s.add hasher k).locate hasher k).isEmpty = true :=
      fun h3 => (locate_isEmpty_iff hasher _ hs2 k).mp h3 hk2
    simp [ADS_set.insert, ADS_set.find, h, h2]
  · simp [ADS_set.insert, ADS_set.find, h]

theorem insert_flag (hasher : Key → Nat) (s : ADS_set Key) (k : Key) :
    (s.insert hasher k).1.2 = false ↔ s.count hasher k = 1 := by
  by_cases h : (s.locate hasher k).isEmpty = true
  · simp [ADS_set.insert, ADS_set.count, h]
  · simp [ADS_set.insert, ADS_set.count, h]

/-- C14: for a reachable set and a key `k`, `insert(k)` returns `inserted == false`
iff `count(k) == 1` before the call; in both cases the returned iterator is not
`end()` and dereferences to `k`, also when the insert resized the table; when
`inserted` is false the whole state is unchanged, so a second insert of the same
key returns false and changes nothing. -/
theorem insert_result (hasher : Key → Nat) (N : Nat) (hN : 1 ≤ N) (s : ADS_set Key)
    (hr : Reachable hasher N s) (k : Key) :
    ((s.insert hasher k).1.2 = false ↔ s.count hasher k = 1) ∧
      (s.insert hasher k).1.1.deref = some k ∧
      Iterator.eq (s.insert hasher k).1.1 (s.insert hasher k).2.end_ = false ∧
      ((s.insert hasher k).1.2 = false → (s.insert hasher k).2 = s) ∧
      ((s.insert hasher k).2.insert hasher k).1.2 = false ∧
      ((s.insert hasher k).2.insert hasher k).2 = (s.insert hasher k).2 := by
  have hs := hr.inv hN
  have hs2 : Inv hasher (s.insert hasher k).2 := by
    rw [insert_state]; exact add_inv hasher s hs k
  have hk2 : k ∈ (s.insert hasher k).2.keys := by
    rw [insert_state]; exact (mem_keys_add hasher s hs k k).mpr (Or.inl rfl)
  have hc := (mem_keys_iff_mem_chain hasher _ hs2.placed k).mp hk2
  have hf := find_present hasher _ k hc
  rw [← insert_iterator hasher s hs k] at hf
  refine ⟨insert_flag hasher s k, hf.1, hf.2, ?_, ?_, ?_⟩
  · intro h
    have h2 := (insert_flag hasher s k).mp h
    rw [insert_state]
    exact add_present hasher s hs k ((count_eq_one_iff hasher s hs k).mp h2)
  · exact (insert_flag hasher _ k).mpr ((count_eq_one_iff hasher _ hs2 k).mpr hk2)
  · rw [insert_state hasher (s.insert hasher k).2 k]
    exact add_present hasher _ hs2 k hk2

theorem insert_result_witness :
    1 ≤ 7 ∧ Reachable id 7 (run id 7 [Op.insert 3, Op.insert 10, Op.insert 17]) ∧
      ((run id 7 [Op.insert 3, Op.insert 10, Op.insert 17]).insert id 24).2.tableSize = 43 ∧
      ((run id 7 [Op.insert 3, Op.insert 10, Op.insert 17]).insert id 24).1.1.deref = some 24 ∧
      Iterator.eq ((run id 7 [Op.insert 3, Op.insert 10, Op.insert 17]).insert id 24).1.1
        ((run id 7 [Op.insert 3, Op.insert 10, Op.insert 17]).insert id 24).2.end_ = false :=
  ⟨by decide, ⟨_, rfl⟩, by decide,
    (insert_result id 7 (by decide) (run id 7 [Op.insert 3, Op.insert 10, Op.insert 17])
      ⟨_, rfl⟩ 24).2.1,
    (insert_result id 7 (by decide) (run id 7 [Op.insert 3, Op.insert 10, Op.insert 17])
      ⟨_, rfl⟩ 24).2.2.1⟩

/-- C15: for a reachable set, after `clear()` every bucket head is empty,
`size() == 0`, `empty()` is true, `count(k) == 0` for every key, `begin()` equals
`end()`, and `tableSize` (with the length of the array) is what it was before. -/
theorem clear_result (hasher : Key → Nat) (N : Nat) (hN : 1 ≤ N) (s : ADS_set Key)
    (hr : Reachable hasher N s) :
    (∀ c ∈ s.clear.table, c = []) ∧
      s.clear.table.length = s.tableSize ∧
      s.clear.size = 0 ∧
      s.clear.empty = true ∧
      (∀ k, s.clear.count hasher k = 0) ∧
      Iterator.eq s.clear.begin s.clear.end_ = true ∧
      s.clear.tableSize = s.tableSize := by
  have hs := hr.inv hN
  have hs2 := clear_inv hasher s hs
  have hk := clear_keys s hs.length_eq
  refine ⟨?_, hs2.length_eq, rfl, rfl, ?_, ?_, rfl⟩
  · exact List.flatten_eq_nil_iff.mp hk
  · intro k
    rw [count_eq_zero_iff hasher _ hs2 k, hk]
    exact List.not_mem_nil k
  · obtain ⟨_, h2, _⟩ := begin_rest s.clear hs2.length_eq
    rw [hk] at h2
    unfold Iterator.rest at h2
    simp only [Iterator.eq, end_current, decide_eq_true_eq]
    exact (List.append_eq_nil.mp h2).1

theorem clear_result_witness :
    1 ≤ 7 ∧ Reachable id 7 (run id 7 [Op.insertRange [3, 10, 17, 24, 5]]) ∧
      (run id 7 [Op.insertRange [3, 10, 17, 24, 5]]).size = 5 ∧
      (run id 7 [Op.insertRange [3, 10, 17, 24, 5]]).clear.size = 0 ∧
      (run id 7 [Op.insertRange [3, 10, 17, 24, 5]]).clear.tableSize = 43 ∧
      Iterator.eq (run id 7 [Op.insertRange [3, 10, 17, 24, 5]]).clear.begin
        (run id 7 [Op.insertRange [3, 10, 17, 24, 5]]).clear.end_ = true :=
  ⟨by decide, ⟨_, rfl⟩, by decide,
    (clear_result id 7 (by decide) (run id 7 [Op.insertRange [3, 10, 17, 24, 5]])
      ⟨_, rfl⟩).2.2.1,
    by decide,
    (clear_result id 7 (by decide) (run id 7 [Op.insertRange [3, 10, 17, 24, 5]])
      ⟨_, rfl⟩).2.2.2.2.2.1⟩

theorem add_tableSize (hasher : Key → Nat) (s : ADS_set Key) (k : Key) :
    (s.add hasher k).tableSize = s.tableSize ∨
      (s.add hasher k).tableSize = s.tableSize * 6 + 1 := by
  unfold ADS_set.add
  simp only
  split
  · split
    · right; rfl
    · left; rfl
  · left; rfl

theorem erase_tableSize (hasher : Key → Nat) (s : ADS_set Key) (k : Key) :
    (s.erase hasher k).2.tableSize = s.tableSize := by
  unfold ADS_set.erase
  simp only
  split <;> rfl

theorem insertRange_tableSize_le (hasher : Key → Nat) (ks : List Key) :
    ∀ s : ADS_set Key, s.tableSize ≤ (s.insertRange hasher ks).tableSize := by
  induction ks with
  | nil => intro s; exact Nat.le_refl _
  | cons a ks ih =>
    intro s
    have h1 := ih (s.add hasher a)
    have h2 : s.tableSize ≤ (s.add hasher a).tableSize := by
      rcases add_tableSize hasher s a with h | h <;> omega
    exact Nat.le_trans h2 h1

theorem apply_tableSize_le (hasher : Key → Nat) (s : ADS_set Key) (op : Op Key) :
    s.tableSize ≤ (op.apply hasher s).tableSize := by
  cases op with
  | insert key =>
    simp only [Op.apply, insert_state]
    rcases add_tableSize hasher s key with h | h <;> omega
  | insertRange keys => exact insertRange_tableSize_le hasher keys s
  | erase key => exact Nat.le_of_eq (erase_tableSize hasher s key).symm
  | clear => exact Nat.le_refl _

theorem foldl_tableSize_le (hasher : Key → Nat) (ops : List (Op Key)) :
    ∀ s : ADS_set Key, s.tableSize ≤ (ops.foldl (Op.apply hasher) s).tableSize := by
  induction ops with
  | nil => intro s; exact Nat.le_refl _
  | cons op ops ih =>
    intro s
    exact Nat.le_trans (apply_tableSize_le hasher s op) (ih _)

/-- C16: the bucket count never decreases.  For a reachable set, `erase` and
`clear` leave `tableSize` unchanged, `insert` leaves it unchanged or raises it to
`tableSize * 6 + 1`, and after any further sequence of insert, erase and clear
calls `tableSize` is at least what it was; it is at least the initial `N >= 1`
throughout. -/
theorem tableSize_never_decreases (hasher : Key → Nat) (N : Nat) (hN : 1 ≤ N)
    (s : ADS_set Key) (hr : Reachable hasher N s) :
    (∀ k, (s.erase hasher k).2.tableSize = s.tableSize) ∧
      s.clear.tableSize = s.tableSize ∧
      (∀ k, (s.insert hasher k).2.tableSize = s.tableSize ∨
        (s.insert hasher k).2.tableSize = s.tableSize * 6 + 1) ∧
      (∀ ks, s.tableSize ≤ (s.insertRange hasher ks).tableSize) ∧
      (∀ ops : List (Op Key), s.tableSize ≤ (ops.foldl (Op.apply hasher) s).tableSize) ∧
      N ≤ s.tableSize ∧ 1 ≤ s.tableSize := by
  have hge : N ≤ s.tableSize := by
    obtain ⟨ops, rfl⟩ := hr
    exact foldl_tableSize_le hasher ops (ADS_set.new N)
  refine ⟨erase_tableSize hasher s, rfl, ?_, fun ks => insertRange_tableSize_le hasher ks s,
    fun ops => foldl_tableSize_le hasher ops s, hge, Nat.le_trans hN hge⟩
  intro k
  rw [insert_state]
  exact add_tableSize hasher s k

theorem tableSize_never_decreases_witness :
    1 ≤ 7 ∧ Reachable id 7 (run id 7 [Op.insertRange [3, 10, 17, 24]]) ∧
      (run id 7 [Op.insertRange [3, 10, 17, 24]]).tableSize = 43 ∧
      ((run id 7 [Op.insertRange [3, 10, 17, 24]]).erase id 3).2.tableSize
        = (run id 7 [Op.insertRange [3, 10, 17, 24]]).tableSize ∧
      (run id 7 [Op.insertRange [3, 10, 17, 24]]).clear.tableSize
        = (run id 7 [Op.insertRange [3, 10, 17, 24]]).tableSize :=
  ⟨by decide, ⟨_, rfl⟩, by decide,
    (tableSize_never_decreases id 7 (by decide) (run id 7 [Op.insertRange [3, 10, 17, 24]])
      ⟨_, rfl⟩).1 3,
    (tableSize_never_decreases id 7 (by decide) (run id 7 [Op.insertRange [3, 10, 17, 24]])
      ⟨_, rfl⟩).2.1⟩

/-! ## Claims on the element count and the load -/

/-- C18: in every state reached from the empty set with `N >= 1` buckets by
insert, erase and clear calls, `size()` is the total number of nodes over all
bucket chains. -/
theorem size_eq_node_count (hasher : Key → Nat) (N : Nat) (hN : 1 ≤ N)
    (ops : List (Op Key)) :
    (run hasher N ops).size = ((run hasher N ops).table.map List.length).sum := by
  have h := (run_inv hasher N hN ops).card
  unfold ADS_set.keys at h
  rw [List.length_flatten] at h
  exact h

theorem size_eq_node_count_witness :
    1 ≤ 7 ∧
      (run id 7 [Op.insert 3, Op.insertRange [10, 3, 4], Op.erase 10, Op.insert 11]).size
        = ((run id 7 [Op.insert 3, Op.insertRange [10, 3, 4], Op.erase 10,
            Op.insert 11]).table.map List.length).sum ∧
      (run id 7 [Op.insert 3, Op.insertRange [10, 3, 4], Op.erase 10, Op.insert 11]).size = 3 :=
  ⟨by decide,
    size_eq_node_count id 7 (by decide)
      [Op.insert 3, Op.insertRange [10, 3, 4], Op.erase 10, Op.insert 11],
    by decide⟩

/-- C19 (as amended): in every state reached from the empty set with `N >= 1`
buckets by insert, erase and clear calls the load as `add` computes it, in
binary32, is not above one half: `float(elementSize) * 2^25 <=
float(tableSize) * (2^24 + 1)`.  Hence `2 * elementSize <= tableSize` as long as
`tableSize < 2^24`, and `2 * elementSize <= tableSize * (1 + 2^-22)` always.  The
state `add` returns, after its at most one resize, is not over the threshold
either, so no second resize is needed. -/
theorem load_at_most_half (hasher : Key → Nat) (N : Nat) (hN : 1 ≤ N) (s : ADS_set Key)
    (hr : Reachable hasher N s) :
    overLoad s.elementSize s.tableSize = false ∧
      toFloat s.elementSize * 2 ^ 25 ≤ toFloat s.tableSize * (2 ^ 24 + 1) ∧
      (s.tableSize < 2 ^ 24 →
        2 * s.elementSize ≤ s.tableSize ∧ (s.elementSize : ℚ) / (s.tableSize : ℚ) ≤ 1 / 2) ∧
      2 * s.elementSize * 2 ^ 22 ≤ s.tableSize * (2 ^ 22 + 1) ∧
      ∀ k, overLoad (s.add hasher k).elementSize (s.add hasher k).tableSize = false := by
  have hs := hr.inv hN
  have hnot : ¬ overLoad s.elementSize s.tableSize = true := by
    rw [hs.load]; decide
  have hfl : toFloat s.elementSize * 2 ^ 25 ≤ toFloat s.tableSize * (2 ^ 24 + 1) := by
    rw [overLoad_iff_float _ _ hs.pos] at hnot
    omega
  refine ⟨hs.load, hfl, ?_, ?_, fun k => (add_inv hasher s hs k).load⟩
  · intro hsmall
    refine ⟨?_, ?_⟩
    · rw [overLoad_small _ _ hs.pos hsmall] at hnot
      omega
    · exact not_lt.mp (fun h => hnot ((overLoad_iff _ _ hs.pos hsmall).mpr h))
  · have b1 := round24_bounds s.elementSize false
    have b2 := round24_bounds s.tableSize false
    unfold toFloat at hfl
    omega

theorem load_at_most_half_witness :
    1 ≤ 1 ∧ Reachable id 1 (run id 1 [Op.insertRange [3, 10, 17]]) ∧
      (run id 1 [Op.insertRange [3, 10, 17]]).tableSize = 7 ∧
      (run id 1 [Op.insertRange [3, 10, 17]]).tableSize < 2 ^ 24 ∧
      2 * (run id 1 [Op.insertRange [3, 10, 17]]).elementSize
        ≤ (run id 1 [Op.insertRange [3, 10, 17]]).tableSize ∧
      overLoad ((run id 1 [Op.insertRange [3, 10, 17]]).add id 24).elementSize
        ((run id 1 [Op.insertRange [3, 10, 17]]).add id 24).tableSize = false :=
  ⟨by decide, ⟨_, rfl⟩, by decide, by decide,
    ((load_at_most_half id 1 (by decide) (run id 1 [Op.insertRange [3, 10, 17]])
      ⟨_, rfl⟩).2.2.1 (by decide)).1,
    (load_at_most_half id 1 (by decide) (run id 1 [Op.insertRange [3, 10, 17]])
      ⟨_, rfl⟩).2.2.2.2 24⟩

/-- C19 (as stated) fails: after `insert` of the 36279706 keys `0 .. 36279705` the
default table (`N = 7`) still has 72559411 buckets, since the load computed in
binary32 for these counts is exactly one half; so `2 * elementSize` is
72559412, above `tableSize`. -/
theorem load_exact_fails :
    (run id 7 [Op.insertRange (List.range 36279706)]).elementSize = 36279706 ∧
      (run id 7 [Op.insertRange (List.range 36279706)]).tableSize = 72559411 ∧
      ¬ (2 * (run id 7 [Op.insertRange (List.range 36279706)]).elementSize
          ≤ (run id 7 [Op.insertRange (List.range 36279706)]).tableSize) := by
  have hov0 : overLoad (6046618 + 30233088) 72559411 = false := by decide
  have hc2 := counters_default_large 30233088 hov0
  have e1 : 30233088 + 6046618 = 36279706 := rfl
  rw [e1] at hc2
  have hc := (counters_run_range 36279706).trans hc2
  obtain ⟨he, ht⟩ := Prod.mk.inj hc
  refine ⟨he, ht, ?_⟩
  rw [he, ht]
  decide

/-! ## The copy constructor -/

theorem copy_eq_foldl (hasher : Key → Nat) (a : ADS_set Key)
    (hlen : a.table.length = a.tableSize) :
    a.copy hasher = a.keys.foldl (ADS_set.add hasher)
      { table := List.replicate a.tableSize [], elementSize := 0, tableSize := a.tableSize } := by
  unfold ADS_set.copy ADS_set.keys
  rw [← hlen]
  exact foldl_range_chainAt _ _ _

theorem flatten_filter_bucket (f : Key → Nat) :
    ∀ (t : List (List Key)) (off : Nat), (∀ i k, k ∈ chainAt t i → f k = off + i) →
      ∀ i, t.flatten.filter (fun k => decide (f k = off + i)) = chainAt t i := by
  intro t
  induction t with
  | nil => intro off _ i; simp [chainAt_nil]
  | cons a t ih =>
    intro off hp i
    have ha : ∀ x ∈ a, f x = off := by
      intro x hx
      have h := hp 0 x (by rw [chainAt_cons_zero]; exact hx)
      simpa using h
    have ht : ∀ j k, k ∈ chainAt t j → f k = (off + 1) + j := by
      intro j k hk
      have h := hp (j + 1) k (by rw [chainAt_cons_succ]; exact hk)
      omega
    have ht2 : ∀ y ∈ t.flatten, off + 1 ≤ f y := by
      intro y hy
      obtain ⟨j, hj⟩ := (mem_flatten_iff_chainAt t y).mp hy
      have h := ht j y hj
      omega
    rw [List.flatten_cons, List.filter_append]
    cases i with
    | zero =>
      rw [chainAt_cons_zero]
      have h1 : a.filter (fun k => decide (f k = off + 0)) = a := by
        apply List.filter_eq_self.mpr
        intro x hx
        simp [ha x hx]
      have h2 : t.flatten.filter (fun k => decide (f k = off + 0)) = [] := by
        apply List.filter_eq_nil_iff.mpr
        intro y hy
        have h := ht2 y hy
        simp
        omega
      rw [h1, h2, List.append_nil]
    | succ i =>
      rw [chainAt_cons_succ]
      have h1 : a.filter (fun k => decide (f k = off + (i + 1))) = [] := by
        apply List.filter_eq_nil_iff.mpr
        intro x hx
        have h := ha x hx
        simp
        omega
      have h2 := ih (off + 1) ht i
      have h3 : (fun k => decide (f k = off + (i + 1))) = (fun k => decide (f k = off + 1 + i)) := by
        funext k
        have h4 : off + (i + 1) = off + 1 + i := by omega
        rw [h4]
      rw [h1, h3, h2, List.nil_append]

theorem foldl_add_chains (hasher : Key → Nat) (t : Nat) (ht : 1 ≤ t) (rest : List Key) :
    ∀ (done : List Key) (s : ADS_set Key),
      s.tableSize = t → s.table.length = t → s.elementSize = done.length →
      (∀ i, chainAt s.table i = (done.filter (fun k => decide (hasher k % t = i))).reverse) →
      (done ++ rest).Nodup → overLoad (done ++ rest).length t = false →
      (rest.foldl (ADS_set.add hasher) s).tableSize = t ∧
        (rest.foldl (ADS_set.add hasher) s).table.length = t ∧
        (rest.foldl (ADS_set.add hasher) s).elementSize = (done ++ rest).length ∧
        ∀ i, chainAt (rest.foldl (ADS_set.add hasher) s).table i
          = ((done ++ rest).filter (fun k => decide (hasher k % t = i))).reverse := by
  induction rest with
  | nil =>
    intro done s h1 h2 h3 h4 _ _
    simp only [List.foldl_nil, List.append_nil]
    exact ⟨h1, h2, h3, h4⟩
  | cons k rest ih =>
    intro done s h1 h2 h3 h4 hnd hload
    have hk : k ∉ done := by
      intro hk
      have h5 := (List.nodup_append.mp hnd).2.2
      exact h5 hk (List.mem_cons_self k rest)
    have hidx : s.hash_func hasher k < s.table.length := by
      unfold ADS_set.hash_func
      rw [h1, h2]
      exact Nat.mod_lt _ ht
    have hloc : (s.locate hasher k).isEmpty = true := by
      unfold ADS_set.locate
      rw [locateFrom_isEmpty, h4]
      intro hm
      exact hk (List.mem_filter.mp (List.mem_reverse.mp hm)).1
    have hnov : ¬ overLoad (s.elementSize + 1) s.tableSize = true := by
      simp only [List.length_append, List.length_cons] at hload
      rw [h1, h3, overLoad_mono (done.length + 1) _ t ht (by omega) hload]
      decide
    have hadd : s.add hasher k =
        { table := pushFront s.table (s.hash_func hasher k) k
          elementSize := s.elementSize + 1
          tableSize := s.tableSize } := by
      simp [ADS_set.add, hloc, hnov]
    have hres := ih (done ++ [k]) (s.add hasher k) (by rw [hadd]; exact h1)
      (by rw [hadd]; simp [pushFront_length, h2]) (by rw [hadd]; simp [h3])
      (by
        intro i
        rw [hadd]
        show chainAt (pushFront s.table (s.hash_func hasher k) k) i = _
        rw [chainAt_pushFront s.table _ i k hidx, List.filter_append, List.reverse_append, h4]
        unfold ADS_set.hash_func
        rw [h1]
        by_cases hi : hasher k % t = i
        · simp [List.filter, hi]
        · simp [List.filter, hi, h4])
      (by simpa using hnd) (by simpa using hload)
    simpa using hres

theorem flatten_map_reverse_perm (L : List (List Key)) :
    (L.map List.reverse).flatten.Perm L.flatten := by
  induction L with
  | nil => exact List.Perm.refl _
  | cons a L ih =>
    simp only [List.map_cons, List.flatten_cons]
    exact List.Perm.append (List.reverse_perm a) ih

theorem copy_shape (hasher : Key → Nat) (a : ADS_set Key) (ha : Inv hasher a) :
    (a.copy hasher).tableSize = a.tableSize ∧
      (a.copy hasher).elementSize = a.elementSize ∧
      (a.copy hasher).table = a.table.map List.reverse ∧
      Inv hasher (a.copy hasher) := by
  have hload : overLoad ([] ++ a.keys).length a.tableSize = false := by
    rw [List.nil_append, ← ha.card]
    exact ha.load
  obtain ⟨h1, h2, h3, h4⟩ := foldl_add_chains hasher a.tableSize ha.pos a.keys []
    { table := List.replicate a.tableSize [], elementSize := 0, tableSize := a.tableSize }
    rfl (by simp) rfl (fun i => by simp [chainAt_replicate]) (by simpa using ha.nodup) hload
  rw [← copy_eq_foldl hasher a ha.length_eq] at h1 h2 h3 h4
  simp only [List.nil_append] at h3 h4
  have hplaced : ∀ i k, k ∈ chainAt a.table i → hasher k % a.tableSize = 0 + i := by
    intro i k hk
    rw [Nat.zero_add]
    exact ha.placed i k hk
  have hchain : ∀ i, chainAt (a.copy hasher).table i = (chainAt a.table i).reverse := by
    intro i
    rw [h4 i]
    have h5 := flatten_filter_bucket (fun k => hasher k % a.tableSize) a.table 0 hplaced i
    simp only [Nat.zero_add] at h5
    unfold ADS_set.keys
    rw [h5]
  have htable : (a.copy hasher).table = a.table.map List.reverse := by
    apply List.ext_getElem
    · rw [h2, List.length_map, ha.length_eq]
    · intro n hn1 hn2
      have hn3 : n < a.table.length := by simpa using hn2
      rw [← chainAt_of_lt _ n hn1, hchain n, chainAt_of_lt _ n hn3]
      simp
  have hperm : (a.copy hasher).keys.Perm a.keys := by
    unfold ADS_set.keys
    rw [htable]
    exact flatten_map_reverse_perm a.table
  refine ⟨h1, ?_, htable, ⟨h2.trans h1.symm, ?_, ?_, ?_, ?_, ?_⟩⟩
  · rw [h3, ha.card]
  · rw [h1]; exact ha.pos
  · intro i k hk
    rw [hchain i] at hk
    rw [h1]
    exact ha.placed i k (List.mem_reverse.mp hk)
  · exact hperm.nodup_iff.mpr ha.nodup
  · rw [h3, hperm.length_eq]
  · rw [h3, h1, ← ha.card]
    exact ha.load

theorem copy_no_resize (hasher : Key → Nat) (a : ADS_set Key) (ha : Inv hasher a) (n : Nat) :
    ((a.keys.take n).foldl (ADS_set.add hasher)
      { table := List.replicate a.tableSize [], elementSize := 0,
        tableSize := a.tableSize }).tableSize = a.tableSize := by
  have hsub : (a.keys.take n).Sublist a.keys := List.take_sublist n a.keys
  have hload : overLoad ([] ++ a.keys.take n).length a.tableSize = false := by
    rw [List.nil_append]
    exact overLoad_mono _ _ _ ha.pos (by rw [ha.card]; exact hsub.length_le) ha.load
  exact (foldl_add_chains hasher a.tableSize ha.pos (a.keys.take n) []
    { table := List.replicate a.tableSize [], elementSize := 0, tableSize := a.tableSize }
    rfl (by simp) rfl (fun i => by simp [chainAt_replicate])
    (by simpa using ha.nodup.sublist hsub) hload).1

/-! ## Equality of two sets -/

theorem allCounted_eq (hasher : Key → Nat) (lhs rhs : ADS_set Key) (rounds : Nat) :
    ∀ it : Iterator Key, it.table.length = it.tableSize → (it.current = [] → it.rest = []) →
      it.rest.length < rounds →
      ADS_set.allCounted hasher lhs rhs rounds it
        = some (it.rest.all (fun k => decide (rhs.count hasher k ≠ 0))) := by
  induction rounds with
  | zero => intro it _ _ h; omega
  | succ rounds ih =>
    intro it hlen hp hr
    cases hc : it.current with
    | nil =>
      have h1 : Iterator.eq it lhs.end_ = true := by
        simp [Iterator.eq, end_current, hc]
      simp [ADS_set.allCounted, h1, hp hc]
    | cons e nx =>
      have h1 : Iterator.eq it lhs.end_ = false := by
        simp [Iterator.eq, end_current, hc]
      have h2 := next_rest it hlen e nx hc
      have h3 : it.deref = some e := by simp [Iterator.deref, hc]
      by_cases h4 : rhs.count hasher e = 0
      · simp [ADS_set.allCounted, h1, h3, h2, h4]
      · have h5 : it.next.rest.length < rounds := by
          rw [h2] at hr
          simp only [List.length_cons] at hr
          omega
        have h6 := ih it.next hlen (next_proper it hlen) h5
        simp [ADS_set.allCounted, h1, h3, h2, h4, h6]

theorem equals_eq (hasher : Key → Nat) (lhs rhs : ADS_set Key) (hl : Inv hasher lhs)
    (rounds : Nat) (hr : lhs.size < rounds) :
    ADS_set.equals hasher rounds lhs rhs
      = some (decide (lhs.elementSize = rhs.elementSize) &&
          lhs.keys.all (fun k => decide (rhs.count hasher k ≠ 0))) := by
  obtain ⟨h1, h2, h3⟩ := begin_rest lhs hl.length_eq
  have h4 : lhs.begin.rest.length < rounds := by
    rw [h2, ← hl.card]; exact hr
  have h5 := allCounted_eq hasher lhs rhs rounds lhs.begin h1 h3 h4
  rw [h2] at h5
  unfold ADS_set.equals
  by_cases h6 : lhs.elementSize = rhs.elementSize
  · simp [h6, h5]
  · simp [h6]

theorem equals_true_iff (hasher : Key → Nat) (a b : ADS_set Key) (ha : Inv hasher a)
    (hb : Inv hasher b) (rounds : Nat) (hr : a.size < rounds) :
    ADS_set.equals hasher rounds a b = some true ↔ ∀ k, a.count hasher k = b.count hasher k := by
  rw [equals_eq hasher a b ha rounds hr]
  simp only [Option.some.injEq, Bool.and_eq_true, decide_eq_true_eq, List.all_eq_true]
  constructor
  · rintro ⟨h1, h2⟩ k
    have hsub : a.keys ⊆ b.keys := by
      intro x hx
      have h3 := h2 x hx
      rcases count_le_one hasher b x with h4 | h4
      · exact absurd h4 h3
      · exact (count_eq_one_iff hasher b hb x).mp h4
    have hlen : b.keys.length ≤ a.keys.length := by
      rw [← ha.card, ← hb.card, h1]
    have hperm := (List.subperm_of_subset ha.nodup hsub).perm_of_length_le hlen
    exact count_congr hasher a b ha hb k hperm.mem_iff
  · intro h
    have hmem : ∀ x, x ∈ a.keys ↔ x ∈ b.keys := by
      intro x
      rw [← count_eq_one_iff hasher a ha x, ← count_eq_one_iff hasher b hb x, h x]
    have hperm := (List.perm_ext_iff_of_nodup ha.nodup hb.nodup).mpr hmem
    refine ⟨?_, ?_⟩
    · rw [ha.card, hb.card]; exact hperm.length_eq
    · intro x hx
      rw [(count_eq_one_iff hasher b hb x).mpr ((hmem x).mp hx)]
      exact Nat.one_ne_zero

theorem equals_isSome (hasher : Key → Nat) (a b : ADS_set Key) (ha : Inv hasher a)
    (rounds : Nat) (hr : a.size < rounds) :
    ∃ r, ADS_set.equals hasher rounds a b = some r := ⟨_, equals_eq hasher a b ha rounds hr⟩

theorem inserted_map_insert (l : List Key) :
    ((l.map Op.insert).map Op.insertedKeys).flatten = l := by
  induction l with
  | nil => rfl
  | cons x l ih =>
    simp only [List.map_cons, List.flatten_cons, Op.insertedKeys, ih]
    rfl

theorem mem_keys_run_inserts (hasher : Key → Nat) (N : Nat) (hN : 1 ≤ N) (l : List Key)
    (k : Key) : k ∈ (run hasher N (l.map Op.insert)).keys ↔ k ∈ l := by
  have h := mem_keys_foldl_inserts hasher (l.map Op.insert) _ (new_inv hasher N hN)
    (by
      intro op hop
      obtain ⟨x, _, rfl⟩ := List.mem_map.mp hop
      rfl) k
  have h0 : k ∉ (ADS_set.new N : ADS_set Key).keys := by simp [ADS_set.keys, ADS_set.new]
  unfold run
  rw [h, inserted_map_insert]
  exact ⟨fun h2 => h2.resolve_right h0, Or.inl⟩

/-- C13: for two reachable sets `a` and `b` (their bucket counts and chain orders
may differ), `a == b` returns, and returns true iff `count_a(k) == count_b(k)` for
every key `k`; `a != b` returns the negation; and two sets built by inserting two
permutations of one list of keys compare equal.  (`rounds` bounds the loop of
`operator==`; any bound above `size()` is enough.) -/
theorem equals_iff_same_keys (hasher : Key → Nat) (N : Nat) (hN : 1 ≤ N) (a b : ADS_set Key)
    (ha : Reachable hasher N a) (hb : Reachable hasher N b) (rounds : Nat)
    (hr : a.size < rounds) :
    (∃ r, ADS_set.equals hasher rounds a b = some r ∧
        ADS_set.notEquals hasher rounds a b = some (!r)) ∧
      (ADS_set.equals hasher rounds a b = some true ↔
        ∀ k, a.count hasher k = b.count hasher k) ∧
      ∀ l1 l2 : List Key, l1.Perm l2 → ∀ n, l1.length < n →
        ADS_set.equals hasher n (run hasher N (l1.map Op.insert))
          (run hasher N (l2.map Op.insert)) = some true := by
  have hia := ha.inv hN
  have hib := hb.inv hN
  refine ⟨?_, equals_true_iff hasher a b hia hib rounds hr, ?_⟩
  · obtain ⟨r, h⟩ := equals_isSome hasher a b hia rounds hr
    exact ⟨r, h, by simp [ADS_set.notEquals, h]⟩
  · intro l1 l2 hperm n hn
    have h1 := run_inv hasher N hN (l1.map Op.insert)
    have h2 := run_inv hasher N hN (l2.map Op.insert)
    have hsz : (run hasher N (l1.map Op.insert)).size < n := by
      have h3 : (run hasher N (l1.map Op.insert)).keys.Subperm l1 :=
        List.subperm_of_subset h1.nodup
          (fun x hx => (mem_keys_run_inserts hasher N hN l1 x).mp hx)
      have h4 := h3.length_le
      have h5 := h1.card
      unfold ADS_set.size
      omega
    rw [equals_true_iff hasher _ _ h1 h2 n hsz]
    intro k
    apply count_congr hasher _ _ h1 h2 k
    rw [mem_keys_run_inserts hasher N hN l1 k, mem_keys_run_inserts hasher N hN l2 k]
    exact hperm.mem_iff

theorem equals_iff_same_keys_witness :
    1 ≤ 2 ∧ Reachable id 2 (run id 2 [Op.insert 1, Op.insert 2, Op.insert 9]) ∧
      Reachable id 2 (run id 2 [Op.insertRange [9, 2, 1, 5, 6, 7, 8], Op.erase 5, Op.erase 6,
        Op.erase 7, Op.erase 8]) ∧
      (run id 2 [Op.insert 1, Op.insert 2, Op.insert 9]).size < 4 ∧
      (run id 2 [Op.insert 1, Op.insert 2, Op.insert 9]).tableSize = 13 ∧
      (run id 2 [Op.insertRange [9, 2, 1, 5, 6, 7, 8], Op.erase 5, Op.erase 6,
        Op.erase 7, Op.erase 8]).tableSize = 79 ∧
      ADS_set.equals id 4 (run id 2 [Op.insert 1, Op.insert 2, Op.insert 9])
        (run id 2 [Op.insertRange [9, 2, 1, 5, 6, 7, 8], Op.erase 5, Op.erase 6,
          Op.erase 7, Op.erase 8]) = some true ∧
      ∀ k, (run id 2 [Op.insert 1, Op.insert 2, Op.insert 9]).count id k
        = (run id 2 [Op.insertRange [9, 2, 1, 5, 6, 7, 8], Op.erase 5, Op.erase 6,
          Op.erase 7, Op.erase 8]).count id k :=
  ⟨by decide, ⟨_, rfl⟩, ⟨_, rfl⟩, by decide, by decide, by decide, by decide,
    (equals_iff_same_keys id 2 (by decide) (run id 2 [Op.insert 1, Op.insert 2, Op.insert 9])
      (run id 2 [Op.insertRange [9, 2, 1, 5, 6, 7, 8], Op.erase 5, Op.erase 6,
        Op.erase 7, Op.erase 8])
      ⟨_, rfl⟩ ⟨_, rfl⟩ 4 (by decide)).2.1.mp (by decide)⟩

/-! ## The free store -/

theorem elem_bound (h : Mem.Heap Key) (p : Nat) (e : Mem.Element Key)
    (hp : h.elem p = some e) : 1 ≤ p ∧ p ≤ h.elems.length := by
  unfold Mem.Heap.elem at hp
  by_cases h0 : p = 0
  · simp [h0] at hp
  · rw [if_neg h0] at hp
    by_cases hl : p - 1 < h.elems.length
    · omega
    · rw [List.getElem?_eq_none (by omega)] at hp
      simp at hp

theorem array_bound (h : Mem.Heap Key) (a : Nat) (l : List Nat)
    (ha : h.array a = some l) : 1 ≤ a ∧ a ≤ h.arrays.length := by
  unfold Mem.Heap.array at ha
  by_cases h0 : a = 0
  · simp [h0] at ha
  · rw [if_neg h0] at ha
    by_cases hl : a - 1 < h.arrays.length
    · omega
    · rw [List.getElem?_eq_none (by omega)] at ha
      simp at ha

theorem elem_newElem (h : Mem.Heap Key) (k : Key) (nx p : Nat) :
    (h.newElem k nx).1.elem p
      = if p = h.elems.length + 1 then some { key := k, next := nx } else h.elem p := by
  unfold Mem.Heap.newElem Mem.Heap.elem
  by_cases h0 : p = 0
  · simp [h0]
  · simp only [if_neg h0]
    by_cases h1 : p = h.elems.length + 1
    · subst h1
      simp
    · rw [if_neg h1]
      by_cases h2 : p - 1 < h.elems.length
      · rw [List.getElem?_append_left h2]
      · have e1 : h.elems[p - 1]? = none := List.getElem?_eq_none (by omega)
        have e2 : (h.elems ++ [some { key := k, next := nx }])[p - 1]? = none :=
          List.getElem?_eq_none (by simp; omega)
        rw [e1, e2]

theorem array_newElem (h : Mem.Heap Key) (k : Key) (nx a : Nat) :
    (h.newElem k nx).1.array a = h.array a := rfl

theorem elems_length_newElem (h : Mem.Heap Key) (k : Key) (nx : Nat) :
    (h.newElem k nx).1.elems.length = h.elems.length + 1 := by
  simp [Mem.Heap.newElem]

theorem array_newArray (h : Mem.Heap Key) (n a : Nat) :
    (h.newArray n).1.array a
      = if a = h.arrays.length + 1 then some (List.replicate n 0) else h.array a := by
  unfold Mem.Heap.newArray Mem.Heap.array
  by_cases h0 : a = 0
  · simp [h0]
  · simp only [if_neg h0]
    by_cases h1 : a = h.arrays.length + 1
    · subst h1
      simp
    · rw [if_neg h1]
      by_cases h2 : a - 1 < h.arrays.length
      · rw [List.getElem?_append_left h2]
      · have e1 : h.arrays[a - 1]? = none := List.getElem?_eq_none (by omega)
        have e2 : (h.arrays ++ [some (List.replicate n 0)])[a - 1]? = none :=
          List.getElem?_eq_none (by simp; omega)
        rw [e1, e2]

theorem elem_newArray (h : Mem.Heap Key) (n p : Nat) :
    (h.newArray n).1.elem p = h.elem p := rfl

theorem elems_length_newArray (h : Mem.Heap Key) (n : Nat) :
    (h.newArray n).1.elems.length = h.elems.length := rfl

theorem elem_setSlot (h : Mem.Heap Key) (a i p q : Nat) :
    (h.setSlot a i p).elem q = h.elem q := by
  unfold Mem.Heap.setSlot
  cases h.array a <;> rfl

theorem elems_length_setSlot (h : Mem.Heap Key) (a i p : Nat) :
    (h.setSlot a i p).elems.length = h.elems.length := by
  unfold Mem.Heap.setSlot
  cases h.array a <;> rfl

theorem array_setSlot (h : Mem.Heap Key) (a i p b : Nat) :
    (h.setSlot a i p).array b
      = if b = a then (h.array a).map (fun l => l.set i p) else h.array b := by
  unfold Mem.Heap.setSlot
  cases ha : h.array a with
  | none =>
    by_cases hb : b = a
    · simp [hb, ha]
    · simp [hb]
  | some l =>
    have hbd := array_bound h a l ha
    by_cases hb : b = a
    · subst hb
      simp only [if_true, Option.map_some', Mem.Heap.array]
      rw [if_neg (by omega)]
      simp [List.getElem?_set, hbd.2, Nat.sub_lt_iff_lt_add, show b - 1 < h.arrays.length from by omega]
    · simp only [if_neg hb, Mem.Heap.array]
      by_cases h0 : b = 0
      · simp [h0]
      · simp only [if_neg h0]
        rw [List.getElem?_set_ne (by omega)]

theorem elem_setNext (h : Mem.Heap Key) (p nx q : Nat) :
    (h.setNext p nx).elem q
      = if q = p then (h.elem p).map (fun e => { e with next := nx }) else h.elem q := by
  unfold Mem.Heap.setNext
  cases hp : h.elem p with
  | none =>
    by_cases hq : q = p
    · simp [hq, hp]
    · simp [hq]
  | some e =>
    have hbd := elem_bound h p e hp
    by_cases hq : q = p
    · subst hq
      simp only [if_true, Option.map_some', Mem.Heap.elem]
      rw [if_neg (by omega)]
      simp [List.getElem?_set, show q - 1 < h.elems.length from by omega]
    · simp only [if_neg hq, Mem.Heap.elem]
      by_cases h0 : q = 0
      · simp [h0]
      · simp only [if_neg h0]
        rw [List.getElem?_set_ne (by omega)]

theorem array_setNext (h : Mem.Heap Key) (p nx a : Nat) :
    (h.setNext p nx).array a = h.array a := by
  unfold Mem.Heap.setNext
  cases h.elem p <;> rfl

theorem elems_length_setNext (h : Mem.Heap Key) (p nx : Nat) :
    (h.setNext p nx).elems.length = h.elems.length := by
  unfold Mem.Heap.setNext
  cases h.elem p <;> simp

theorem elem_deleteElem (h : Mem.Heap Key) (p q : Nat) :
    (h.deleteElem p).elem q = if q = p then none else h.elem q := by
  unfold Mem.Heap.deleteElem
  cases hp : h.elem p with
  | none =>
    by_cases hq : q = p
    · simp [hq, hp]
    · simp [hq]
  | some e =>
    have hbd := elem_bound h p e hp
    by_cases hq : q = p
    · subst hq
      simp only [if_true, Mem.Heap.elem]
      rw [if_neg (by omega)]
      simp [List.getElem?_set, show q - 1 < h.elems.length from by omega]
    · simp only [if_neg hq, Mem.Heap.elem]
      by_cases h0 : q = 0
      · simp [h0]
      · simp only [if_neg h0]
        rw [List.getElem?_set_ne (by omega)]

theorem array_deleteElem (h : Mem.Heap Key) (p a : Nat) :
    (h.deleteElem p).array a = h.array a := by
  unfold Mem.Heap.deleteElem
  cases h.elem p <;> rfl

theorem elems_length_deleteElem (h : Mem.Heap Key) (p : Nat) :
    (h.deleteElem p).elems.length = h.elems.length := by
  unfold Mem.Heap.deleteElem
  cases h.elem p <;> simp

theorem array_deleteArray (h : Mem.Heap Key) (a b : Nat) :
    (h.deleteArray a).array b = if b = a then none else h.array b := by
  unfold Mem.Heap.deleteArray
  cases ha : h.array a with
  | none =>
    by_cases hb : b = a
    · simp [hb, ha]
    · simp [hb]
  | some l =>
    have hbd := array_bound h a l ha
    by_cases hb : b = a
    · subst hb
      simp only [if_true, Mem.Heap.array]
      rw [if_neg (by omega)]
      simp [List.getElem?_set, show b - 1 < h.arrays.length from by omega]
    · simp only [if_neg hb, Mem.Heap.array]
      by_cases h0 : b = 0
      · simp [h0]
      · simp only [if_neg h0]
        rw [List.getElem?_set_ne (by omega)]

theorem elem_deleteArray (h : Mem.Heap Key) (a p : Nat) :
    (h.deleteArray a).elem p = h.elem p := by
  unfold Mem.Heap.deleteArray
  cases h.array a <;> rfl

theorem elems_length_deleteArray (h : Mem.Heap Key) (a : Nat) :
    (h.deleteArray a).elems.length = h.elems.length := by
  unfold Mem.Heap.deleteArray
  cases h.array a <;> rfl

theorem newArray_fresh (h : Mem.Heap Key) (n : Nat) : h.array (h.newArray n).2 = none := by
  cases ha : h.array (h.newArray n).2 with
  | none => rfl
  | some l =>
    have := array_bound h _ l ha
    simp [Mem.Heap.newArray] at this

theorem newElem_fresh (h : Mem.Heap Key) (k : Key) (nx : Nat) :
    h.elem (h.newElem k nx).2 = none := by
  cases ha : h.elem (h.newElem k nx).2 with
  | none => rfl
  | some l =>
    have := elem_bound h _ l ha
    simp [Mem.Heap.newElem] at this

/-! ## Chains and ownership in the free store -/

theorem slot_eq (h : Mem.Heap Key) (a i : Nat) (l : List Nat) (ha : h.array a = some l) :
    h.slot a i = l.getD i 0 := by
  simp [Mem.Heap.slot, ha]

theorem chain_frame (h g : Mem.Heap Key) :
    ∀ (cells : List (Nat × Key)) (p : Nat), Mem.Chain h p cells →
      (∀ c, c ∈ cells → g.elem c.1 = h.elem c.1) → Mem.Chain g p cells := by
  intro cells
  induction cells with
  | nil => intro p hc _; exact hc
  | cons c rest ih =>
    intro p hc hfr
    obtain ⟨h1, nx, h2, h3⟩ := hc
    refine ⟨h1, nx, ?_, ih nx h3 (fun d hd => hfr d (List.mem_cons_of_mem _ hd))⟩
    rw [hfr c (List.mem_cons_self _ _)]
    exact h2

theorem chain_live (h : Mem.Heap Key) :
    ∀ (cells : List (Nat × Key)) (p : Nat), Mem.Chain h p cells →
      ∀ c, c ∈ cells → ∃ nx, h.elem c.1 = some { key := c.2, next := nx } := by
  intro cells
  induction cells with
  | nil => intro p _ c hc; cases hc
  | cons d rest ih =>
    intro p hc c hmem
    obtain ⟨_, nx, h2, h3⟩ := hc
    rcases List.mem_cons.mp hmem with h4 | h4
    · subst h4
      exact ⟨nx, h2⟩
    · exact ih nx h3 c h4

theorem mem_addrs (C : List (List (Nat × Key))) (p : Nat) :
    p ∈ Mem.addrs C ↔ ∃ i c, c ∈ chainAt C i ∧ c.1 = p := by
  unfold Mem.addrs
  constructor
  · intro hp
    obtain ⟨c, hc, rfl⟩ := List.mem_map.mp hp
    obtain ⟨i, hci⟩ := (mem_flatten_iff_chainAt C c).mp hc
    exact ⟨i, c, hci, rfl⟩
  · rintro ⟨i, c, hc, rfl⟩
    exact List.mem_map.mpr ⟨c, (mem_flatten_iff_chainAt C c).mpr ⟨i, hc⟩, rfl⟩

theorem rep_live (h : Mem.Heap Key) (o : Mem.ADS_set) (C : List (List (Nat × Key)))
    (hr : Mem.Rep h o C) (p : Nat) (hp : p ∈ Mem.addrs C) : ∃ e, h.elem p = some e := by
  obtain ⟨i, c, hc, rfl⟩ := (mem_addrs C p).mp hp
  have hi : i < o.tableSize := by
    by_contra hn
    rw [chainAt_of_le _ _ (by rw [hr.length_eq]; omega)] at hc
    cases hc
  obtain ⟨nx, h1⟩ := chain_live h _ _ (hr.chain i hi) c hc
  exact ⟨_, h1⟩

theorem frame_refl (h : Mem.Heap Key) (A : Nat) (P : List Nat) : Mem.Frame h h A P :=
  ⟨fun _ _ _ h1 => h1, fun _ _ _ h1 => h1⟩

theorem step_refl (h : Mem.Heap Key) (o : Mem.ADS_set) (C : List (List (Nat × Key)))
    (hr : Mem.Rep h o C) : Mem.Step h o C h o C :=
  ⟨hr, frame_refl h _ _, fun _ hp => Or.inl hp, Or.inl rfl⟩

theorem step_trans (h h1 h2 : Mem.Heap Key) (o o1 o2 : Mem.ADS_set)
    (C C1 C2 : List (List (Nat × Key)))
    (s1 : Mem.Step h o C h1 o1 C1) (s2 : Mem.Step h1 o1 C1 h2 o2 C2) :
    Mem.Step h o C h2 o2 C2 := by
  have hnodes : ∀ p, p ∈ Mem.addrs C1 → p ∈ Mem.addrs C ∨ h.elem p = none := s1.nodes
  refine ⟨s2.rep, ⟨?_, ?_⟩, ?_, ?_⟩
  · intro a l ha hl
    have h3 := s1.frame.1 a l ha hl
    refine s2.frame.1 a l ?_ h3
    rcases s1.table with h4 | h4
    · rw [h4]; exact ha
    · intro h5
      rw [← h5, hl] at h4
      cases h4
  · intro p e hp he
    have h3 := s1.frame.2 p e hp he
    refine s2.frame.2 p e ?_ h3
    intro h5
    rcases hnodes p h5 with h6 | h6
    · exact hp h6
    · rw [he] at h6; cases h6
  · intro p hp
    rcases s2.nodes p hp with h3 | h3
    · exact hnodes p h3
    · by_cases h4 : p ∈ Mem.addrs C
      · exact Or.inl h4
      · right
        cases he : h.elem p with
        | none => rfl
        | some e =>
          rw [s1.frame.2 p e h4 he] at h3
          cases h3
  · rcases s2.table with h3 | h3
    · rw [h3]; exact s1.table
    · by_cases h4 : o2.table = o.table
      · exact Or.inl h4
      · right
        cases he : h.array o2.table with
        | none => rfl
        | some l =>
          rw [s1.frame.1 _ l h4 he] at h3
          cases h3

/-- A transition of one object keeps every other intact object of the store that
is separate from it intact, with the same chains, and separate. -/
theorem step_keeps (h g : Mem.Heap Key) (o o2 a : Mem.ADS_set)
    (C C2 Ca : List (List (Nat × Key))) (st : Mem.Step h o C g o2 C2)
    (ha : Mem.Rep h a Ca) (hsep : Mem.Sep a Ca o C) :
    Mem.Rep g a Ca ∧ Mem.Sep a Ca o2 C2 := by
  obtain ⟨l, hl, hlen⟩ := ha.array
  have hl2 : g.array a.table = some l := st.frame.1 _ l hsep.1 hl
  refine ⟨⟨ha.pos, ha.length_eq, ⟨l, hl2, hlen⟩, ?_, ha.nodup⟩, ?_, ?_⟩
  · intro i hi
    rw [slot_eq g _ i l hl2, ← slot_eq h _ i l hl]
    refine chain_frame h g _ _ (ha.chain i hi) ?_
    intro c hc
    have hp : c.1 ∈ Mem.addrs Ca := (mem_addrs Ca c.1).mpr ⟨i, c, hc, rfl⟩
    obtain ⟨e, he⟩ := rep_live h a Ca ha c.1 hp
    rw [he]
    exact st.frame.2 _ e (hsep.2 _ hp) he
  · rcases st.table with h3 | h3
    · rw [h3]; exact hsep.1
    · intro h4
      rw [← h4, hl] at h3
      cases h3
  · intro p hp hp2
    rcases st.nodes p hp2 with h3 | h3
    · exact hsep.2 p hp h3
    · obtain ⟨e, he⟩ := rep_live h a Ca ha p hp
      rw [he] at h3
      cases h3

theorem sep_symm (a b : Mem.ADS_set) (Ca Cb : List (List (Nat × Key)))
    (hs : Mem.Sep a Ca b Cb) : Mem.Sep b Cb a Ca :=
  ⟨fun h => hs.1 h.symm, fun p hp hq => hs.2 p hq hp⟩

/-! ## `locate` and `count` on the free store -/

theorem chainAt_value (o : Mem.ADS_set) (C : List (List (Nat × Key))) (i : Nat) :
    chainAt (Mem.value o C).table i = (chainAt C i).map Prod.snd := by
  unfold chainAt Mem.value
  simp only [List.getElem?_map]
  cases C[i]? <;> rfl

theorem addrs_length_le (h : Mem.Heap Key) (o : Mem.ADS_set) (C : List (List (Nat × Key)))
    (hr : Mem.Rep h o C) : (Mem.addrs C).length ≤ h.elems.length := by
  have hsub : Mem.addrs C ⊆ List.range' 1 h.elems.length := by
    intro p hp
    obtain ⟨e, he⟩ := rep_live h o C hr p hp
    have := elem_bound h p e he
    rw [List.mem_range']
    exact ⟨p - 1, by omega, by omega⟩
  have := (hr.nodup.subperm hsub).length_le
  simpa using this

theorem cells_length_le (h : Mem.Heap Key) (o : Mem.ADS_set) (C : List (List (Nat × Key)))
    (hr : Mem.Rep h o C) (i : Nat) : (chainAt C i).length ≤ h.elems.length := by
  refine le_trans ?_ (addrs_length_le h o C hr)
  unfold Mem.addrs
  rw [List.length_map]
  by_cases hi : i < C.length
  · rw [chainAt_of_lt _ _ hi]
    exact (List.sublist_flatten_of_mem (List.getElem_mem hi)).length_le
  · rw [chainAt_of_le _ _ (by omega)]
    simp

theorem locateLoop_spec (h : Mem.Heap Key) (key : Key) :
    ∀ (cells : List (Nat × Key)) (p rounds : Nat), Mem.Chain h p cells →
      cells.length ≤ rounds →
      (Mem.ADS_set.locateLoop h key rounds p = 0 ↔
        ADS_set.locateFrom key (cells.map Prod.snd) = []) := by
  intro cells
  induction cells with
  | nil =>
    intro p rounds hc _
    have hp : p = 0 := hc
    subst hp
    cases rounds with
    | zero => simp [Mem.ADS_set.locateLoop, ADS_set.locateFrom]
    | succ r => simp [Mem.ADS_set.locateLoop, ADS_set.locateFrom, Mem.Heap.elem]
  | cons c rest ih =>
    intro p rounds hc hlen
    obtain ⟨h1, nx, h2, h3⟩ := hc
    subst h1
    cases rounds with
    | zero => simp at hlen
    | succ r =>
      have hb := elem_bound h _ _ h2
      simp only [Mem.ADS_set.locateLoop, h2, List.map_cons, ADS_set.locateFrom]
      by_cases hk : c.2 = key
      · simp only [hk, if_true]
        constructor
        · intro h0; omega
        · intro h0; cases h0
      · simp only [hk, if_false]
        exact ih nx r h3 (by simpa using hlen)

theorem locate_spec (hasher : Key → Nat) (h : Mem.Heap Key) (o : Mem.ADS_set)
    (C : List (List (Nat × Key))) (hr : Mem.Rep h o C) (key : Key) :
    Mem.ADS_set.locate hasher h o key = 0 ↔
      (ADS_set.locate hasher (Mem.value o C) key).isEmpty = true := by
  unfold Mem.ADS_set.locate ADS_set.locate ADS_set.hash_func
  rw [chainAt_value, List.isEmpty_iff]
  have hi : hasher key % o.tableSize < o.tableSize := Nat.mod_lt _ hr.pos
  exact locateLoop_spec h key _ _ _ (hr.chain _ hi) (cells_length_le h o C hr _)

theorem count_spec (hasher : Key → Nat) (h : Mem.Heap Key) (o : Mem.ADS_set)
    (C : List (List (Nat × Key))) (hr : Mem.Rep h o C) (key : Key) :
    Mem.ADS_set.count hasher h o key = ADS_set.count hasher (Mem.value o C) key := by
  unfold Mem.ADS_set.count ADS_set.count
  by_cases h0 : Mem.ADS_set.locate hasher h o key = 0
  · rw [if_pos h0, if_pos ((locate_spec hasher h o C hr key).mp h0)]
  · rw [if_neg h0, if_neg (fun h1 => h0 ((locate_spec hasher h o C hr key).mpr h1))]

/-! ## `add` on the free store -/

theorem chainAt_map_snd (C : List (List (Nat × Key))) (i : Nat) :
    chainAt (C.map (List.map Prod.snd)) i = (chainAt C i).map Prod.snd := by
  unfold chainAt
  simp only [List.getElem?_map]
  cases C[i]? <;> rfl

theorem map_snd_pushFront (C : List (List (Nat × Key))) (i : Nat) (c : Nat × Key) :
    (pushFront C i c).map (List.map Prod.snd)
      = pushFront (C.map (List.map Prod.snd)) i c.2 := by
  unfold pushFront
  rw [List.map_set, chainAt_map_snd]
  rfl

theorem addrs_pushFront_perm (C : List (List (Nat × Key))) (i : Nat) (c : Nat × Key)
    (h : i < C.length) : (Mem.addrs (pushFront C i c)).Perm (c.1 :: Mem.addrs C) := by
  unfold Mem.addrs
  exact (flatten_pushFront_perm C i c h).map Prod.fst

theorem fresh_not_live (h : Mem.Heap Key) (p : Nat) (e : Mem.Element Key)
    (hp : h.elem p = some e) : p ≠ h.elems.length + 1 := by
  have := elem_bound h p e hp
  omega

theorem push_step (h : Mem.Heap Key) (o : Mem.ADS_set) (C : List (List (Nat × Key)))
    (hr : Mem.Rep h o C) (index : Nat) (hi : index < o.tableSize) (key : Key) (n : Nat) :
    Mem.Step h o C
      ((h.newElem key (h.slot o.table index)).1.setSlot o.table index (h.elems.length + 1))
      { table := o.table, elementSize := n, tableSize := o.tableSize }
      (pushFront C index (h.elems.length + 1, key)) := by
  obtain ⟨l, hl, hlen⟩ := hr.array
  have hiC : index < C.length := by rw [hr.length_eq]; exact hi
  have harr : ((h.newElem key (h.slot o.table index)).1.setSlot o.table index
      (h.elems.length + 1)).array o.table = some (l.set index (h.elems.length + 1)) := by
    rw [array_setSlot, if_pos rfl, array_newElem, hl]
    rfl
  have helem : ∀ q, ((h.newElem key (h.slot o.table index)).1.setSlot o.table index
      (h.elems.length + 1)).elem q
        = if q = h.elems.length + 1 then
            some { key := key, next := h.slot o.table index } else h.elem q := by
    intro q
    rw [elem_setSlot, elem_newElem]
  have hkeep : ∀ q e, h.elem q = some e →
      ((h.newElem key (h.slot o.table index)).1.setSlot o.table index
        (h.elems.length + 1)).elem q = some e := by
    intro q e he
    rw [helem, if_neg (fresh_not_live h q e he)]
    exact he
  have hcells : ∀ j, ∀ c, c ∈ chainAt C j →
      ((h.newElem key (h.slot o.table index)).1.setSlot o.table index
        (h.elems.length + 1)).elem c.1 = h.elem c.1 := by
    intro j c hc
    obtain ⟨e, he⟩ := rep_live h o C hr c.1 ((mem_addrs C c.1).mpr ⟨j, c, hc, rfl⟩)
    rw [he]
    exact hkeep _ e he
  have hfresh : h.elems.length + 1 ∉ Mem.addrs C := by
    intro hp
    obtain ⟨e, he⟩ := rep_live h o C hr _ hp
    exact fresh_not_live h _ e he rfl
  refine ⟨⟨hr.pos, ?_, ⟨_, harr, by simpa using hlen⟩, ?_, ?_⟩, ⟨?_, ?_⟩, ?_, Or.inl rfl⟩
  · rw [pushFront_length]
    exact hr.length_eq
  · intro i hi2
    have hil : i < l.length := by rw [hlen]; exact hi2
    rw [slot_eq _ _ i _ harr, chainAt_pushFront C index i _ hiC]
    by_cases hii : index = i
    · subst hii
      rw [if_pos rfl]
      have h1 : (l.set index (h.elems.length + 1)).getD index 0 = h.elems.length + 1 := by
        simp [List.getD_eq_getElem?_getD, hil]
      rw [h1]
      refine ⟨rfl, h.slot o.table index, ?_, ?_⟩
      · rw [helem, if_pos rfl]
      · exact chain_frame h _ _ _ (hr.chain index hi) (hcells index)
    · rw [if_neg hii]
      have h1 : (l.set index (h.elems.length + 1)).getD i 0 = l.getD i 0 := by
        simp [List.getD_eq_getElem?_getD, List.getElem?_set_ne hii]
      rw [h1, ← slot_eq h _ i l hl]
      exact chain_frame h _ _ _ (hr.chain i hi2) (hcells i)
  · exact (addrs_pushFront_perm C index _ hiC).nodup_iff.mpr
      (List.nodup_cons.mpr ⟨hfresh, hr.nodup⟩)
  · intro a l2 ha hl2
    rw [array_setSlot, if_neg ha, array_newElem]
    exact hl2
  · intro q e _ he
    exact hkeep q e he
  · intro q hq
    rcases List.mem_cons.mp ((addrs_pushFront_perm C index _ hiC).mem_iff.mp hq) with h1 | h1
    · right
      rw [h1]
      exact newElem_fresh h key (h.slot o.table index)
    · exact Or.inl h1

/-! ## `resize` on the free store -/

theorem relinkLoop_nil (hasher : Key → Nat) (M nt rounds : Nat) (h : Mem.Heap Key) :
    Mem.ADS_set.relinkLoop hasher M nt rounds h 0 = h := by
  cases rounds with
  | zero => rfl
  | succ r => simp [Mem.ADS_set.relinkLoop, Mem.Heap.elem]

theorem getD_set_eq (l : List Nat) (i p : Nat) (h : i < l.length) :
    (l.set i p).getD i 0 = p := by
  simp [List.getD_eq_getElem?_getD, h]

theorem getD_set_ne (l : List Nat) (i j p : Nat) (h : i ≠ j) :
    (l.set i p).getD j 0 = l.getD j 0 := by
  simp [List.getD_eq_getElem?_getD, List.getElem?_set_ne h]

theorem relink_chain (hasher : Key → Nat) (M nt : Nat) (hM : 1 ≤ M) :
    ∀ (cells : List (Nat × Key)) (h : Mem.Heap Key) (cur : Nat)
      (Cn : List (List (Nat × Key))) (ln : List Nat) (rounds : Nat),
      Mem.Chain h cur cells → h.array nt = some ln → ln.length = M → Cn.length = M →
      (∀ i, i < M → Mem.Chain h (ln.getD i 0) (chainAt Cn i)) →
      (cells.map Prod.fst ++ Mem.addrs Cn).Nodup → cells.length ≤ rounds →
      ∃ ln2, (Mem.ADS_set.relinkLoop hasher M nt rounds h cur).array nt = some ln2 ∧
        ln2.length = M ∧
        (∀ i, i < M → Mem.Chain (Mem.ADS_set.relinkLoop hasher M nt rounds h cur)
          (ln2.getD i 0)
          (chainAt (cells.foldl (fun c2 c => pushFront c2 (hasher c.2 % M) c) Cn) i)) ∧
        (∀ a, a ≠ nt → (Mem.ADS_set.relinkLoop hasher M nt rounds h cur).array a = h.array a) ∧
        (∀ p, p ∉ cells.map Prod.fst →
          (Mem.ADS_set.relinkLoop hasher M nt rounds h cur).elem p = h.elem p) ∧
        (Mem.ADS_set.relinkLoop hasher M nt rounds h cur).elems.length = h.elems.length := by
  intro cells
  induction cells with
  | nil =>
    intro h cur Cn ln rounds hc harr hlen _ hch _ _
    have h0 : cur = 0 := hc
    subst h0
    rw [relinkLoop_nil]
    exact ⟨ln, harr, hlen, hch, fun _ _ => rfl, fun _ _ => rfl, rfl⟩
  | cons c rest ih =>
    intro h cur Cn ln rounds hc harr hlen hCn hch hnd hr
    obtain ⟨h1, nx, h2, h3⟩ := hc
    subst h1
    cases rounds with
    | zero => simp at hr
    | succ r =>
      have hidx : hasher c.2 % M < M := Nat.mod_lt _ hM
      have hstep : Mem.ADS_set.relinkLoop hasher M nt (r + 1) h c.1
          = Mem.ADS_set.relinkLoop hasher M nt r
              ((h.setNext c.1 (h.slot nt (hasher c.2 % M))).setSlot nt (hasher c.2 % M) c.1)
              nx := by
        simp [Mem.ADS_set.relinkLoop, h2]
      rw [hstep]
      have hslot : h.slot nt (hasher c.2 % M) = ln.getD (hasher c.2 % M) 0 := slot_eq h _ _ _ harr
      have harr2 : ((h.setNext c.1 (h.slot nt (hasher c.2 % M))).setSlot nt
          (hasher c.2 % M) c.1).array nt = some (ln.set (hasher c.2 % M) c.1) := by
        rw [array_setSlot, if_pos rfl, array_setNext, harr]
        rfl
      have helem : ∀ q, ((h.setNext c.1 (h.slot nt (hasher c.2 % M))).setSlot nt
          (hasher c.2 % M) c.1).elem q
            = if q = c.1 then some { key := c.2, next := ln.getD (hasher c.2 % M) 0 }
              else h.elem q := by
        intro q
        rw [elem_setSlot, elem_setNext, h2, hslot]
        rfl
      have hnd1 := List.nodup_append.mp hnd
      have hcnot : c.1 ∉ rest.map Prod.fst := (List.nodup_cons.mp hnd1.1).1
      have hcnot2 : c.1 ∉ Mem.addrs Cn := fun hin =>
        hnd1.2.2 (List.mem_cons_self _ _) hin
      have hframeCn : ∀ j, ∀ d, d ∈ chainAt Cn j →
          ((h.setNext c.1 (h.slot nt (hasher c.2 % M))).setSlot nt
            (hasher c.2 % M) c.1).elem d.1 = h.elem d.1 := by
        intro j d hd
        rw [helem, if_neg]
        intro hdc
        exact hcnot2 ((mem_addrs Cn c.1).mpr ⟨j, d, hd, hdc⟩)
      have hiC : hasher c.2 % M < Cn.length := by rw [hCn]; exact hidx
      obtain ⟨ln2, hA, hB, hCh, hD, hE, hF⟩ := ih
        ((h.setNext c.1 (h.slot nt (hasher c.2 % M))).setSlot nt (hasher c.2 % M) c.1)
        nx (pushFront Cn (hasher c.2 % M) c) (ln.set (hasher c.2 % M) c.1) r
        (chain_frame h _ _ _ h3 (fun d hd => by
          rw [helem, if_neg]
          intro hdc
          exact hcnot (List.mem_map.mpr ⟨d, hd, hdc⟩)))
        harr2 (by simpa using hlen) (by rw [pushFront_length]; exact hCn)
        (by
          intro i hi
          rw [chainAt_pushFront Cn _ i c hiC]
          by_cases hii : hasher c.2 % M = i
          · rw [if_pos hii, ← hii, getD_set_eq _ _ _ (by rw [hlen]; exact hidx)]
            refine ⟨rfl, ln.getD (hasher c.2 % M) 0, ?_, ?_⟩
            · rw [helem, if_pos rfl]
            · exact chain_frame h _ _ _ (hch _ hidx) (hframeCn _)
          · rw [if_neg hii, getD_set_ne _ _ _ _ hii]
            exact chain_frame h _ _ _ (hch i hi) (hframeCn i))
        (by
          have hp : (rest.map Prod.fst ++ Mem.addrs (pushFront Cn (hasher c.2 % M) c)).Perm
              ((c :: rest).map Prod.fst ++ Mem.addrs Cn) := by
            refine (List.Perm.append_left _ (addrs_pushFront_perm Cn _ c hiC)).trans ?_
            simp only [List.map_cons, List.cons_append]
            exact List.perm_middle
          exact hp.nodup_iff.mpr hnd)
        (by simpa using hr)
      refine ⟨ln2, hA, hB, ?_, ?_, ?_, ?_⟩
      · intro i hi
        simpa only [List.foldl_cons] using hCh i hi
      · intro a ha
        rw [hD a ha, array_setSlot, if_neg ha, array_setNext]
      · intro p hp
        have hp1 : p ∉ rest.map Prod.fst := fun hin => hp (by
          simp only [List.map_cons]
          exact List.mem_cons_of_mem _ hin)
        have hp2 : p ≠ c.1 := fun hpc => hp (by
          simp only [List.map_cons]
          rw [hpc]
          exact List.mem_cons_self _ _)
        rw [hE p hp1, helem, if_neg hp2]
      · rw [hF, elems_length_setSlot, elems_length_setNext]

theorem relinked_succ (hasher : Key → Nat) (M : Nat) (C : List (List (Nat × Key))) (n : Nat) :
    Mem.relinked hasher M C (n + 1)
      = (chainAt C n).foldl (fun c2 c => pushFront c2 (hasher c.2 % M) c)
          (Mem.relinked hasher M C n) := by
  unfold Mem.relinked
  rw [List.range_succ, List.foldl_append]
  rfl

theorem relinked_length (hasher : Key → Nat) (M : Nat) (hM : 1 ≤ M)
    (C : List (List (Nat × Key))) : ∀ n, (Mem.relinked hasher M C n).length = M := by
  intro n
  induction n with
  | zero => simp [Mem.relinked]
  | succ n ih =>
    rw [relinked_succ]
    exact (foldl_pushFront (fun c : Nat × Key => hasher c.2) M hM (chainAt C n) _ ih).1

theorem take_succ_flatten (C : List (List (Nat × Key))) (n : Nat) (hn : n < C.length) :
    (C.take (n + 1)).flatten = (C.take n).flatten ++ chainAt C n := by
  rw [List.take_succ, List.getElem?_eq_getElem hn, chainAt_of_lt _ _ hn, List.flatten_append]
  simp only [Option.toList, List.flatten_cons, List.flatten_nil, List.append_nil]

theorem relinked_perm (hasher : Key → Nat) (M : Nat) (hM : 1 ≤ M)
    (C : List (List (Nat × Key))) :
    ∀ n, n ≤ C.length → (Mem.relinked hasher M C n).flatten.Perm (C.take n).flatten := by
  intro n
  induction n with
  | zero => intro _; simp [Mem.relinked]
  | succ n ih =>
    intro hn
    rw [relinked_succ, take_succ_flatten C n (by omega)]
    have h1 := (foldl_pushFront (fun c : Nat × Key => hasher c.2) M hM (chainAt C n) _
      (relinked_length hasher M hM C n)).2.1
    refine h1.trans ?_
    exact List.perm_append_comm.trans (List.Perm.append_right _ (ih (by omega)))

theorem foldl_pushFront_map_snd (hasher : Key → Nat) (M : Nat) (cells : List (Nat × Key)) :
    ∀ Cn : List (List (Nat × Key)),
      (cells.foldl (fun c2 c => pushFront c2 (hasher c.2 % M) c) Cn).map (List.map Prod.snd)
        = (cells.map Prod.snd).foldl (fun nt2 key => pushFront nt2 (hasher key % M) key)
            (Cn.map (List.map Prod.snd)) := by
  induction cells with
  | nil => intro Cn; rfl
  | cons c rest ih =>
    intro Cn
    simp only [List.foldl_cons, List.map_cons]
    rw [ih, map_snd_pushFront]

theorem relinked_value (hasher : Key → Nat) (M : Nat) (C : List (List (Nat × Key))) :
    ∀ n, (Mem.relinked hasher M C n).map (List.map Prod.snd)
      = (List.range n).foldl
          (fun nt i => (chainAt (C.map (List.map Prod.snd)) i).foldl
            (fun nt2 key => pushFront nt2 (hasher key % M) key) nt)
          (List.replicate M []) := by
  intro n
  induction n with
  | zero => simp [Mem.relinked]
  | succ n ih =>
    rw [relinked_succ, foldl_pushFront_map_snd, ih, List.range_succ, List.foldl_append]
    simp only [List.foldl_cons, List.foldl_nil, chainAt_map_snd]

theorem bucket_disjoint :
    ∀ (C : List (List (Nat × Key))), (Mem.addrs C).Nodup →
      ∀ (i j : Nat), i ≠ j → ∀ c d, c ∈ chainAt C i → d ∈ chainAt C j → c.1 ≠ d.1 := by
  intro C
  induction C with
  | nil =>
    intro _ i j _ c d hc _
    rw [chainAt_nil] at hc
    cases hc
  | cons a t ih =>
    intro hnd i j hij c d hc hd
    have hnd2 : (a.map Prod.fst ++ Mem.addrs t).Nodup := by
      simpa [Mem.addrs] using hnd
    obtain ⟨_, h2, h3⟩ := List.nodup_append.mp hnd2
    cases i with
    | zero =>
      cases j with
      | zero => exact absurd rfl hij
      | succ j =>
        rw [chainAt_cons_zero] at hc
        rw [chainAt_cons_succ] at hd
        intro heq
        exact h3 (List.mem_map.mpr ⟨c, hc, rfl⟩)
          ((mem_addrs t c.1).mpr ⟨j, d, hd, heq.symm⟩)
    | succ i =>
      cases j with
      | zero =>
        rw [chainAt_cons_zero] at hd
        rw [chainAt_cons_succ] at hc
        intro heq
        exact h3 (List.mem_map.mpr ⟨d, hd, rfl⟩)
          ((mem_addrs t d.1).mpr ⟨i, c, hc, heq⟩)
      | succ j =>
        rw [chainAt_cons_succ] at hc hd
        exact ih h2 i j (fun h => hij (by rw [h])) c d hc hd

theorem relink_buckets (hasher : Key → Nat) (M nt a : Nat) (hM : 1 ≤ M) (hne : a ≠ nt)
    (C : List (List (Nat × Key))) (la : List Nat) (h0 : Mem.Heap Key)
    (harr_a : h0.array a = some la) (harr_n : h0.array nt = some (List.replicate M 0))
    (hch : ∀ i, i < C.length → Mem.Chain h0 (la.getD i 0) (chainAt C i))
    (hnd : (Mem.addrs C).Nodup) (hfuel : ∀ i, (chainAt C i).length ≤ h0.elems.length) :
    ∀ n, n ≤ C.length →
      ∃ ln, ((List.range n).foldl (fun h i => Mem.ADS_set.relinkLoop hasher M nt
            h.elems.length h (h.slot a i)) h0).array nt = some ln ∧
        ln.length = M ∧
        (∀ i, i < M → Mem.Chain ((List.range n).foldl (fun h i =>
            Mem.ADS_set.relinkLoop hasher M nt h.elems.length h (h.slot a i)) h0)
          (ln.getD i 0) (chainAt (Mem.relinked hasher M C n) i)) ∧
        (∀ i, n ≤ i → i < C.length → Mem.Chain ((List.range n).foldl (fun h i =>
            Mem.ADS_set.relinkLoop hasher M nt h.elems.length h (h.slot a i)) h0)
          (la.getD i 0) (chainAt C i)) ∧
        (∀ b, b ≠ nt → ((List.range n).foldl (fun h i => Mem.ADS_set.relinkLoop hasher M nt
            h.elems.length h (h.slot a i)) h0).array b = h0.array b) ∧
        (∀ p, p ∉ Mem.addrs C → ((List.range n).foldl (fun h i =>
            Mem.ADS_set.relinkLoop hasher M nt h.elems.length h (h.slot a i)) h0).elem p
              = h0.elem p) ∧
        ((List.range n).foldl (fun h i => Mem.ADS_set.relinkLoop hasher M nt
            h.elems.length h (h.slot a i)) h0).elems.length = h0.elems.length := by
  intro n
  induction n with
  | zero =>
    intro _
    refine ⟨List.replicate M 0, harr_n, by simp, ?_, ?_, fun _ _ => rfl, fun _ _ => rfl, rfl⟩
    · intro i hi
      have h1 : (List.replicate M 0).getD i 0 = 0 := by
        simp [List.getD_eq_getElem?_getD, List.getElem?_replicate, hi]
      have h2 : chainAt (Mem.relinked hasher M C 0) i = [] := by
        simp [Mem.relinked, chainAt_replicate]
      rw [h1, h2]
      rfl
    · intro i _ hi
      exact hch i hi
  | succ n ih =>
    intro hn
    obtain ⟨ln, hA, hB, hCh, hRest, hArr, hEl, hLen⟩ := ih (by omega)
    rw [List.range_succ, List.foldl_append]
    simp only [List.foldl_cons, List.foldl_nil]
    generalize hg : (List.range n).foldl (fun h i => Mem.ADS_set.relinkLoop hasher M nt
      h.elems.length h (h.slot a i)) h0 = g at hA hCh hRest hArr hEl hLen ⊢
    have hga : g.array a = some la := by rw [hArr a hne]; exact harr_a
    rw [slot_eq g a n la hga]
    have hnodup : ((chainAt C n).map Prod.fst ++ Mem.addrs (Mem.relinked hasher M C n)).Nodup := by
      have hp : ((chainAt C n).map Prod.fst ++ Mem.addrs (Mem.relinked hasher M C n)).Perm
          ((C.take (n + 1)).flatten.map Prod.fst) := by
        rw [take_succ_flatten C n (by omega), List.map_append]
        refine List.perm_append_comm.trans (List.Perm.append_right _ ?_)
        exact (relinked_perm hasher M hM C n (by omega)).map Prod.fst
      refine hp.nodup_iff.mpr ?_
      have hsplit : C.flatten = (C.take (n + 1)).flatten ++ (C.drop (n + 1)).flatten := by
        rw [← List.flatten_append, List.take_append_drop]
      have hnd2 := hnd
      unfold Mem.addrs at hnd2
      rw [hsplit, List.map_append] at hnd2
      exact (List.nodup_append.mp hnd2).1
    obtain ⟨ln2, kA, kB, kCh, kArr, kEl, kLen⟩ := relink_chain hasher M nt hM (chainAt C n) g
      (la.getD n 0) (Mem.relinked hasher M C n) ln g.elems.length
      (hRest n (Nat.le_refl _) (by omega)) hA hB (relinked_length hasher M hM C n) hCh hnodup
      (by rw [hLen]; exact hfuel n)
    refine ⟨ln2, kA, kB, ?_, ?_, ?_, ?_, ?_⟩
    · intro i hi
      rw [relinked_succ]
      exact kCh i hi
    · intro i hi1 hi2
      refine chain_frame g _ _ _ (hRest i (by omega) hi2) ?_
      intro d hd
      apply kEl
      intro hin
      obtain ⟨c, hc, hcd⟩ := List.mem_map.mp hin
      exact bucket_disjoint C hnd n i (by omega) c d hc hd hcd
    · intro b hb
      rw [kArr b hb, hArr b hb]
    · intro p hp
      rw [kEl p, hEl p hp]
      intro hin
      obtain ⟨c, hc, hcp⟩ := List.mem_map.mp hin
      exact hp ((mem_addrs C p).mpr ⟨n, c, hc, hcp⟩)
    · rw [kLen, hLen]

theorem resize_step (hasher : Key → Nat) (h : Mem.Heap Key) (o : Mem.ADS_set)
    (C : List (List (Nat × Key))) (hr : Mem.Rep h o C) :
    Mem.Step h o C (Mem.ADS_set.resize hasher (h, o)).1 (Mem.ADS_set.resize hasher (h, o)).2
        (Mem.relinked hasher (o.tableSize * 6 + 1) C o.tableSize) ∧
      Mem.value (Mem.ADS_set.resize hasher (h, o)).2
          (Mem.relinked hasher (o.tableSize * 6 + 1) C o.tableSize)
        = ADS_set.resize hasher (Mem.value o C) := by
  obtain ⟨la, hla, hlalen⟩ := hr.array
  have hM : 1 ≤ o.tableSize * 6 + 1 := by omega
  have hbd := array_bound h o.table la hla
  have hne : o.table ≠ h.arrays.length + 1 := by omega
  have harr_a : (h.newArray (o.tableSize * 6 + 1)).1.array o.table = some la := by
    rw [array_newArray, if_neg hne]
    exact hla
  have harr_n : (h.newArray (o.tableSize * 6 + 1)).1.array (h.arrays.length + 1)
      = some (List.replicate (o.tableSize * 6 + 1) 0) := by
    rw [array_newArray, if_pos rfl]
  have hch : ∀ i, i < C.length →
      Mem.Chain (h.newArray (o.tableSize * 6 + 1)).1 (la.getD i 0) (chainAt C i) := by
    intro i hi
    rw [← slot_eq h o.table i la hla]
    exact chain_frame h _ _ _ (hr.chain i (by rw [← hr.length_eq]; exact hi)) (fun _ _ => rfl)
  obtain ⟨ln, hA, hB, hCh, _, hArr, hEl, _⟩ :=
    relink_buckets hasher (o.tableSize * 6 + 1) (h.arrays.length + 1) o.table hM hne C la
      (h.newArray (o.tableSize * 6 + 1)).1 harr_a harr_n hch hr.nodup
      (fun i => cells_length_le h o C hr i) C.length (Nat.le_refl _)
  have hres : Mem.ADS_set.resize hasher (h, o)
      = (((List.range C.length).foldl (fun g i => Mem.ADS_set.relinkLoop hasher
            (o.tableSize * 6 + 1) (h.arrays.length + 1) g.elems.length g (g.slot o.table i))
            (h.newArray (o.tableSize * 6 + 1)).1).deleteArray o.table,
          { table := h.arrays.length + 1, elementSize := o.elementSize,
            tableSize := o.tableSize * 6 + 1 }) := by
    rw [hr.length_eq]
    rfl
  rw [hres]
  generalize hg : (List.range C.length).foldl (fun g i => Mem.ADS_set.relinkLoop hasher
      (o.tableSize * 6 + 1) (h.arrays.length + 1) g.elems.length g (g.slot o.table i))
      (h.newArray (o.tableSize * 6 + 1)).1 = g at hA hCh hArr hEl ⊢
  have hperm : (Mem.addrs (Mem.relinked hasher (o.tableSize * 6 + 1) C o.tableSize)).Perm
      (Mem.addrs C) := by
    have h1 := relinked_perm hasher (o.tableSize * 6 + 1) hM C C.length (Nat.le_refl _)
    rw [List.take_length, hr.length_eq] at h1
    exact h1.map Prod.fst
  have hgarr : (g.deleteArray o.table).array (h.arrays.length + 1) = some ln := by
    rw [array_deleteArray, if_neg (fun h1 => hne h1.symm)]
    exact hA
  refine ⟨⟨⟨hM, ?_, ⟨ln, hgarr, hB⟩, ?_, ?_⟩, ⟨?_, ?_⟩, ?_, ?_⟩, ?_⟩
  · exact relinked_length hasher _ hM C _
  · intro i hi
    rw [slot_eq _ _ i ln hgarr]
    have h1 := hCh i hi
    rw [hr.length_eq] at h1
    exact chain_frame g _ _ _ h1 (fun c _ => elem_deleteArray g o.table c.1)
  · exact hperm.nodup_iff.mpr hr.nodup
  · intro a l ha hl
    have hbd2 := array_bound h a l hl
    rw [array_deleteArray, if_neg ha, hArr a (by omega), array_newArray, if_neg (by omega)]
    exact hl
  · intro p e hp he
    rw [elem_deleteArray, hEl p hp]
    exact he
  · intro p hp
    exact Or.inl (hperm.mem_iff.mp hp)
  · right
    exact newArray_fresh h (o.tableSize * 6 + 1)
  · unfold Mem.value ADS_set.resize
    simp only
    rw [relinked_value]

theorem add_step (hasher : Key → Nat) (s : Mem.Heap Key × Mem.ADS_set)
    (C : List (List (Nat × Key))) (hr : Mem.Rep s.1 s.2 C) (key : Key) :
    ∃ C2, Mem.Step s.1 s.2 C (Mem.ADS_set.add hasher s key).1 (Mem.ADS_set.add hasher s key).2 C2 ∧
      Mem.value (Mem.ADS_set.add hasher s key).2 C2
        = ADS_set.add hasher (Mem.value s.2 C) key := by
  obtain ⟨h, o⟩ := s
  simp only at hr ⊢
  have hidx : hasher key % o.tableSize < o.tableSize := Nat.mod_lt _ hr.pos
  by_cases hloc : Mem.ADS_set.locate hasher h o key = 0
  · have hloc2 := (locate_spec hasher h o C hr key).mp hloc
    have hpush := push_step h o C hr (hasher key % o.tableSize) hidx key (o.elementSize + 1)
    have hval : Mem.value
        { table := o.table, elementSize := o.elementSize + 1, tableSize := o.tableSize }
        (pushFront C (hasher key % o.tableSize) (h.elems.length + 1, key))
        = { table := pushFront (Mem.value o C).table
              (ADS_set.hash_func hasher (Mem.value o C) key) key
            elementSize := (Mem.value o C).elementSize + 1
            tableSize := (Mem.value o C).tableSize } := by
      unfold Mem.value ADS_set.hash_func
      simp only
      rw [map_snd_pushFront]
    by_cases hov : overLoad (o.elementSize + 1) o.tableSize = true
    · have hres : Mem.ADS_set.add hasher (h, o) key
          = Mem.ADS_set.resize hasher
              ((h.newElem key (h.slot o.table (hasher key % o.tableSize))).1.setSlot o.table
                (hasher key % o.tableSize) (h.elems.length + 1),
               { table := o.table, elementSize := o.elementSize + 1,
                 tableSize := o.tableSize }) := by
        simp only [Mem.ADS_set.add, hloc, if_true, hov]
        rfl
      have hres2 : ADS_set.add hasher (Mem.value o C) key
          = ADS_set.resize hasher
              { table := pushFront (Mem.value o C).table
                  (ADS_set.hash_func hasher (Mem.value o C) key) key
                elementSize := (Mem.value o C).elementSize + 1
                tableSize := (Mem.value o C).tableSize } := by
        have hov2 : overLoad ((Mem.value o C).elementSize + 1) (Mem.value o C).tableSize = true :=
          hov
        simp only [ADS_set.add, hloc2, if_true, hov2]
      obtain ⟨hst, hv⟩ := resize_step hasher _ _ _ hpush.rep
      rw [hres, hres2, ← hval]
      exact ⟨_, step_trans _ _ _ _ _ _ _ _ _ hpush hst, hv⟩
    · have hres : Mem.ADS_set.add hasher (h, o) key
          = ((h.newElem key (h.slot o.table (hasher key % o.tableSize))).1.setSlot o.table
                (hasher key % o.tableSize) (h.elems.length + 1),
               { table := o.table, elementSize := o.elementSize + 1,
                 tableSize := o.tableSize }) := by
        simp only [Mem.ADS_set.add, hloc, if_true, hov]
        rfl
      have hres2 : ADS_set.add hasher (Mem.value o C) key
          = { table := pushFront (Mem.value o C).table
                  (ADS_set.hash_func hasher (Mem.value o C) key) key
              elementSize := (Mem.value o C).elementSize + 1
              tableSize := (Mem.value o C).tableSize } := by
        have hov2 : ¬ overLoad ((Mem.value o C).elementSize + 1) (Mem.value o C).tableSize
            = true := hov
        simp only [ADS_set.add, hloc2, if_true, hov2]
        rfl
      rw [hres, hres2, ← hval]
      exact ⟨_, hpush, rfl⟩
  · have hloc2 : ¬ (ADS_set.locate hasher (Mem.value o C) key).isEmpty = true :=
      fun h1 => hloc ((locate_spec hasher h o C hr key).mpr h1)
    have hres : Mem.ADS_set.add hasher (h, o) key = (h, o) := by
      simp only [Mem.ADS_set.add, hloc, if_false]
    have hres2 : ADS_set.add hasher (Mem.value o C) key = Mem.value o C := by
      simp only [ADS_set.add, hloc2]
      rfl
    rw [hres, hres2]
    exact ⟨C, step_refl h o C hr, rfl⟩

theorem insertRange_step (hasher : Key → Nat) (keys : List Key) :
    ∀ (s : Mem.Heap Key × Mem.ADS_set) (C : List (List (Nat × Key))), Mem.Rep s.1 s.2 C →
      ∃ C2, Mem.Step s.1 s.2 C (Mem.ADS_set.insertRange hasher s keys).1
          (Mem.ADS_set.insertRange hasher s keys).2 C2 ∧
        Mem.value (Mem.ADS_set.insertRange hasher s keys).2 C2
          = ADS_set.insertRange hasher (Mem.value s.2 C) keys := by
  induction keys with
  | nil =>
    intro s C hr
    exact ⟨C, step_refl _ _ _ hr, rfl⟩
  | cons k ks ih =>
    intro s C hr
    obtain ⟨C1, hst1, hv1⟩ := add_step hasher s C hr k
    obtain ⟨C2, hst2, hv2⟩ := ih (Mem.ADS_set.add hasher s k) C1 hst1.rep
    refine ⟨C2, step_trans _ _ _ _ _ _ _ _ _ hst1 hst2, ?_⟩
    unfold Mem.ADS_set.insertRange ADS_set.insertRange at hv2 ⊢
    simp only [List.foldl_cons]
    rw [hv2, hv1]

theorem insert_step (hasher : Key → Nat) (s : Mem.Heap Key × Mem.ADS_set)
    (C : List (List (Nat × Key))) (hr : Mem.Rep s.1 s.2 C) (key : Key) :
    ∃ C2, Mem.Step s.1 s.2 C (Mem.ADS_set.insert hasher s key).1
        (Mem.ADS_set.insert hasher s key).2 C2 ∧
      Mem.value (Mem.ADS_set.insert hasher s key).2 C2
        = (ADS_set.insert hasher (Mem.value s.2 C) key).2 := by
  by_cases hloc : Mem.ADS_set.locate hasher s.1 s.2 key = 0
  · have hloc2 := (locate_spec hasher s.1 s.2 C hr key).mp hloc
    have h1 : Mem.ADS_set.insert hasher s key = Mem.ADS_set.add hasher s key := by
      simp [Mem.ADS_set.insert, hloc]
    have h2 : (ADS_set.insert hasher (Mem.value s.2 C) key).2
        = ADS_set.add hasher (Mem.value s.2 C) key := by
      simp [ADS_set.insert, hloc2]
    rw [h1, h2]
    exact add_step hasher s C hr key
  · have hloc2 : ¬ (ADS_set.locate hasher (Mem.value s.2 C) key).isEmpty = true :=
      fun h1 => hloc ((locate_spec hasher s.1 s.2 C hr key).mpr h1)
    have h1 : Mem.ADS_set.insert hasher s key = s := by
      simp [Mem.ADS_set.insert, hloc]
    have h2 : (ADS_set.insert hasher (Mem.value s.2 C) key).2 = Mem.value s.2 C := by
      simp [ADS_set.insert, hloc2]
    rw [h1, h2]
    exact ⟨C, step_refl _ _ _ hr, rfl⟩

/-! ## `clear` on the free store -/

theorem table_eq_replicate (t : List (List Key)) (n : Nat) (hlen : t.length = n)
    (h : ∀ j, chainAt t j = []) : t = List.replicate n [] := by
  apply List.ext_getElem
  · simp [hlen]
  · intro i h1 h2
    rw [← chainAt_of_lt t i h1, h i]
    simp

theorem drain_chain (a i : Nat) :
    ∀ (cells : List (Nat × Key)) (h : Mem.Heap Key) (la : List Nat) (rounds : Nat),
      h.array a = some la → i < la.length → Mem.Chain h (la.getD i 0) cells →
      (cells.map Prod.fst).Nodup → cells.length ≤ rounds →
      ∃ la2, (Mem.ADS_set.drainLoop a i rounds h).array a = some la2 ∧
        la2.length = la.length ∧ la2.getD i 0 = 0 ∧
        (∀ j, j ≠ i → la2.getD j 0 = la.getD j 0) ∧
        (∀ b, b ≠ a → (Mem.ADS_set.drainLoop a i rounds h).array b = h.array b) ∧
        (∀ p, p ∉ cells.map Prod.fst → (Mem.ADS_set.drainLoop a i rounds h).elem p = h.elem p) ∧
        (Mem.ADS_set.drainLoop a i rounds h).elems.length = h.elems.length := by
  intro cells
  induction cells with
  | nil =>
    intro h la rounds harr hi hc _ _
    have h0 : la.getD i 0 = 0 := hc
    have hg : Mem.ADS_set.drainLoop a i rounds h = h := by
      cases rounds with
      | zero => rfl
      | succ r =>
        have he : h.elem (h.slot a i) = none := by
          rw [slot_eq h a i la harr, h0]
          rfl
        simp only [Mem.ADS_set.drainLoop, he]
    rw [hg]
    exact ⟨la, harr, rfl, h0, fun _ _ => rfl, fun _ _ => rfl, fun _ _ => rfl, rfl⟩
  | cons c rest ih =>
    intro h la rounds harr hi hc hnd hr
    obtain ⟨h1, nx, h2, h3⟩ := hc
    cases rounds with
    | zero => simp at hr
    | succ r =>
      have hslot : h.slot a i = c.1 := by rw [slot_eq h a i la harr, h1]
      have hstep : Mem.ADS_set.drainLoop a i (r + 1) h
          = Mem.ADS_set.drainLoop a i r ((h.deleteElem c.1).setSlot a i nx) := by
        simp [Mem.ADS_set.drainLoop, hslot, h2]
      rw [hstep]
      have harr2 : ((h.deleteElem c.1).setSlot a i nx).array a = some (la.set i nx) := by
        rw [array_setSlot, if_pos rfl, array_deleteElem, harr]
        rfl
      have helem : ∀ q, ((h.deleteElem c.1).setSlot a i nx).elem q
          = if q = c.1 then none else h.elem q := by
        intro q
        rw [elem_setSlot, elem_deleteElem]
      have hcnot : c.1 ∉ rest.map Prod.fst := (List.nodup_cons.mp hnd).1
      obtain ⟨la2, kA, kB, kC, kD, kE, kF, kG⟩ := ih ((h.deleteElem c.1).setSlot a i nx)
        (la.set i nx) r harr2 (by simpa using hi)
        (by
          rw [getD_set_eq la i nx hi]
          refine chain_frame h _ _ _ h3 (fun d hd => ?_)
          rw [helem, if_neg]
          intro hdc
          exact hcnot (List.mem_map.mpr ⟨d, hd, hdc⟩))
        (List.nodup_cons.mp hnd).2 (by simpa using hr)
      refine ⟨la2, kA, by simpa using kB, kC, ?_, ?_, ?_, ?_⟩
      · intro j hj
        rw [kD j hj, getD_set_ne la i j nx (fun h => hj h.symm)]
      · intro b hb
        rw [kE b hb, array_setSlot, if_neg hb, array_deleteElem]
      · intro p hp
        have hp1 : p ∉ rest.map Prod.fst := fun hin => hp (by
          simp only [List.map_cons]
          exact List.mem_cons_of_mem _ hin)
        have hp2 : p ≠ c.1 := fun hpc => hp (by
          simp only [List.map_cons]
          rw [hpc]
          exact List.mem_cons_self _ _)
        rw [kF p hp1, helem, if_neg hp2]
      · rw [kG, elems_length_setSlot, elems_length_deleteElem]

theorem bucket_nodup (C : List (List (Nat × Key))) (hnd : (Mem.addrs C).Nodup) (i : Nat) :
    ((chainAt C i).map Prod.fst).Nodup := by
  by_cases hi : i < C.length
  · rw [chainAt_of_lt _ _ hi]
    exact List.Nodup.sublist ((List.sublist_flatten_of_mem (List.getElem_mem hi)).map Prod.fst) hnd
  · rw [chainAt_of_le _ _ (by omega)]
    simp

theorem drain_buckets (a : Nat) (C : List (List (Nat × Key))) (la : List Nat)
    (h0 : Mem.Heap Key) (harr : h0.array a = some la) (hlen : la.length = C.length)
    (hch : ∀ i, i < C.length → Mem.Chain h0 (la.getD i 0) (chainAt C i))
    (hnd : (Mem.addrs C).Nodup) (hfuel : ∀ i, (chainAt C i).length ≤ h0.elems.length) :
    ∀ n, n ≤ C.length →
      ∃ la2, ((List.range n).foldl (fun h i => Mem.ADS_set.drainLoop a i h.elems.length h)
            h0).array a = some la2 ∧
        la2.length = C.length ∧
        (∀ j, j < n → la2.getD j 0 = 0) ∧
        (∀ j, n ≤ j → la2.getD j 0 = la.getD j 0) ∧
        (∀ j, n ≤ j → j < C.length → Mem.Chain ((List.range n).foldl (fun h i =>
            Mem.ADS_set.drainLoop a i h.elems.length h) h0) (la.getD j 0) (chainAt C j)) ∧
        (∀ b, b ≠ a → ((List.range n).foldl (fun h i =>
            Mem.ADS_set.drainLoop a i h.elems.length h) h0).array b = h0.array b) ∧
        (∀ p, p ∉ Mem.addrs C → ((List.range n).foldl (fun h i =>
            Mem.ADS_set.drainLoop a i h.elems.length h) h0).elem p = h0.elem p) ∧
        ((List.range n).foldl (fun h i => Mem.ADS_set.drainLoop a i h.elems.length h)
            h0).elems.length = h0.elems.length := by
  intro n
  induction n with
  | zero =>
    intro _
    exact ⟨la, harr, hlen, fun j hj => absurd hj (Nat.not_lt_zero _), fun _ _ => rfl,
      fun j _ hj => hch j hj, fun _ _ => rfl, fun _ _ => rfl, rfl⟩
  | succ n ih =>
    intro hn
    obtain ⟨la1, hA, hB, hZ, hS, hRest, hArr, hEl, hLen⟩ := ih (by omega)
    rw [List.range_succ, List.foldl_append]
    simp only [List.foldl_cons, List.foldl_nil]
    generalize hg : (List.range n).foldl (fun h i => Mem.ADS_set.drainLoop a i
      h.elems.length h) h0 = g at hA hRest hArr hEl hLen ⊢
    obtain ⟨la2, kA, kB, kC, kD, kE, kF, kG⟩ := drain_chain a n (chainAt C n) g la1
      g.elems.length hA (by omega)
      (by rw [hS n (Nat.le_refl _)]; exact hRest n (Nat.le_refl _) (by omega))
      (bucket_nodup C hnd n) (by rw [hLen]; exact hfuel n)
    refine ⟨la2, kA, by omega, ?_, ?_, ?_, ?_, ?_, ?_⟩
    · intro j hj
      by_cases hjn : j = n
      · rw [hjn]; exact kC
      · rw [kD j hjn]
        exact hZ j (by omega)
    · intro j hj
      rw [kD j (by omega)]
      exact hS j (by omega)
    · intro j hj1 hj2
      refine chain_frame g _ _ _ (hRest j (by omega) hj2) ?_
      intro d hd
      apply kF
      intro hin
      obtain ⟨c, hc, hcd⟩ := List.mem_map.mp hin
      exact bucket_disjoint C hnd n j (by omega) c d hc hd hcd
    · intro b hb
      rw [kE b hb, hArr b hb]
    · intro p hp
      rw [kF p, hEl p hp]
      intro hin
      obtain ⟨c, hc, hcp⟩ := List.mem_map.mp hin
      exact hp ((mem_addrs C p).mpr ⟨n, c, hc, hcp⟩)
    · rw [kG, hLen]

theorem addrs_replicate (n : Nat) :
    Mem.addrs (List.replicate n ([] : List (Nat × Key))) = [] := by
  unfold Mem.addrs
  rw [List.map_eq_nil_iff, List.flatten_eq_nil_iff]
  intro l hl
  exact (List.mem_replicate.mp hl).2

theorem clear_step (s : Mem.Heap Key × Mem.ADS_set) (C : List (List (Nat × Key)))
    (hr : Mem.Rep s.1 s.2 C) :
    Mem.Step s.1 s.2 C (Mem.ADS_set.clear s).1 (Mem.ADS_set.clear s).2
        (List.replicate s.2.tableSize []) ∧
      Mem.value (Mem.ADS_set.clear s).2 (List.replicate s.2.tableSize [])
        = ADS_set.clear (Mem.value s.2 C) := by
  obtain ⟨h, o⟩ := s
  simp only at hr ⊢
  obtain ⟨la, hla, hlalen⟩ := hr.array
  obtain ⟨la2, kA, kB, kZ, _, _, kArr, kEl, _⟩ := drain_buckets o.table C la h hla
    (by rw [hlalen, hr.length_eq])
    (fun i hi => by
      rw [← slot_eq h o.table i la hla]
      exact hr.chain i (by rw [← hr.length_eq]; exact hi))
    hr.nodup (fun i => cells_length_le h o C hr i) C.length (Nat.le_refl _)
  have hres : Mem.ADS_set.clear (h, o)
      = ((List.range C.length).foldl (fun g i => Mem.ADS_set.drainLoop o.table i
            g.elems.length g) h,
          { table := o.table, elementSize := 0, tableSize := o.tableSize }) := by
    rw [hr.length_eq]
    rfl
  rw [hres]
  refine ⟨⟨⟨hr.pos, by simp, ⟨la2, kA, by rw [kB, hr.length_eq]⟩, ?_, ?_⟩, ⟨?_, ?_⟩, ?_,
    Or.inl rfl⟩, ?_⟩
  · intro i hi
    rw [slot_eq _ _ i la2 kA, kZ i (by rw [hr.length_eq]; exact hi), chainAt_replicate]
    rfl
  · rw [addrs_replicate]
    exact List.nodup_nil
  · intro a l ha hl
    rw [kArr a ha]
    exact hl
  · intro p e hp he
    rw [kEl p hp]
    exact he
  · intro p hp
    rw [addrs_replicate] at hp
    cases hp
  · have hl := (clear_fold o.tableSize (C.map (List.map Prod.snd))).1
    have hc := (clear_fold o.tableSize (C.map (List.map Prod.snd))).2
    have ht := table_eq_replicate
      ((List.range o.tableSize).foldl (fun t2 i => t2.set i (ADS_set.drain (chainAt t2 i)))
        (C.map (List.map Prod.snd))) o.tableSize
      (by rw [hl]; simpa using hr.length_eq)
      (fun j => by
        rw [hc j]
        by_cases hj : j < o.tableSize
        · rw [if_pos hj]
        · rw [if_neg hj]
          exact chainAt_of_le _ _ (by simp [hr.length_eq]; omega))
    unfold Mem.value ADS_set.clear
    simp only
    rw [ht]
    simp

/-! ## `erase` on the free store -/

theorem erase_tail (h : Mem.Heap Key) (key : Key) (a idx : Nat) :
    ∀ (cells : List (Nat × Key)) (prev p rounds : Nat) (kp : Key),
      Mem.Chain h p cells → (prev :: cells.map Prod.fst).Nodup →
      h.elem prev = some { key := kp, next := p } → cells.length ≤ rounds →
      (ADS_set.unlink key (cells.map Prod.snd) = none →
        Mem.ADS_set.eraseAt h a idx (Mem.ADS_set.eraseLoop h key rounds prev p) = none) ∧
      (∀ ks, ADS_set.unlink key (cells.map Prod.snd) = some ks →
        ∃ g cells2 p2,
          Mem.ADS_set.eraseAt h a idx (Mem.ADS_set.eraseLoop h key rounds prev p) = some g ∧
          cells2.map Prod.snd = ks ∧ cells2.Sublist cells ∧
          g.elem prev = some { key := kp, next := p2 } ∧ Mem.Chain g p2 cells2 ∧
          (∀ b, g.array b = h.array b) ∧
          (∀ q, q ≠ prev → q ∉ cells.map Prod.fst → g.elem q = h.elem q)) := by
  intro cells
  induction cells with
  | nil =>
    intro prev p rounds kp hc _ _ _
    have h0 : p = 0 := hc
    subst h0
    have hr : Mem.ADS_set.eraseLoop h key rounds prev 0 = (prev, 0) := by
      cases rounds with
      | zero => rfl
      | succ r =>
        have he : h.elem 0 = none := rfl
        simp only [Mem.ADS_set.eraseLoop, he]
    refine ⟨fun _ => ?_, fun ks hks => ?_⟩
    · rw [hr]
      rfl
    · simp [ADS_set.unlink] at hks
  | cons c rest ih =>
    intro prev p rounds kp hc hnd hprev hr
    obtain ⟨h1, nx, h2, h3⟩ := hc
    subst h1
    have hnd1 := List.nodup_cons.mp hnd
    have hnd2 : (c.1 :: rest.map Prod.fst).Nodup := by simpa using hnd1.2
    have hpc : prev ≠ c.1 := fun hh => hnd1.1 (by
      simp only [List.map_cons]
      rw [hh]
      exact List.mem_cons_self _ _)
    have hprest : prev ∉ rest.map Prod.fst := fun hh => hnd1.1 (by
      simp only [List.map_cons]
      exact List.mem_cons_of_mem _ hh)
    cases rounds with
    | zero => simp at hr
    | succ r =>
      by_cases hk : c.2 = key
      · have hloop : Mem.ADS_set.eraseLoop h key (r + 1) prev c.1 = (prev, c.1) := by
          simp [Mem.ADS_set.eraseLoop, h2, hk]
        have hp0 : prev ≠ 0 := fun hh => by
          rw [hh] at hprev
          cases hprev
        have hat : Mem.ADS_set.eraseAt h a idx (prev, c.1)
            = some ((h.setNext prev nx).deleteElem c.1) := by
          simp [Mem.ADS_set.eraseAt, h2, hp0]
        have hun : ADS_set.unlink key ((c :: rest).map Prod.snd) = some (rest.map Prod.snd) := by
          simp [ADS_set.unlink, hk]
        have helem : ∀ q, ((h.setNext prev nx).deleteElem c.1).elem q
            = if q = c.1 then none
              else if q = prev then some { key := kp, next := nx } else h.elem q := by
          intro q
          rw [elem_deleteElem, elem_setNext, hprev]
          rfl
        refine ⟨fun hn => ?_, fun ks hks => ?_⟩
        · rw [hun] at hn
          cases hn
        · rw [hun] at hks
          cases hks
          rw [hloop, hat]
          refine ⟨_, rest, nx, rfl, rfl, List.sublist_cons_self _ _, ?_, ?_, ?_, ?_⟩
          · rw [helem, if_neg hpc, if_pos rfl]
          · refine chain_frame h _ _ _ h3 (fun d hd => ?_)
            have hd1 : d.1 ∈ rest.map Prod.fst := List.mem_map.mpr ⟨d, hd, rfl⟩
            rw [helem, if_neg, if_neg]
            · intro hh
              exact hprest (hh ▸ hd1)
            · intro hh
              exact (List.nodup_cons.mp hnd2).1 (hh ▸ hd1)
          · intro b
            rw [array_deleteElem, array_setNext]
          · intro q hq1 hq2
            rw [helem, if_neg, if_neg hq1]
            intro hh
            exact hq2 (by
              simp only [List.map_cons]
              rw [hh]
              exact List.mem_cons_self _ _)
      · have hloop : Mem.ADS_set.eraseLoop h key (r + 1) prev c.1
            = Mem.ADS_set.eraseLoop h key r c.1 nx := by
          simp [Mem.ADS_set.eraseLoop, h2, hk]
        rw [hloop]
        obtain ⟨ih1, ih2⟩ := ih c.1 nx r c.2 h3 hnd2 h2 (by simpa using hr)
        refine ⟨fun hn => ?_, fun ks hks => ?_⟩
        · apply ih1
          cases hu : ADS_set.unlink key (rest.map Prod.snd) with
          | none => rfl
          | some r2 => simp [ADS_set.unlink, hk, hu] at hn
        · cases hu : ADS_set.unlink key (rest.map Prod.snd) with
          | none => simp [ADS_set.unlink, hk, hu] at hks
          | some r2 =>
            have hks2 : ks = c.2 :: r2 := by
              simp [ADS_set.unlink, hk, hu] at hks
              exact hks.symm
            obtain ⟨g, cells2, p2, kA, kB, kC, kD, kE, kF, kG⟩ := ih2 r2 hu
            refine ⟨g, c :: cells2, c.1, kA, ?_, kC.cons₂ c, ?_, ⟨rfl, p2, kD, kE⟩, kF, ?_⟩
            · rw [hks2, List.map_cons, kB]
            · rw [kG prev hpc hprest]
              exact hprev
            · intro q hq1 hq2
              have hq3 : q ≠ c.1 := fun hh => hq2 (by
                simp only [List.map_cons]
                rw [hh]
                exact List.mem_cons_self _ _)
              have hq4 : q ∉ rest.map Prod.fst := fun hh => hq2 (by
                simp only [List.map_cons]
                exact List.mem_cons_of_mem _ hh)
              exact kG q hq3 hq4

theorem addrs_set_sublist :
    ∀ (C : List (List (Nat × Key))) (i : Nat) (cells2 : List (Nat × Key)),
      cells2.Sublist (chainAt C i) → (Mem.addrs (C.set i cells2)).Sublist (Mem.addrs C) := by
  intro C
  induction C with
  | nil =>
    intro i cells2 _
    simp [Mem.addrs]
  | cons a t ih =>
    intro i cells2 hsub
    cases i with
    | zero =>
      rw [chainAt_cons_zero] at hsub
      simp only [Mem.addrs, List.set_cons_zero, List.flatten_cons, List.map_append]
      exact List.Sublist.append (hsub.map Prod.fst) (List.Sublist.refl _)
    | succ i =>
      rw [chainAt_cons_succ] at hsub
      simp only [Mem.addrs, List.set_cons_succ, List.flatten_cons, List.map_append]
      exact List.Sublist.append (List.Sublist.refl _) (ih i cells2 hsub)

theorem rep_set_bucket (h g : Mem.Heap Key) (o : Mem.ADS_set) (C : List (List (Nat × Key)))
    (hr : Mem.Rep h o C) (idx : Nat) (hidx : idx < o.tableSize) (cells2 : List (Nat × Key))
    (hsub : cells2.Sublist (chainAt C idx)) (la la2 : List Nat)
    (hla : h.array o.table = some la) (hla2 : g.array o.table = some la2)
    (hlen : la2.length = la.length) (hother : ∀ j, j ≠ idx → la2.getD j 0 = la.getD j 0)
    (hchain : Mem.Chain g (la2.getD idx 0) cells2)
    (harr : ∀ b, b ≠ o.table → g.array b = h.array b)
    (hel : ∀ q, q ∉ (chainAt C idx).map Prod.fst → g.elem q = h.elem q) (n : Nat) :
    Mem.Step h o C g { table := o.table, elementSize := n, tableSize := o.tableSize }
      (C.set idx cells2) := by
  obtain ⟨la0, hla0, hla0len⟩ := hr.array
  have hlaeq : la0 = la := by
    rw [hla] at hla0
    cases hla0
    rfl
  subst hlaeq
  have hsubl := addrs_set_sublist C idx cells2 hsub
  refine ⟨⟨hr.pos, ?_, ⟨la2, hla2, by rw [hlen]; exact hla0len⟩, ?_, ?_⟩, ⟨?_, ?_⟩, ?_,
    Or.inl rfl⟩
  · rw [List.length_set]
    exact hr.length_eq
  · intro i hi
    rw [slot_eq g _ i la2 hla2, chainAt_set]
    by_cases hii : idx = i
    · subst hii
      rw [if_pos ⟨rfl, by rw [hr.length_eq]; exact hidx⟩]
      exact hchain
    · rw [if_neg (fun hh => hii hh.1), hother i (fun hh => hii hh.symm),
        ← slot_eq h _ i la0 hla]
      refine chain_frame h g _ _ (hr.chain i hi) (fun d hd => ?_)
      apply hel
      intro hin
      obtain ⟨c, hc, hcd⟩ := List.mem_map.mp hin
      exact bucket_disjoint C hr.nodup idx i hii c d hc hd hcd
  · exact List.Nodup.sublist hsubl hr.nodup
  · intro b l hb hl
    rw [harr b hb]
    exact hl
  · intro q e hq he
    rw [hel q]
    · exact he
    · intro hin
      obtain ⟨c, hc, hcq⟩ := List.mem_map.mp hin
      exact hq ((mem_addrs C q).mpr ⟨idx, c, hc, hcq⟩)
  · intro p hp
    exact Or.inl (hsubl.subset hp)

theorem erase_value_none (hasher : Key → Nat) (s : ADS_set Key) (key : Key)
    (h : ADS_set.unlink key (chainAt s.table (hasher key % s.tableSize)) = none) :
    ADS_set.erase hasher s key = (0, s) := by
  simp [ADS_set.erase, ADS_set.hash_func, h]

theorem erase_value_some (hasher : Key → Nat) (s : ADS_set Key) (key : Key) (ks : List Key)
    (h : ADS_set.unlink key (chainAt s.table (hasher key % s.tableSize)) = some ks) :
    ADS_set.erase hasher s key
      = (1, { table := s.table.set (hasher key % s.tableSize) ks
              elementSize := s.elementSize - 1
              tableSize := s.tableSize }) := by
  simp [ADS_set.erase, ADS_set.hash_func, h]

theorem erase_mem_none (hasher : Key → Nat) (s : Mem.Heap Key × Mem.ADS_set) (key : Key)
    (h : Mem.ADS_set.eraseAt s.1 s.2.table (hasher key % s.2.tableSize)
      (Mem.ADS_set.eraseLoop s.1 key s.1.elems.length 0
        (s.1.slot s.2.table (hasher key % s.2.tableSize))) = none) :
    Mem.ADS_set.erase hasher s key = (0, s) := by
  simp [Mem.ADS_set.erase, h]

theorem erase_mem_some (hasher : Key → Nat) (s : Mem.Heap Key × Mem.ADS_set) (key : Key)
    (g : Mem.Heap Key)
    (h : Mem.ADS_set.eraseAt s.1 s.2.table (hasher key % s.2.tableSize)
      (Mem.ADS_set.eraseLoop s.1 key s.1.elems.length 0
        (s.1.slot s.2.table (hasher key % s.2.tableSize))) = some g) :
    Mem.ADS_set.erase hasher s key
      = (1, g, { table := s.2.table, elementSize := s.2.elementSize - 1,
                 tableSize := s.2.tableSize }) := by
  simp [Mem.ADS_set.erase, h]

theorem erase_step (hasher : Key → Nat) (s : Mem.Heap Key × Mem.ADS_set)
    (C : List (List (Nat × Key))) (hr : Mem.Rep s.1 s.2 C) (key : Key) :
    ∃ C2, Mem.Step s.1 s.2 C (Mem.ADS_set.erase hasher s key).2.1
        (Mem.ADS_set.erase hasher s key).2.2 C2 ∧
      Mem.value (Mem.ADS_set.erase hasher s key).2.2 C2
        = (ADS_set.erase hasher (Mem.value s.2 C) key).2 ∧
      (Mem.ADS_set.erase hasher s key).1 = (ADS_set.erase hasher (Mem.value s.2 C) key).1 := by
  obtain ⟨h, o⟩ := s
  simp only at hr
  obtain ⟨la, hla, hlalen⟩ := hr.array
  have hidx : hasher key % o.tableSize < o.tableSize := Nat.mod_lt _ hr.pos
  have hc := hr.chain _ hidx
  have hfuel := cells_length_le h o C hr (hasher key % o.tableSize)
  have hbn := bucket_nodup C hr.nodup (hasher key % o.tableSize)
  have hcv : chainAt (Mem.value o C).table (hasher key % (Mem.value o C).tableSize)
      = (chainAt C (hasher key % o.tableSize)).map Prod.snd := chainAt_value o C _
  have hslot := slot_eq h o.table (hasher key % o.tableSize) la hla
  cases hcells : chainAt C (hasher key % o.tableSize) with
  | nil =>
    rw [hcells] at hc hcv
    have h0 : h.slot o.table (hasher key % o.tableSize) = 0 := hc
    have hloop : Mem.ADS_set.eraseLoop h key h.elems.length 0 0 = (0, 0) := by
      cases h.elems.length with
      | zero => rfl
      | succ r =>
        have he : h.elem 0 = none := rfl
        simp only [Mem.ADS_set.eraseLoop, he]
    have hm := erase_mem_none hasher (h, o) key (by
      simp only
      rw [h0, hloop]
      rfl)
    have hv := erase_value_none hasher (Mem.value o C) key (by
      rw [hcv]
      rfl)
    rw [hm, hv]
    exact ⟨C, step_refl h o C hr, rfl, rfl⟩
  | cons c rest =>
    rw [hcells] at hc hcv hfuel hbn
    obtain ⟨h1, nx, h2, h3⟩ := hc
    obtain ⟨r, hrr⟩ : ∃ r, h.elems.length = r + 1 :=
      ⟨h.elems.length - 1, by simp at hfuel; omega⟩
    have hnd2 : (c.1 :: rest.map Prod.fst).Nodup := by simpa using hbn
    by_cases hk : c.2 = key
    · have hloop : Mem.ADS_set.eraseLoop h key h.elems.length 0
          (h.slot o.table (hasher key % o.tableSize)) = (0, c.1) := by
        rw [hrr, h1]
        simp [Mem.ADS_set.eraseLoop, h2, hk]
      have hat : Mem.ADS_set.eraseAt h o.table (hasher key % o.tableSize) (0, c.1)
          = some ((h.setSlot o.table (hasher key % o.tableSize) nx).deleteElem c.1) := by
        simp [Mem.ADS_set.eraseAt, h2]
      have hm := erase_mem_some hasher (h, o) key _ (by
        simp only
        rw [hloop, hat])
      have hv := erase_value_some hasher (Mem.value o C) key (rest.map Prod.snd) (by
        rw [hcv]
        simp [ADS_set.unlink, hk])
      rw [hm, hv]
      refine ⟨C.set (hasher key % o.tableSize) rest, ?_, ?_, rfl⟩
      · refine rep_set_bucket h _ o C hr _ hidx rest (by rw [hcells]; exact List.sublist_cons_self _ _)
          la (la.set (hasher key % o.tableSize) nx) hla ?_ (by simp) ?_ ?_ ?_ ?_ _
        · rw [array_deleteElem, array_setSlot, if_pos rfl, hla]
          rfl
        · intro j hj
          exact getD_set_ne la _ j nx (fun hh => hj hh.symm)
        · rw [getD_set_eq la _ nx (by rw [hlalen]; exact hidx)]
          refine chain_frame h _ _ _ h3 (fun d hd => ?_)
          rw [elem_deleteElem, elem_setSlot, if_neg]
          intro hh
          exact (List.nodup_cons.mp hnd2).1 (hh ▸ List.mem_map.mpr ⟨d, hd, rfl⟩)
        · intro b hb
          rw [array_deleteElem, array_setSlot, if_neg hb]
        · intro q hq
          rw [elem_deleteElem, elem_setSlot, if_neg]
          intro hh
          apply hq
          rw [hcells, hh]
          simp
      · simp only [Mem.value, List.map_set]
    · have hloop : Mem.ADS_set.eraseLoop h key h.elems.length 0
          (h.slot o.table (hasher key % o.tableSize))
            = Mem.ADS_set.eraseLoop h key r c.1 nx := by
        rw [hrr, h1]
        simp [Mem.ADS_set.eraseLoop, h2, hk]
      obtain ⟨t1, t2⟩ := erase_tail h key o.table (hasher key % o.tableSize) rest c.1 nx r c.2
        h3 hnd2 h2 (by simp at hfuel; omega)
      cases hu : ADS_set.unlink key (rest.map Prod.snd) with
      | none =>
        have hm := erase_mem_none hasher (h, o) key (by
          simp only
          rw [hloop]
          exact t1 hu)
        have hv := erase_value_none hasher (Mem.value o C) key (by
          rw [hcv]
          simp [ADS_set.unlink, hk, hu])
        rw [hm, hv]
        exact ⟨C, step_refl h o C hr, rfl, rfl⟩
      | some r2 =>
        obtain ⟨g, cells2, p2, kA, kB, kC, kD, kE, kF, kG⟩ := t2 r2 hu
        have hm := erase_mem_some hasher (h, o) key g (by
          simp only
          rw [hloop]
          exact kA)
        have hv := erase_value_some hasher (Mem.value o C) key (c.2 :: r2) (by
          rw [hcv]
          simp [ADS_set.unlink, hk, hu])
        rw [hm, hv]
        refine ⟨C.set (hasher key % o.tableSize) (c :: cells2), ?_, ?_, rfl⟩
        · refine rep_set_bucket h g o C hr _ hidx (c :: cells2)
            (by rw [hcells]; exact kC.cons₂ c) la la hla ?_ rfl (fun _ _ => rfl) ?_ ?_ ?_ _
          · rw [kF]
            exact hla
          · rw [← hslot, h1]
            exact ⟨rfl, p2, kD, kE⟩
          · intro b _
            exact kF b
          · intro q hq
            rw [hcells] at hq
            simp only [List.map_cons, List.mem_cons, not_or] at hq
            exact kG q hq.1 hq.2
        · simp only [Mem.value, List.map_set, List.map_cons, kB]

/-! ## Calls, the constructor and reading a set off the store -/

theorem apply_step (hasher : Key → Nat) (s : Mem.Heap Key × Mem.ADS_set)
    (C : List (List (Nat × Key))) (hr : Mem.Rep s.1 s.2 C) (op : Op Key) :
    ∃ C2, Mem.Step s.1 s.2 C (Mem.apply hasher s op).1 (Mem.apply hasher s op).2 C2 ∧
      Mem.value (Mem.apply hasher s op).2 C2 = Op.apply hasher (Mem.value s.2 C) op := by
  cases op with
  | insert key => exact insert_step hasher s C hr key
  | insertRange keys => exact insertRange_step hasher keys s C hr
  | erase key =>
    obtain ⟨C2, h1, h2, _⟩ := erase_step hasher s C hr key
    exact ⟨C2, h1, h2⟩
  | clear => exact ⟨_, clear_step s C hr⟩

theorem readChain_spec (h : Mem.Heap Key) :
    ∀ (cells : List (Nat × Key)) (p rounds : Nat), Mem.Chain h p cells →
      cells.length ≤ rounds → Mem.readChain h rounds p = cells.map Prod.snd := by
  intro cells
  induction cells with
  | nil =>
    intro p rounds hc _
    have h0 : p = 0 := hc
    subst h0
    cases rounds with
    | zero => rfl
    | succ r =>
      have he : h.elem 0 = none := rfl
      simp only [Mem.readChain, he, List.map_nil]
  | cons c rest ih =>
    intro p rounds hc hr
    obtain ⟨h1, nx, h2, h3⟩ := hc
    subst h1
    cases rounds with
    | zero => simp at hr
    | succ r =>
      simp only [Mem.readChain, h2, List.map_cons]
      rw [ih nx r h3 (by simpa using hr)]

theorem read_spec (h : Mem.Heap Key) (o : Mem.ADS_set) (C : List (List (Nat × Key)))
    (hr : Mem.Rep h o C) : Mem.read h o = Mem.value o C := by
  unfold Mem.read Mem.value
  simp only [ADS_set.mk.injEq, and_true]
  apply List.ext_getElem
  · simp [hr.length_eq]
  · intro i h1 h2
    have hi : i < o.tableSize := by simpa using h1
    simp only [List.getElem_map, List.getElem_range]
    rw [readChain_spec h _ _ _ (hr.chain i hi) (cells_length_le h o C hr i),
      chainAt_of_lt C i (by rw [hr.length_eq]; exact hi)]

theorem new_step (N : Nat) (hN : 1 ≤ N) (h : Mem.Heap Key) :
    Mem.Step h { table := 0, elementSize := 0, tableSize := 0 } []
        (Mem.ADS_set.new N h).1 (Mem.ADS_set.new N h).2
        (List.replicate N ([] : List (Nat × Key))) ∧
      Mem.value (Mem.ADS_set.new N h).2 (List.replicate N ([] : List (Nat × Key)))
        = (ADS_set.new N : ADS_set Key) := by
  have harr : (h.newArray N).1.array (h.newArray N).2 = some (List.replicate N 0) := by
    rw [array_newArray]
    exact if_pos rfl
  refine ⟨⟨⟨hN, List.length_replicate _ _, ⟨_, harr, List.length_replicate _ _⟩, ?_, ?_⟩,
    ⟨?_, ?_⟩, ?_, ?_⟩, ?_⟩
  · intro i hi
    have hi2 : i < N := hi
    have h1 : (Mem.ADS_set.new N h).1.slot (Mem.ADS_set.new N h).2.table i = 0 := by
      have h2 := slot_eq (h.newArray N).1 (h.newArray N).2 i _ harr
      have h3 : (List.replicate N 0).getD i 0 = 0 := by
        simp [List.getD_eq_getElem?_getD, List.getElem?_replicate, hi2]
      rw [h3] at h2
      exact h2
    rw [h1, chainAt_replicate]
    rfl
  · rw [addrs_replicate]
    exact List.nodup_nil
  · intro a l _ hl
    have hb := array_bound h a l hl
    show (h.newArray N).1.array a = some l
    rw [array_newArray, if_neg (by omega)]
    exact hl
  · intro p e _ he
    exact he
  · intro p hp
    rw [addrs_replicate] at hp
    cases hp
  · right
    exact newArray_fresh h N
  · simp [Mem.value, Mem.ADS_set.new, ADS_set.new]

theorem null_sep (h : Mem.Heap Key) (a : Mem.ADS_set) (Ca : List (List (Nat × Key)))
    (ha : Mem.Rep h a Ca) :
    Mem.Sep a Ca { table := 0, elementSize := 0, tableSize := 0 } [] := by
  obtain ⟨l, hl, _⟩ := ha.array
  have hb := array_bound h a.table l hl
  refine ⟨fun h0 => ?_, fun p _ hp => ?_⟩
  · simp only at h0
    omega
  · simp [Mem.addrs] at hp

theorem run_step (hasher : Key → Nat) (ops : List (Op Key)) :
    ∀ (s : Mem.Heap Key × Mem.ADS_set) (C : List (List (Nat × Key))), Mem.Rep s.1 s.2 C →
      ∃ C2, Mem.Step s.1 s.2 C (ops.foldl (Mem.apply hasher) s).1
          (ops.foldl (Mem.apply hasher) s).2 C2 ∧
        Mem.value (ops.foldl (Mem.apply hasher) s).2 C2
          = ops.foldl (Op.apply hasher) (Mem.value s.2 C) := by
  induction ops with
  | nil =>
    intro s C hr
    exact ⟨C, step_refl _ _ _ hr, rfl⟩
  | cons op rest ih =>
    intro s C hr
    obtain ⟨C1, hst1, hv1⟩ := apply_step hasher s C hr op
    obtain ⟨C2, hst2, hv2⟩ := ih (Mem.apply hasher s op) C1 hst1.rep
    refine ⟨C2, step_trans _ _ _ _ _ _ _ _ _ hst1 hst2, ?_⟩
    simp only [List.foldl_cons]
    rw [hv2, hv1]

/-- The object built in any store by the constructor and a sequence of calls is
intact, owns only memory that was not allocated before, and holds the set value
that the same calls produce. -/
theorem run_rep (hasher : Key → Nat) (N : Nat) (hN : 1 ≤ N) (h : Mem.Heap Key)
    (ops : List (Op Key)) :
    ∃ C, Mem.Step h { table := 0, elementSize := 0, tableSize := 0 } []
        (Mem.run hasher N h ops).1 (Mem.run hasher N h ops).2 C ∧
      Mem.value (Mem.run hasher N h ops).2 C = run hasher N ops := by
  obtain ⟨hst0, hv0⟩ := @new_step Key _ N hN h
  obtain ⟨C, hst, hv⟩ := run_step hasher ops (Mem.ADS_set.new N h) _ hst0.rep
  refine ⟨C, step_trans _ _ _ _ _ _ _ _ _ hst0 hst, ?_⟩
  unfold Mem.run run
  rw [hv, hv0]

/-! ## The copy constructor on the free store -/

theorem copyLoop_nil (hasher : Key → Nat) (rounds : Nat) (s : Mem.Heap Key × Mem.ADS_set) :
    Mem.ADS_set.copyLoop hasher rounds 0 s = s := by
  cases rounds with
  | zero => rfl
  | succ r =>
    have he : s.1.elem 0 = none := rfl
    simp only [Mem.ADS_set.copyLoop, he]

theorem copyLoop_spec (hasher : Key → Nat) :
    ∀ (cells : List (Nat × Key)) (e rounds : Nat) (s : Mem.Heap Key × Mem.ADS_set)
      (Cb : List (List (Nat × Key))),
      Mem.Rep s.1 s.2 Cb → Mem.Chain s.1 e cells →
      (∀ c, c ∈ cells → c.1 ∉ Mem.addrs Cb) → cells.length ≤ rounds →
      ∃ Cb2, Mem.Step s.1 s.2 Cb (Mem.ADS_set.copyLoop hasher rounds e s).1
          (Mem.ADS_set.copyLoop hasher rounds e s).2 Cb2 ∧
        Mem.value (Mem.ADS_set.copyLoop hasher rounds e s).2 Cb2
          = (cells.map Prod.snd).foldl (ADS_set.add hasher) (Mem.value s.2 Cb) := by
  intro cells
  induction cells with
  | nil =>
    intro e rounds s Cb hr hc _ _
    have h0 : e = 0 := hc
    subst h0
    rw [copyLoop_nil]
    exact ⟨Cb, step_refl _ _ _ hr, rfl⟩
  | cons c rest ih =>
    intro e rounds s Cb hr hc hdis hlen
    obtain ⟨h1, nx, h2, h3⟩ := hc
    subst h1
    cases rounds with
    | zero => simp at hlen
    | succ r =>
      obtain ⟨C1, hst, hv⟩ := add_step hasher s Cb hr c.2
      have hkeep : ∀ d, d ∈ c :: rest →
          (Mem.ADS_set.add hasher s c.2).1.elem d.1 = s.1.elem d.1 := by
        intro d hd
        obtain ⟨nxd, hnxd⟩ := chain_live s.1 (c :: rest) c.1 ⟨rfl, nx, h2, h3⟩ d hd
        rw [hnxd]
        exact hst.frame.2 d.1 _ (hdis d hd) hnxd
      have h2b : (Mem.ADS_set.add hasher s c.2).1.elem c.1 = some { key := c.2, next := nx } := by
        rw [hkeep c (List.mem_cons_self _ _)]
        exact h2
      have hloop : Mem.ADS_set.copyLoop hasher (r + 1) c.1 s
          = Mem.ADS_set.copyLoop hasher r nx (Mem.ADS_set.add hasher s c.2) := by
        simp only [Mem.ADS_set.copyLoop, h2, h2b]
      rw [hloop]
      obtain ⟨Cb2, hst2, hv2⟩ := ih nx r (Mem.ADS_set.add hasher s c.2) C1 hst.rep
        (chain_frame s.1 _ _ _ h3 (fun d hd => hkeep d (List.mem_cons_of_mem _ hd)))
        (by
          intro d hd hin
          rcases hst.nodes d.1 hin with h5 | h5
          · exact hdis d (List.mem_cons_of_mem _ hd) h5
          · obtain ⟨nxd, hnxd⟩ := chain_live s.1 rest nx h3 d hd
            rw [hnxd] at h5
            cases h5)
        (by simpa using hlen)
      refine ⟨Cb2, step_trans _ _ _ _ _ _ _ _ _ hst hst2, ?_⟩
      simp only [List.map_cons, List.foldl_cons]
      rw [hv2, hv]

theorem arrays_length_newArray (h : Mem.Heap Key) (n : Nat) :
    (h.newArray n).1.arrays.length = h.arrays.length + 1 := by
  simp [Mem.Heap.newArray]

theorem arrays_length_deleteArray (h : Mem.Heap Key) (a : Nat) :
    (h.deleteArray a).arrays.length = h.arrays.length := by
  unfold Mem.Heap.deleteArray
  cases h.array a <;> simp

theorem copy_init (N : Nat) (h : Mem.Heap Key) (ts : Nat) (hts : 1 ≤ ts) :
    Mem.Step h { table := 0, elementSize := 0, tableSize := 0 } []
      (((h.newArray N).1.deleteArray (h.newArray N).2).newArray ts).1
      { table := (((h.newArray N).1.deleteArray (h.newArray N).2).newArray ts).2,
        elementSize := 0, tableSize := ts }
      (List.replicate ts ([] : List (Nat × Key))) := by
  obtain ⟨hst, _⟩ := @new_step Key _ ts hts ((h.newArray N).1.deleteArray (h.newArray N).2)
  refine ⟨hst.rep, ⟨?_, ?_⟩, ?_, ?_⟩
  · intro a l ha hl
    have hb := array_bound h a l hl
    apply hst.frame.1 a l ha
    rw [array_deleteArray, if_neg (by simp [Mem.Heap.newArray]; omega), array_newArray,
      if_neg (by omega)]
    exact hl
  · intro p e hp he
    apply hst.frame.2 p e hp
    rw [elem_deleteArray, elem_newArray]
    exact he
  · intro p hp
    rw [addrs_replicate] at hp
    cases hp
  · right
    cases ha : h.array (((h.newArray N).1.deleteArray (h.newArray N).2).newArray ts).2 with
    | none => rfl
    | some l =>
      have hb := array_bound h _ l ha
      have h1 : (((h.newArray N).1.deleteArray (h.newArray N).2).newArray ts).2
          = h.arrays.length + 1 + 1 := by
        show ((h.newArray N).1.deleteArray (h.newArray N).2).arrays.length + 1 = _
        rw [arrays_length_deleteArray, arrays_length_newArray]
      omega

theorem copy_spec (hasher : Key → Nat) (N : Nat) (h : Mem.Heap Key) (other : Mem.ADS_set)
    (Co : List (List (Nat × Key))) (ho : Mem.Rep h other Co) :
    ∃ Cb, Mem.Step h { table := 0, elementSize := 0, tableSize := 0 } []
        (Mem.ADS_set.copy hasher N h other).1 (Mem.ADS_set.copy hasher N h other).2 Cb ∧
      Mem.value (Mem.ADS_set.copy hasher N h other).2 Cb
        = ADS_set.copy hasher (Mem.value other Co) := by
  have hinit := @copy_init Key _ N h other.tableSize ho.pos
  have hloop : ∀ n, n ≤ other.tableSize →
      ∃ Cb, Mem.Step h { table := 0, elementSize := 0, tableSize := 0 } []
          ((List.range n).foldl (fun s i => Mem.ADS_set.copyLoop hasher s.1.elems.length
              (s.1.slot other.table i) s)
            ((((h.newArray N).1.deleteArray (h.newArray N).2).newArray other.tableSize).1,
              { table := (((h.newArray N).1.deleteArray (h.newArray N).2).newArray
                  other.tableSize).2,
                elementSize := 0, tableSize := other.tableSize })).1
          ((List.range n).foldl (fun s i => Mem.ADS_set.copyLoop hasher s.1.elems.length
              (s.1.slot other.table i) s)
            ((((h.newArray N).1.deleteArray (h.newArray N).2).newArray other.tableSize).1,
              { table := (((h.newArray N).1.deleteArray (h.newArray N).2).newArray
                  other.tableSize).2,
                elementSize := 0, tableSize := other.tableSize })).2 Cb ∧
        Mem.value ((List.range n).foldl (fun s i => Mem.ADS_set.copyLoop hasher
              s.1.elems.length (s.1.slot other.table i) s)
            ((((h.newArray N).1.deleteArray (h.newArray N).2).newArray other.tableSize).1,
              { table := (((h.newArray N).1.deleteArray (h.newArray N).2).newArray
                  other.tableSize).2,
                elementSize := 0, tableSize := other.tableSize })).2 Cb
          = (List.range n).foldl
              (fun s i => (chainAt (Mem.value other Co).table i).foldl (ADS_set.add hasher) s)
              { table := List.replicate other.tableSize [], elementSize := 0,
                tableSize := other.tableSize } := by
    intro n
    induction n with
    | zero =>
      intro _
      refine ⟨_, hinit, ?_⟩
      simp [Mem.value]
    | succ n ih =>
      intro hn
      obtain ⟨Cb, hst, hv⟩ := ih (by omega)
      rw [List.range_succ, List.foldl_append, List.foldl_append]
      simp only [List.foldl_cons, List.foldl_nil]
      generalize (List.range n).foldl (fun s i => Mem.ADS_set.copyLoop hasher
          s.1.elems.length (s.1.slot other.table i) s)
        ((((h.newArray N).1.deleteArray (h.newArray N).2).newArray other.tableSize).1,
          { table := (((h.newArray N).1.deleteArray (h.newArray N).2).newArray
              other.tableSize).2,
            elementSize := 0, tableSize := other.tableSize }) = s at hst hv ⊢
      obtain ⟨ho2, hsep⟩ := step_keeps h s.1 _ s.2 other [] Cb Co hst ho (null_sep h other Co ho)
      obtain ⟨Cb2, hst2, hv2⟩ := copyLoop_spec hasher (chainAt Co n) (s.1.slot other.table n)
        s.1.elems.length s Cb hst.rep (ho2.chain n (by omega))
        (fun c hc => hsep.2 c.1 ((mem_addrs Co c.1).mpr ⟨n, c, hc, rfl⟩))
        (cells_length_le s.1 other Co ho2 n)
      refine ⟨Cb2, step_trans _ _ _ _ _ _ _ _ _ hst hst2, ?_⟩
      rw [hv2, hv, chainAt_value]
  obtain ⟨Cb, hst, hv⟩ := hloop other.tableSize (Nat.le_refl _)
  exact ⟨Cb, hst, hv⟩

/-! ## Copy assignment and two objects in one store -/

theorem frame_keeps (h g : Mem.Heap Key) (a : Mem.ADS_set) (Ca : List (List (Nat × Key)))
    (A : Nat) (P : List Nat) (ha : Mem.Rep h a Ca) (hf : Mem.Frame h g A P)
    (hA : a.table ≠ A) (hP : ∀ p, p ∈ Mem.addrs Ca → p ∉ P) : Mem.Rep g a Ca := by
  obtain ⟨l, hl, hlen⟩ := ha.array
  have hl2 : g.array a.table = some l := hf.1 _ l hA hl
  refine ⟨ha.pos, ha.length_eq, ⟨l, hl2, hlen⟩, ?_, ha.nodup⟩
  intro i hi
  rw [slot_eq g _ i l hl2, ← slot_eq h _ i l hl]
  refine chain_frame h g _ _ (ha.chain i hi) ?_
  intro c hc
  have hp : c.1 ∈ Mem.addrs Ca := (mem_addrs Ca c.1).mpr ⟨i, c, hc, rfl⟩
  obtain ⟨e, he⟩ := rep_live h a Ca ha c.1 hp
  rw [he]
  exact hf.2 _ e (hP _ hp) he

theorem destroy_frame (s : Mem.Heap Key × Mem.ADS_set) (C : List (List (Nat × Key)))
    (hr : Mem.Rep s.1 s.2 C) :
    Mem.Frame s.1 (Mem.ADS_set.destroy s) s.2.table (Mem.addrs C) := by
  obtain ⟨hst, _⟩ := clear_step s C hr
  refine ⟨?_, ?_⟩
  · intro a l ha hl
    unfold Mem.ADS_set.destroy
    have h1 : (Mem.ADS_set.clear s).2.table = s.2.table := rfl
    rw [h1, array_deleteArray, if_neg ha]
    exact hst.frame.1 a l ha hl
  · intro p e hp he
    unfold Mem.ADS_set.destroy
    rw [elem_deleteArray]
    exact hst.frame.2 p e hp he

theorem swap_fst (self other : Mem.ADS_set) : (Mem.ADS_set.swap self other).1 = other := rfl

theorem swap_snd (self other : Mem.ADS_set) : (Mem.ADS_set.swap self other).2 = self := rfl

/-- The copy assignment `b = a` for two separate intact objects: afterwards `b`
is intact, holds the copy of `a` and is separate from `a`, which is intact and
unchanged. -/
theorem assign_spec (hasher : Key → Nat) (N : Nat) (h : Mem.Heap Key)
    (self other : Mem.ADS_set) (Cs Co : List (List (Nat × Key)))
    (hs : Mem.Rep h self Cs) (ho : Mem.Rep h other Co) (hsep : Mem.Sep self Cs other Co) :
    ∃ Cb, Mem.Rep (Mem.ADS_set.assign hasher N (h, self) other).1
        (Mem.ADS_set.assign hasher N (h, self) other).2 Cb ∧
      Mem.value (Mem.ADS_set.assign hasher N (h, self) other).2 Cb
        = ADS_set.copy hasher (Mem.value other Co) ∧
      Mem.Rep (Mem.ADS_set.assign hasher N (h, self) other).1 other Co ∧
      Mem.Sep other Co (Mem.ADS_set.assign hasher N (h, self) other).2 Cb := by
  obtain ⟨Ct, hst, hv⟩ := copy_spec hasher N h other Co ho
  obtain ⟨ho1, hsep1⟩ := step_keeps h _ _ _ other [] Ct Co hst ho (null_sep h other Co ho)
  obtain ⟨hs1, hsep2⟩ := step_keeps h _ _ _ self [] Ct Cs hst hs (null_sep h self Cs hs)
  have hres : Mem.ADS_set.assign hasher N (h, self) other
      = (Mem.ADS_set.destroy ((Mem.ADS_set.copy hasher N h other).1, self),
          (Mem.ADS_set.copy hasher N h other).2) := rfl
  rw [hres]
  have hfr := destroy_frame ((Mem.ADS_set.copy hasher N h other).1, self) Cs hs1
  refine ⟨Ct, ?_, hv, ?_, hsep1⟩
  · exact frame_keeps _ _ _ Ct _ _ hst.rep hfr (fun hh => hsep2.1 hh.symm)
      (fun p hp hq => hsep2.2 p hq hp)
  · exact frame_keeps _ _ _ Co _ _ ho1 hfr (fun hh => hsep.1 hh.symm)
      (fun p hp hq => hsep.2 p hq hp)

theorem callsOn_cons_same (flag : Bool) (op : Op Key) (calls : List (Bool × Op Key)) :
    Mem.callsOn flag ((flag, op) :: calls) = op :: Mem.callsOn flag calls := by
  simp [Mem.callsOn]

theorem callsOn_cons_other (flag : Bool) (op : Op Key) (calls : List (Bool × Op Key)) :
    Mem.callsOn flag ((!flag, op) :: calls) = Mem.callsOn flag calls := by
  cases flag <;> simp [Mem.callsOn]

theorem world_run (hasher : Key → Nat) :
    ∀ (calls : List (Bool × Op Key)) (h : Mem.Heap Key) (a b : Mem.ADS_set)
      (Ca Cb : List (List (Nat × Key))),
      Mem.Rep h a Ca → Mem.Rep h b Cb → Mem.Sep a Ca b Cb →
      ∃ Ca2 Cb2,
        Mem.Rep (calls.foldl (Mem.applyTo hasher) (h, a, b)).1
          (calls.foldl (Mem.applyTo hasher) (h, a, b)).2.1 Ca2 ∧
        Mem.Rep (calls.foldl (Mem.applyTo hasher) (h, a, b)).1
          (calls.foldl (Mem.applyTo hasher) (h, a, b)).2.2 Cb2 ∧
        Mem.Sep (calls.foldl (Mem.applyTo hasher) (h, a, b)).2.1 Ca2
          (calls.foldl (Mem.applyTo hasher) (h, a, b)).2.2 Cb2 ∧
        Mem.value (calls.foldl (Mem.applyTo hasher) (h, a, b)).2.1 Ca2
          = (Mem.callsOn true calls).foldl (Op.apply hasher) (Mem.value a Ca) ∧
        Mem.value (calls.foldl (Mem.applyTo hasher) (h, a, b)).2.2 Cb2
          = (Mem.callsOn false calls).foldl (Op.apply hasher) (Mem.value b Cb) := by
  intro calls
  induction calls with
  | nil =>
    intro h a b Ca Cb ha hb hsep
    exact ⟨Ca, Cb, ha, hb, hsep, rfl, rfl⟩
  | cons c rest ih =>
    intro h a b Ca Cb ha hb hsep
    obtain ⟨flag, op⟩ := c
    cases flag with
    | true =>
      obtain ⟨Ca1, hst, hv⟩ := apply_step hasher (h, a) Ca ha op
      obtain ⟨hb1, hsep1⟩ := step_keeps h _ a _ b Ca Ca1 Cb hst hb (sep_symm a b Ca Cb hsep)
      have hstep : Mem.applyTo hasher (h, a, b) (true, op)
          = ((Mem.apply hasher (h, a) op).1, (Mem.apply hasher (h, a) op).2, b) := rfl
      obtain ⟨Ca2, Cb2, k1, k2, k3, k4, k5⟩ := ih _ _ b Ca1 Cb hst.rep hb1
        (sep_symm _ _ _ _ hsep1)
      refine ⟨Ca2, Cb2, ?_, ?_, ?_, ?_, ?_⟩
      · simpa only [List.foldl_cons, hstep] using k1
      · simpa only [List.foldl_cons, hstep] using k2
      · simpa only [List.foldl_cons, hstep] using k3
      · rw [callsOn_cons_same]
        simp only [List.foldl_cons, hstep]
        rw [k4, hv]
      · have hc := callsOn_cons_other false op rest
        simp only [Bool.not_false] at hc
        rw [hc]
        simp only [List.foldl_cons, hstep]
        exact k5
    | false =>
      obtain ⟨Cb1, hst, hv⟩ := apply_step hasher (h, b) Cb hb op
      obtain ⟨ha1, hsep1⟩ := step_keeps h _ b _ a Cb Cb1 Ca hst ha hsep
      have hstep : Mem.applyTo hasher (h, a, b) (false, op)
          = ((Mem.apply hasher (h, b) op).1, a, (Mem.apply hasher (h, b) op).2) := rfl
      obtain ⟨Ca2, Cb2, k1, k2, k3, k4, k5⟩ := ih _ a _ Ca Cb1 ha1 hst.rep hsep1
      refine ⟨Ca2, Cb2, ?_, ?_, ?_, ?_, ?_⟩
      · simpa only [List.foldl_cons, hstep] using k1
      · simpa only [List.foldl_cons, hstep] using k2
      · simpa only [List.foldl_cons, hstep] using k3
      · have hc := callsOn_cons_other true op rest
        simp only [Bool.not_true] at hc
        rw [hc]
        simp only [List.foldl_cons, hstep]
        exact k4
      · rw [callsOn_cons_same]
        simp only [List.foldl_cons, hstep]
        rw [k5, hv]

/-- Two separate intact objects of one store do not depend on each other. -/
theorem independent_of_sep (hasher : Key → Nat) (h : Mem.Heap Key) (a b : Mem.ADS_set)
    (Ca Cb : List (List (Nat × Key))) (ha : Mem.Rep h a Ca) (hb : Mem.Rep h b Cb)
    (hsep : Mem.Sep a Ca b Cb) :
    Mem.Independent hasher (h, a, b) (Mem.value a Ca) (Mem.value b Cb) := by
  intro calls
  obtain ⟨Ca2, Cb2, k1, k2, _, k4, k5⟩ := world_run hasher calls h a b Ca Cb ha hb hsep
  refine ⟨?_, ?_, ?_, ?_⟩
  · rw [read_spec _ _ Ca2 k1, k4]
  · rw [read_spec _ _ Cb2 k2, k5]
  · intro k
    rw [count_spec hasher _ _ Ca2 k1 k, k4]
  · intro k
    rw [count_spec hasher _ _ Cb2 k2 k, k5]

/-- The copy constructor gives an object that does not depend on the original. -/
theorem copy_independent (hasher : Key → Nat) (N : Nat) (hN : 1 ≤ N) (h0 : Mem.Heap Key)
    (ops : List (Op Key)) :
    Mem.Independent hasher (Mem.copyWorld hasher N h0 ops)
      (run hasher N ops) (ADS_set.copy hasher (run hasher N ops)) := by
  obtain ⟨Ca, hsta, hva⟩ := run_rep hasher N hN h0 ops
  obtain ⟨Cb, hstb, hvb⟩ := copy_spec hasher N _ _ Ca hsta.rep
  obtain ⟨ha1, hsep⟩ := step_keeps _ _ _ _ _ [] Cb Ca hstb hsta.rep (null_sep _ _ Ca hsta.rep)
  have h1 := independent_of_sep hasher _ _ _ Ca Cb ha1 hstb.rep hsep
  rw [hvb, hva] at h1
  exact h1

/-- The copy assignment `b = a`, to an object `b` built in the same store after
`a`, makes `b` an object that does not depend on `a`. -/
theorem assign_independent (hasher : Key → Nat) (N : Nat) (hN : 1 ≤ N) (h0 : Mem.Heap Key)
    (ops opsb : List (Op Key)) :
    Mem.Independent hasher (Mem.assignWorld hasher N h0 ops opsb)
      (run hasher N ops) (ADS_set.copy hasher (run hasher N ops)) := by
  obtain ⟨Ca, hsta, hva⟩ := run_rep hasher N hN h0 ops
  obtain ⟨Cb0, hstb, _⟩ := run_rep hasher N hN (Mem.run hasher N h0 ops).1 opsb
  obtain ⟨ha1, hsep⟩ := step_keeps _ _ _ _ _ [] Cb0 Ca hstb hsta.rep (null_sep _ _ Ca hsta.rep)
  obtain ⟨Cb, k1, k2, k3, k4⟩ := assign_spec hasher N _ _ _ Cb0 Ca hstb.rep ha1
    (sep_symm _ _ _ _ hsep)
  have h1 := independent_of_sep hasher _ _ _ Ca Cb k3 k1 k4
  rw [k2, hva] at h1
  exact h1

theorem callsOn_callsFor_same (flag : Bool) (ops : List (Op Key)) :
    Mem.callsOn flag (Mem.callsFor flag ops) = ops := by
  induction ops with
  | nil => rfl
  | cons op rest ih =>
    have h1 : Mem.callsFor flag (op :: rest) = (flag, op) :: Mem.callsFor flag rest := rfl
    rw [h1, callsOn_cons_same, ih]

theorem callsOn_callsFor_other (flag : Bool) (ops : List (Op Key)) :
    Mem.callsOn flag (Mem.callsFor (!flag) ops) = [] := by
  induction ops with
  | nil => rfl
  | cons op rest ih =>
    have h1 : Mem.callsFor (!flag) (op :: rest) = (!flag, op) :: Mem.callsFor (!flag) rest := rfl
    rw [h1, callsOn_cons_other, ih]

/-- In a store where `b` is a member-wise copy of `a`, so that both objects point
to the same array, `erase` on `b` removes the key from `a` as well: such a pair is
not independent. -/
theorem shared_array_not_independent :
    ¬ Mem.Independent id
      ((Mem.run id 7 { elems := [], arrays := [] } [Op.insert 1]).1,
        (Mem.run id 7 { elems := [], arrays := [] } [Op.insert 1]).2,
        (Mem.run id 7 { elems := [], arrays := [] } [Op.insert 1]).2)
      (run id 7 [Op.insert 1]) (run id 7 [Op.insert 1]) := by
  intro h
  have h1 := (h [(false, Op.erase 1)]).2.2.1 1
  revert h1
  decide

/-! ## Claims on copies -/

theorem apply_mem_congr (hasher : Key → Nat) (s s2 : ADS_set Key) (hs : Inv hasher s)
    (hs2 : Inv hasher s2) (h : ∀ k, k ∈ s.keys ↔ k ∈ s2.keys) (op : Op Key) (k : Key) :
    k ∈ (op.apply hasher s).keys ↔ k ∈ (op.apply hasher s2).keys := by
  cases op with
  | insert key =>
    simp only [Op.apply, insert_state]
    rw [mem_keys_add hasher s hs key k, mem_keys_add hasher s2 hs2 key k, h k]
  | insertRange keys =>
    simp only [Op.apply]
    rw [mem_keys_insertRange hasher keys s hs k, mem_keys_insertRange hasher keys s2 hs2 k, h k]
  | erase key =>
    simp only [Op.apply]
    rw [mem_keys_erase hasher s hs key k, mem_keys_erase hasher s2 hs2 key k, h k]
  | clear =>
    simp only [Op.apply]
    rw [clear_keys s hs.length_eq, clear_keys s2 hs2.length_eq]

theorem foldl_apply_mem_congr (hasher : Key → Nat) (ops : List (Op Key)) :
    ∀ s s2 : ADS_set Key, Inv hasher s → Inv hasher s2 → (∀ k, k ∈ s.keys ↔ k ∈ s2.keys) →
      ∀ k, k ∈ (ops.foldl (Op.apply hasher) s).keys ↔ k ∈ (ops.foldl (Op.apply hasher) s2).keys := by
  induction ops with
  | nil => intro s s2 _ _ h k; exact h k
  | cons op ops ih =>
    intro s s2 hs hs2 h k
    exact ih _ _ (apply_inv hasher s hs op) (apply_inv hasher s2 hs2 op)
      (apply_mem_congr hasher s s2 hs hs2 h op) k

theorem size_congr (hasher : Key → Nat) (s s2 : ADS_set Key) (hs : Inv hasher s)
    (hs2 : Inv hasher s2) (h : ∀ k, k ∈ s.keys ↔ k ∈ s2.keys) : s.size = s2.size := by
  unfold ADS_set.size
  rw [hs.card, hs2.card]
  exact ((List.perm_ext_iff_of_nodup hs.nodup hs2.nodup).mpr h).length_eq

theorem copy_mem_keys (hasher : Key → Nat) (a : ADS_set Key) (ha : Inv hasher a) (k : Key) :
    k ∈ (a.copy hasher).keys ↔ k ∈ a.keys := by
  unfold ADS_set.keys
  rw [(copy_shape hasher a ha).2.2.1]
  exact (flatten_map_reverse_perm a.table).mem_iff

theorem copy_copy (hasher : Key → Nat) (a : ADS_set Key) (ha : Inv hasher a) :
    (a.copy hasher).copy hasher = a := by
  obtain ⟨h1, h2, h3, h4⟩ := copy_shape hasher a ha
  obtain ⟨g1, g2, g3, _⟩ := copy_shape hasher (a.copy hasher) h4
  have ht : ((a.copy hasher).copy hasher).table = a.table := by
    rw [g3, h3, List.map_map]
    have h5 : (List.reverse ∘ List.reverse : List Key → List Key) = id := by
      funext l
      simp
    rw [h5, List.map_id]
  have he : ((a.copy hasher).copy hasher).elementSize = a.elementSize := g2.trans h2
  have hs : ((a.copy hasher).copy hasher).tableSize = a.tableSize := g1.trans h1
  cases hcc : (a.copy hasher).copy hasher with
  | mk t e n =>
    rw [hcc] at ht he hs
    cases a with
    | mk t2 e2 n2 =>
      simp only at ht he hs
      rw [ht, he, hs]

/-- C17: for a reachable set `a`, the copy `b` (copy constructor, or `b = a` by
copy and swap) has `size(b) == size(a)` and `count_b(k) == count_a(k)` for every
key, so `b == a` and `a == b` return true, and after any sequence of insert, erase
and clear calls the copy holds what `a` would hold after the same calls.  In the
free store, with `a` built by any calls `ops` and `b` copied from it (by the copy
constructor, or by `b = a` for a `b` built by any calls `opsb`), the two objects
are independent: after any interleaving of insert, erase and clear calls on `a`
and on `b`, each holds exactly what its own calls make of it.  In particular
calls on `b` alone leave `a`, its `size()` and its `count` unchanged, and calls on
`a` alone leave `size()` and `count` of `b` unchanged. -/
theorem copy_same_and_independent (hasher : Key → Nat) (N : Nat) (hN : 1 ≤ N)
    (a : ADS_set Key) (hr : Reachable hasher N a) :
    (a.copy hasher).size = a.size ∧
      (∀ k, (a.copy hasher).count hasher k = a.count hasher k) ∧
      (∀ rounds, a.size < rounds →
        ADS_set.equals hasher rounds (a.copy hasher) a = some true ∧
        ADS_set.equals hasher rounds a (a.copy hasher) = some true) ∧
      (∀ (ops : List (Op Key)) (k : Key),
        (ops.foldl (Op.apply hasher) (a.copy hasher)).count hasher k
          = (ops.foldl (Op.apply hasher) a).count hasher k ∧
        (ops.foldl (Op.apply hasher) (a.copy hasher)).size
          = (ops.foldl (Op.apply hasher) a).size) ∧
      ∀ (h0 : Mem.Heap Key) (ops : List (Op Key)), a = run hasher N ops →
        Mem.Independent hasher (Mem.copyWorld hasher N h0 ops) a (a.copy hasher) ∧
        (∀ opsb : List (Op Key),
          Mem.Independent hasher (Mem.assignWorld hasher N h0 ops opsb) a (a.copy hasher)) ∧
        (∀ later : List (Op Key),
          Mem.read
              ((Mem.callsFor false later).foldl (Mem.applyTo hasher)
                (Mem.copyWorld hasher N h0 ops)).1
              ((Mem.callsFor false later).foldl (Mem.applyTo hasher)
                (Mem.copyWorld hasher N h0 ops)).2.1 = a ∧
            Mem.ADS_set.size ((Mem.callsFor false later).foldl (Mem.applyTo hasher)
                (Mem.copyWorld hasher N h0 ops)).2.1 = a.size ∧
            ∀ k, Mem.ADS_set.count hasher
                ((Mem.callsFor false later).foldl (Mem.applyTo hasher)
                  (Mem.copyWorld hasher N h0 ops)).1
                ((Mem.callsFor false later).foldl (Mem.applyTo hasher)
                  (Mem.copyWorld hasher N h0 ops)).2.1 k = a.count hasher k) ∧
        ∀ later : List (Op Key),
          Mem.ADS_set.size ((Mem.callsFor true later).foldl (Mem.applyTo hasher)
              (Mem.copyWorld hasher N h0 ops)).2.2 = a.size ∧
            ∀ k, Mem.ADS_set.count hasher
                ((Mem.callsFor true later).foldl (Mem.applyTo hasher)
                  (Mem.copyWorld hasher N h0 ops)).1
                ((Mem.callsFor true later).foldl (Mem.applyTo hasher)
                  (Mem.copyWorld hasher N h0 ops)).2.2 k = a.count hasher k := by
  have ha := hr.inv hN
  obtain ⟨h1, h2, h3, h4⟩ := copy_shape hasher a ha
  have hmem := copy_mem_keys hasher a ha
  have hcount : ∀ k, (a.copy hasher).count hasher k = a.count hasher k :=
    fun k => count_congr hasher _ _ h4 ha k (hmem k)
  refine ⟨h2, hcount, ?_, ?_, ?_⟩
  · intro rounds hlt
    refine ⟨?_, ?_⟩
    · exact (equals_true_iff hasher _ _ h4 ha rounds (by unfold ADS_set.size at hlt ⊢; omega)).mpr hcount
    · exact (equals_true_iff hasher _ _ ha h4 rounds hlt).mpr (fun k => (hcount k).symm)
  · intro ops k
    have h5 := foldl_apply_mem_congr hasher ops _ _ h4 ha hmem
    have i1 := foldl_apply_inv hasher ops _ h4
    have i2 := foldl_apply_inv hasher ops _ ha
    exact ⟨count_congr hasher _ _ i1 i2 k (h5 k), size_congr hasher _ _ i1 i2 h5⟩
  · intro h0 ops hops
    subst hops
    have hind := copy_independent hasher N hN h0 ops
    refine ⟨hind, fun opsb => assign_independent hasher N hN h0 ops opsb, ?_, ?_⟩
    · intro later
      obtain ⟨k1, _, k3, _⟩ := hind (Mem.callsFor false later)
      have hc := callsOn_callsFor_other true later
      simp only [Bool.not_true] at hc
      rw [hc] at k1 k3
      refine ⟨k1, ?_, k3⟩
      have k5 := congrArg ADS_set.elementSize k1
      exact k5
    · intro later
      obtain ⟨_, k2, _, k4⟩ := hind (Mem.callsFor true later)
      have hc := callsOn_callsFor_other false later
      simp only [Bool.not_false] at hc
      rw [hc] at k2 k4
      refine ⟨?_, fun k => (k4 k).trans (hcount k)⟩
      have k5 := congrArg ADS_set.elementSize k2
      exact k5.trans h2

theorem copy_same_and_independent_witness :
    1 ≤ 7 ∧ Reachable id 7 (run id 7 [Op.insertRange [3, 10, 17, 24, 46]]) ∧
      (Mem.copyWorld id 7 { elems := [], arrays := [] }
          [Op.insertRange [3, 10, 17, 24, 46]]).2.1.table
        ≠ (Mem.copyWorld id 7 { elems := [], arrays := [] }
          [Op.insertRange [3, 10, 17, 24, 46]]).2.2.table ∧
      ((run id 7 [Op.insertRange [3, 10, 17, 24, 46]]).copy id).size = 5 ∧
      ADS_set.equals id 6 ((run id 7 [Op.insertRange [3, 10, 17, 24, 46]]).copy id)
        (run id 7 [Op.insertRange [3, 10, 17, 24, 46]]) = some true ∧
      Mem.read
          ([(false, Op.erase 3), (false, Op.clear), (true, Op.insert 4)].foldl (Mem.applyTo id)
            (Mem.copyWorld id 7 { elems := [], arrays := [] }
              [Op.insertRange [3, 10, 17, 24, 46]])).1
          ([(false, Op.erase 3), (false, Op.clear), (true, Op.insert 4)].foldl (Mem.applyTo id)
            (Mem.copyWorld id 7 { elems := [], arrays := [] }
              [Op.insertRange [3, 10, 17, 24, 46]])).2.1
        = ([Op.insert 4] : List (Op Nat)).foldl (Op.apply id)
            (run id 7 [Op.insertRange [3, 10, 17, 24, 46]]) ∧
      Mem.ADS_set.count id
          ((Mem.callsFor false [Op.erase 3, Op.clear]).foldl (Mem.applyTo id)
            (Mem.copyWorld id 7 { elems := [], arrays := [] }
              [Op.insertRange [3, 10, 17, 24, 46]])).1
          ((Mem.callsFor false [Op.erase 3, Op.clear]).foldl (Mem.applyTo id)
            (Mem.copyWorld id 7 { elems := [], arrays := [] }
              [Op.insertRange [3, 10, 17, 24, 46]])).2.1 3 = 1 ∧
      Mem.ADS_set.count id
          ((Mem.callsFor false [Op.erase 3, Op.clear]).foldl (Mem.applyTo id)
            (Mem.copyWorld id 7 { elems := [], arrays := [] }
              [Op.insertRange [3, 10, 17, 24, 46]])).1
          ((Mem.callsFor false [Op.erase 3, Op.clear]).foldl (Mem.applyTo id)
            (Mem.copyWorld id 7 { elems := [], arrays := [] }
              [Op.insertRange [3, 10, 17, 24, 46]])).2.2 3 = 0 :=
  ⟨by decide, ⟨_, rfl⟩, by decide, by decide,
    ((copy_same_and_independent id 7 (by decide)
      (run id 7 [Op.insertRange [3, 10, 17, 24, 46]]) ⟨_, rfl⟩).2.2.1 6 (by decide)).1,
    (((copy_same_and_independent id 7 (by decide)
      (run id 7 [Op.insertRange [3, 10, 17, 24, 46]]) ⟨_, rfl⟩).2.2.2.2
        { elems := [], arrays := [] } [Op.insertRange [3, 10, 17, 24, 46]] rfl).1
        [(false, Op.erase 3), (false, Op.clear), (true, Op.insert 4)]).1,
    (((copy_same_and_independent id 7 (by decide)
      (run id 7 [Op.insertRange [3, 10, 17, 24, 46]]) ⟨_, rfl⟩).2.2.2.2
        { elems := [], arrays := [] } [Op.insertRange [3, 10, 17, 24, 46]] rfl).2.2.1
        [Op.erase 3, Op.clear]).2.2 3,
    by decide⟩

/-- C20: for a reachable set `a`, the copy constructor adds the keys of `a` one
after the other into an empty array of `a.tableSize` buckets and the bucket count
stays `a.tableSize` after each of these adds (no resize); the copy has `a`'s
`tableSize`, each of its chains is the reverse of the chain in the same bucket of
`a`, and the copy of the copy is `a` itself. -/
theorem copy_reverses_chains (hasher : Key → Nat) (N : Nat) (hN : 1 ≤ N)
    (a : ADS_set Key) (hr : Reachable hasher N a) :
    a.copy hasher = a.keys.foldl (ADS_set.add hasher)
        { table := List.replicate a.tableSize [], elementSize := 0,
          tableSize := a.tableSize } ∧
      (∀ n, ((a.keys.take n).foldl (ADS_set.add hasher)
        { table := List.replicate a.tableSize [], elementSize := 0,
          tableSize := a.tableSize }).tableSize = a.tableSize) ∧
      (a.copy hasher).tableSize = a.tableSize ∧
      (a.copy hasher).table.length = a.table.length ∧
      (∀ i, chainAt (a.copy hasher).table i = (chainAt a.table i).reverse) ∧
      (a.copy hasher).copy hasher = a := by
  have ha := hr.inv hN
  obtain ⟨h1, _, h3, h4⟩ := copy_shape hasher a ha
  refine ⟨copy_eq_foldl hasher a ha.length_eq, copy_no_resize hasher a ha, h1, ?_, ?_,
    copy_copy hasher a ha⟩
  · rw [h3, List.length_map]
  · intro i
    rw [h3]
    by_cases hi : i < a.table.length
    · rw [chainAt_of_lt _ i (by simpa using hi), chainAt_of_lt _ i hi]
      simp
    · rw [chainAt_of_le _ i (by simpa using hi), chainAt_of_le _ i (by omega)]
      rfl

theorem copy_reverses_chains_witness :
    1 ≤ 7 ∧ Reachable id 7 (run id 7 [Op.insertRange [0, 301, 602, 1, 44]]) ∧
      chainAt (run id 7 [Op.insertRange [0, 301, 602, 1, 44]]).table 0 = [0, 301, 602] ∧
      chainAt ((run id 7 [Op.insertRange [0, 301, 602, 1, 44]]).copy id).table 0
        = [602, 301, 0] ∧
      ((run id 7 [Op.insertRange [0, 301, 602, 1, 44]]).copy id).tableSize = 43 ∧
      ((run id 7 [Op.insertRange [0, 301, 602, 1, 44]]).copy id).copy id
        = run id 7 [Op.insertRange [0, 301, 602, 1, 44]] :=
  ⟨by decide, ⟨_, rfl⟩, by decide, by decide, by decide,
    (copy_reverses_chains id 7 (by decide)
      (run id 7 [Op.insertRange [0, 301, 602, 1, 44]]) ⟨_, rfl⟩).2.2.2.2.2⟩

/-! ## Order of iteration -/

theorem reduceOption_map_some (l : List Key) : (l.map some).reduceOption = l := by
  induction l with
  | nil => rfl
  | cons a l ih =>
    rw [List.map_cons, List.reduceOption_cons_of_some, ih]

theorem yielded_eq_keys (hasher : Key → Nat) (s : ADS_set Key) (hs : Inv hasher s) :
    s.yielded = s.keys := by
  obtain ⟨hb1, hb2, hb3⟩ := begin_rest s hs.length_eq
  have hsize : s.size = s.keys.length := hs.card
  obtain ⟨h1, _, _⟩ := iterate_rest s.size s.begin hb1 hb3 (by rw [hb2]; omega)
  unfold ADS_set.yielded
  rw [h1, hb2, hsize, List.take_length, reduceOption_map_some]

theorem flatten_pairwise_bucket (f : Key → Nat) (R : Key → Key → Prop) :
    ∀ (t : List (List Key)) (off : Nat), (∀ i k, k ∈ chainAt t i → f k = off + i) →
      (∀ i, (chainAt t i).Pairwise R) →
      t.flatten.Pairwise (fun x y => f x < f y ∨ (f x = f y ∧ R x y)) := by
  intro t
  induction t with
  | nil => intro off _ _; exact List.Pairwise.nil
  | cons a t ih =>
    intro off hp hR
    have ha : ∀ x ∈ a, f x = off := by
      intro x hx
      have h := hp 0 x (by rw [chainAt_cons_zero]; exact hx)
      simpa using h
    have ht : ∀ j k, k ∈ chainAt t j → f k = (off + 1) + j := by
      intro j k hk
      have h := hp (j + 1) k (by rw [chainAt_cons_succ]; exact hk)
      omega
    have hRa : a.Pairwise R := by
      have h := hR 0
      rwa [chainAt_cons_zero] at h
    have hRt : ∀ j, (chainAt t j).Pairwise R := by
      intro j
      have h := hR (j + 1)
      rwa [chainAt_cons_succ] at h
    rw [List.flatten_cons, List.pairwise_append]
    refine ⟨?_, ih (off + 1) ht hRt, ?_⟩
    · exact hRa.imp_of_mem (fun hx hy hxy => Or.inr ⟨by rw [ha _ hx, ha _ hy], hxy⟩)
    · intro x hx y hy
      obtain ⟨j, hj⟩ := (mem_flatten_iff_chainAt t y).mp hy
      left
      rw [ha x hx, ht j y hj]
      omega

theorem sublist_pair_total (a b : Key) (hab : a ≠ b) :
    ∀ l : List Key, a ∈ l → b ∈ l → List.Sublist [a, b] l ∨ List.Sublist [b, a] l := by
  intro l
  induction l with
  | nil => intro h; cases h
  | cons x l ih =>
    intro ha hb
    by_cases hxa : x = a
    · subst hxa
      have hb2 : b ∈ l := by
        rcases List.mem_cons.mp hb with h | h
        · exact absurd h.symm hab
        · exact h
      exact Or.inl (List.Sublist.cons₂ x (List.singleton_sublist.mpr hb2))
    · by_cases hxb : x = b
      · subst hxb
        have ha2 : a ∈ l := by
          rcases List.mem_cons.mp ha with h | h
          · exact absurd h hab
          · exact h
        exact Or.inr (List.Sublist.cons₂ x (List.singleton_sublist.mpr ha2))
      · have ha2 : a ∈ l := by
          rcases List.mem_cons.mp ha with h | h
          · exact absurd h.symm hxa
          · exact h
        have hb2 : b ∈ l := by
          rcases List.mem_cons.mp hb with h | h
          · exact absurd h.symm hxb
          · exact h
        rcases ih ha2 hb2 with h | h
        · exact Or.inl (List.Sublist.cons x h)
        · exact Or.inr (List.Sublist.cons x h)

theorem add_table_no_resize (hasher : Key → Nat) (s : ADS_set Key) (hs : Inv hasher s)
    (k : Key) (hk : k ∉ s.keys) (ht : (s.add hasher k).tableSize = s.tableSize) :
    (s.add hasher k).table = pushFront s.table (s.hash_func hasher k) k := by
  have hloc : (s.locate hasher k).isEmpty = true := (locate_isEmpty_iff hasher s hs k).mpr hk
  by_cases hov : overLoad (s.elementSize + 1) s.tableSize = true
  · have h := (add_absent hasher s hs k hk).2.2.2
    rw [if_pos hov, ht] at h
    have hpos := hs.pos
    omega
  · simp [ADS_set.add, hloc, hov]

/-- The order inside the chains after a run of `add` calls that did not resize:
whenever one of two keys of a chain was added in the run, the one nearer to the
head is the one inserted later. -/
theorem foldl_add_chain_order (hasher : Key → Nat) (s0 : ADS_set Key) (hs0 : Inv hasher s0)
    (old : List Key) (hold : ∀ x, x ∈ old ↔ x ∈ s0.keys) (ks : List Key) :
    (ks.foldl (ADS_set.add hasher) s0).tableSize = s0.tableSize →
      ∀ i, (chainAt (ks.foldl (ADS_set.add hasher) s0).table i).Pairwise
        (fun x y => (x ∉ old ∨ y ∉ old) →
          (old ++ ks).indexOf y < (old ++ ks).indexOf x) := by
  induction ks using List.reverseRecOn with
  | nil =>
    intro _ i
    apply List.pairwise_of_forall_mem_list
    intro x hx y hy hor
    have hx2 : x ∈ old := (hold x).mpr ((mem_flatten_iff_chainAt _ x).mpr ⟨i, hx⟩)
    have hy2 : y ∈ old := (hold y).mpr ((mem_flatten_iff_chainAt _ y).mpr ⟨i, hy⟩)
    rcases hor with h | h
    · exact absurd hx2 h
    · exact absurd hy2 h
  | append_singleton ks k ih =>
    intro ht i
    rw [List.foldl_append, List.foldl_cons, List.foldl_nil] at ht ⊢
    have hs : Inv hasher (ks.foldl (ADS_set.add hasher) s0) := insertRange_inv hasher ks s0 hs0
    have hle1 : s0.tableSize ≤ (ks.foldl (ADS_set.add hasher) s0).tableSize :=
      insertRange_tableSize_le hasher ks s0
    have hle2 : (ks.foldl (ADS_set.add hasher) s0).tableSize
        ≤ ((ks.foldl (ADS_set.add hasher) s0).add hasher k).tableSize := by
      rcases add_tableSize hasher (ks.foldl (ADS_set.add hasher) s0) k with h | h <;> omega
    have ht1 : (ks.foldl (ADS_set.add hasher) s0).tableSize = s0.tableSize := by omega
    have ht2 : ((ks.foldl (ADS_set.add hasher) s0).add hasher k).tableSize
        = (ks.foldl (ADS_set.add hasher) s0).tableSize := by omega
    have hmem : ∀ x, x ∈ (ks.foldl (ADS_set.add hasher) s0).keys ↔ x ∈ old ++ ks := by
      intro x
      have h := mem_keys_insertRange hasher ks s0 hs0 x
      unfold ADS_set.insertRange at h
      rw [h, List.mem_append, hold x]
      tauto
    have hchain : ∀ j x, x ∈ chainAt (ks.foldl (ADS_set.add hasher) s0).table j →
        x ∈ old ++ ks :=
      fun j x hx => (hmem x).mp ((mem_flatten_iff_chainAt _ x).mpr ⟨j, hx⟩)
    have hidx : ∀ x, x ∈ old ++ ks →
        (old ++ (ks ++ [k])).indexOf x = (old ++ ks).indexOf x := by
      intro x hx
      rw [← List.append_assoc]
      exact List.indexOf_append_of_mem hx
    have hstep : ∀ j, (chainAt (ks.foldl (ADS_set.add hasher) s0).table j).Pairwise
        (fun x y => (x ∉ old ∨ y ∉ old) →
          (old ++ (ks ++ [k])).indexOf y < (old ++ (ks ++ [k])).indexOf x) := by
      intro j
      apply (ih ht1 j).imp_of_mem
      intro x y hx hy hxy hor
      rw [hidx x (hchain j x hx), hidx y (hchain j y hy)]
      exact hxy hor
    by_cases hk : k ∈ (ks.foldl (ADS_set.add hasher) s0).keys
    · rw [add_present hasher _ hs k hk]
      exact hstep i
    · rw [add_table_no_resize hasher _ hs k hk ht2]
      have hlt : (ks.foldl (ADS_set.add hasher) s0).hash_func hasher k
          < (ks.foldl (ADS_set.add hasher) s0).table.length := by
        rw [hs.length_eq]; exact Nat.mod_lt _ hs.pos
      rw [chainAt_pushFront _ _ i k hlt]
      by_cases hi : (ks.foldl (ADS_set.add hasher) s0).hash_func hasher k = i
      · rw [if_pos hi, List.pairwise_cons, hi]
        refine ⟨?_, hstep i⟩
        intro y hy _
        have hy2 := hchain i y hy
        have hk2 : k ∉ old ++ ks := fun h => hk ((hmem k).mpr h)
        rw [hidx y hy2, ← List.append_assoc, List.indexOf_append_of_not_mem hk2]
        have h3 := List.indexOf_lt_length.mpr hy2
        omega
      · rw [if_neg hi]
        exact hstep i

theorem foldl_apply_inserts (hasher : Key → Nat) (ops : List (Op Key)) :
    (∀ op ∈ ops, op.isInsert = true) →
      ∀ s : ADS_set Key, ops.foldl (Op.apply hasher) s = (inserted ops).foldl (ADS_set.add hasher) s := by
  induction ops with
  | nil => intro _ s; rfl
  | cons op ops ih =>
    intro hins s
    have h1 := ih (fun o ho => hins o (List.mem_cons_of_mem _ ho)) (op.apply hasher s)
    have h2 : op.apply hasher s = op.insertedKeys.foldl (ADS_set.add hasher) s := by
      cases op with
      | insert key => simp only [Op.apply, insert_state, Op.insertedKeys, List.foldl_cons, List.foldl_nil]
      | insertRange keys => rfl
      | erase key => have h3 := hins (Op.erase key) (List.mem_cons_self _ _); cases h3
      | clear => have h3 := hins Op.clear (List.mem_cons_self _ _); cases h3
    simp only [List.foldl_cons, inserted, List.map_cons, List.flatten_cons, List.foldl_append]
    rw [h1, h2]
    rfl

theorem inserted_append (pre post : List (Op Key)) :
    inserted (pre ++ post) = inserted pre ++ inserted post := by
  simp [inserted]

theorem mem_inserted_iff (hasher : Key → Nat) (N : Nat) (hN : 1 ≤ N) (ops : List (Op Key))
    (hins : ∀ op ∈ ops, op.isInsert = true) (x : Key) :
    x ∈ inserted ops ↔ x ∈ (run hasher N ops).keys := by
  have h := mem_keys_foldl_inserts hasher ops _ (new_inv hasher N hN) hins x
  have h0 : x ∉ (ADS_set.new N : ADS_set Key).keys := by simp [ADS_set.keys, ADS_set.new]
  unfold run inserted
  rw [h]
  exact ⟨Or.inl, fun h2 => h2.resolve_right h0⟩

/-- C11 (as amended): for every set reached from the empty set by a sequence of
insert calls, the iteration from `begin()` to `end()` yields the keys in ascending
bucket-index order; and of two keys that share a bucket, a key first inserted
after the last resize (in a part `post` of the sequence during which the bucket
count did not change) is yielded before every key inserted earlier.  With `pre`
empty this is: as long as the bucket count is still `N`, keys of one bucket are
yielded most recently inserted first. -/
theorem iteration_order (hasher : Key → Nat) (N : Nat) (hN : 1 ≤ N)
    (pre post : List (Op Key)) (hins : ∀ op ∈ pre ++ post, op.isInsert = true) :
    AscendingBuckets hasher (run hasher N (pre ++ post)).tableSize
        (run hasher N (pre ++ post)).yielded ∧
      ((run hasher N (pre ++ post)).tableSize = (run hasher N pre).tableSize →
        RecentFirstSince hasher (run hasher N (pre ++ post)).tableSize (inserted pre)
          (inserted (pre ++ post)) (run hasher N (pre ++ post)).yielded) := by
  have hs := run_inv hasher N hN (pre ++ post)
  have hs0 := run_inv hasher N hN pre
  have hpre : ∀ op ∈ pre, op.isInsert = true :=
    fun op h => hins op (List.mem_append_left _ h)
  have hpost : ∀ op ∈ post, op.isInsert = true :=
    fun op h => hins op (List.mem_append_right _ h)
  have hplaced : ∀ i k, k ∈ chainAt (run hasher N (pre ++ post)).table i →
      hasher k % (run hasher N (pre ++ post)).tableSize = 0 + i := by
    intro i k hk
    rw [Nat.zero_add]
    exact hs.placed i k hk
  rw [yielded_eq_keys hasher _ hs]
  constructor
  · have h := flatten_pairwise_bucket
      (fun k => hasher k % (run hasher N (pre ++ post)).tableSize) (fun _ _ => True)
      (run hasher N (pre ++ post)).table 0 hplaced (fun i => List.pairwise_of_forall (fun _ _ => trivial))
    unfold AscendingBuckets ADS_set.keys
    apply h.imp
    intro x y hxy
    rcases hxy with h1 | h1
    · exact Nat.le_of_lt h1
    · exact Nat.le_of_eq h1.1
  · intro ht
    have hrun : run hasher N (pre ++ post)
        = (inserted post).foldl (ADS_set.add hasher) (run hasher N pre) := by
      unfold run
      rw [List.foldl_append]
      exact foldl_apply_inserts hasher post hpost _
    have hord := foldl_add_chain_order hasher (run hasher N pre) hs0 (inserted pre)
      (mem_inserted_iff hasher N hN pre hpre) (inserted post) (by rw [← hrun]; exact ht)
    rw [← hrun, ← inserted_append] at hord
    have hpw := flatten_pairwise_bucket
      (fun k => hasher k % (run hasher N (pre ++ post)).tableSize) _
      (run hasher N (pre ++ post)).table 0 hplaced hord
    intro a b ha hb hbold hbucket hidx
    have hab : a ≠ b := by
      intro h
      rw [h] at hidx
      exact Nat.lt_irrefl _ hidx
    have ha2 := (mem_inserted_iff hasher N hN (pre ++ post) hins a).mp ha
    have hb2 := (mem_inserted_iff hasher N hN (pre ++ post) hins b).mp hb
    rcases sublist_pair_total a b hab _ ha2 hb2 with h | h
    · have h2 := List.pairwise_iff_forall_sublist.mp hpw h
      rcases h2 with h3 | h3
      · simp only at h3
        omega
      · have h4 := h3.2 (Or.inr hbold)
        omega
    · exact h

theorem iteration_order_witness :
    1 ≤ 7 ∧
      (∀ op ∈ [Op.insertRange [0, 301, 602, 1]] ++ [Op.insert 43, Op.insert (86 : Nat)],
        op.isInsert = true) ∧
      (run id 7 ([Op.insertRange [0, 301, 602, 1]] ++ [Op.insert 43, Op.insert 86])).tableSize
        = (run id 7 [Op.insertRange [0, 301, 602, 1]]).tableSize ∧
      (run id 7 ([Op.insertRange [0, 301, 602, 1]] ++ [Op.insert 43, Op.insert 86])).yielded
        = [86, 43, 0, 301, 602, 1] ∧
      List.Sublist [86, 43]
        (run id 7 ([Op.insertRange [0, 301, 602, 1]] ++ [Op.insert 43, Op.insert 86])).yielded :=
  ⟨by decide, by decide, by decide, by decide,
    (iteration_order id 7 (by decide) [Op.insertRange [0, 301, 602, 1]]
      [Op.insert 43, Op.insert 86] (by decide)).2 (by decide) 43 86 (by decide) (by decide)
      (by decide) (by decide) (by decide)⟩

/-- C11 (as stated) fails: inserting 0, 301, 602, 1 with `N = 7` and the identity
hash resizes to 43 buckets on the fourth insert; the three keys of bucket 0 are
relinked from the head of their chain, so the iteration yields 0, 301, 602, 1:
the key 0, inserted first, is yielded before 301, inserted after it. -/
theorem recent_first_fails_after_resize :
    (run id 7 [Op.insert 0, Op.insert 301, Op.insert 602, Op.insert 1]).yielded
        = [0, 301, 602, 1] ∧
      ¬ (AscendingBuckets id
            (run id 7 [Op.insert 0, Op.insert 301, Op.insert 602, Op.insert 1]).tableSize
            (run id 7 [Op.insert 0, Op.insert 301, Op.insert 602, Op.insert 1]).yielded ∧
          RecentFirstSince id
            (run id 7 [Op.insert 0, Op.insert 301, Op.insert 602, Op.insert 1]).tableSize []
            (inserted [Op.insert 0, Op.insert 301, Op.insert 602, Op.insert 1])
            (run id 7 [Op.insert 0, Op.insert 301, Op.insert 602, Op.insert 1]).yielded) := by
  refine ⟨by decide, ?_⟩
  intro h
  have h1 := h.2 0 301 (by decide) (by decide) (List.not_mem_nil _) (by decide) (by decide)
  exact absurd h1 (by decide)

end ADS
